import Mathlib

/-!
Konsole: the Pty write queue, process start-up and terminal settings
(src/src/Pty.cpp), and the colour schemas with their list
(src/konsole/schema.cpp).

A shallow embedding.  The state of an object is a record, the member
functions are pure functions on it, and everything a member function does to
the outside (calls into `K3Process`, Qt signals, warnings) is returned as a
chronological list of effects.  Results of calls into the operating system,
into `K3Process` and into the KDE libraries are passed in as arguments; the
scanning functions of the C library that `schema.cpp` uses are written out.
-/

namespace Konsole

/-! ## Data model -/

/-- The class `SendJob`: a private copy of the `len` bytes handed to
`sendData`.  A byte is a natural number. -/
structure SendJob where
  buffer : List Nat
  deriving DecidableEq, Repr

/-- The accessor `SendJob::data()`. -/
def SendJob.data (j : SendJob) : List Nat := j.buffer

/-- The accessor `SendJob::length()`. -/
def SendJob.length (j : SendJob) : Nat := j.buffer.length

/-- The enum `K3Process::Communication`, as far as `Pty.cpp` names it. -/
inductive Communication
  | NoCommunication
  | Stdin
  | Stdout
  | StdinStdout
  | All
  deriving DecidableEq, Repr

/-- What a member function of `Pty` does to the outside, in program order.
`writeStdin job result` is a call `writeStdin(job.data(), job.length())`
together with the value the call returned. -/
inductive Effect
  | writeStdin (job : SendJob) (result : Bool)
  | bufferEmpty
  | qWarning (msg : String)
  | resume
  | suspend
  | start (result : Bool)
  deriving DecidableEq, Repr

/-- The state of a `Pty` object: the members of `K3Process` that `Pty.cpp`
writes (`arguments`, the binary executable, the environment map, the pty
usage flags) and the two members of `Pty` itself. -/
structure Pty where
  arguments : List (List Nat)
  executable : List Nat
  env : List (String × String)
  usePty : Communication
  addUtmp : Bool
  _pendingSendJobs : List SendJob
  _bufferFull : Bool
  deriving DecidableEq, Repr

/-! ## The write queue -/

/-- The text `Pty::doSendJobs` passes to `qWarning`. -/
def sendWarning : String :=
  "Pty::doSendJobs - Could not send input data to terminal process."

/-- The method `Pty::doSendJobs`.  `ok` is the value `writeStdin` returns
if it is called. -/
def Pty.doSendJobs (p : Pty) (ok : Bool) : Pty × List Effect :=
  match p._pendingSendJobs with
  | [] => (p, [Effect.bufferEmpty])
  | job :: _ =>
    if !ok then
      (p, [Effect.writeStdin job false, Effect.qWarning sendWarning])
    else
      ({ p with _bufferFull := true }, [Effect.writeStdin job true])

/-- The method `Pty::appendSendJob`; the argument is the job `SendJob(s,len)`. -/
def Pty.appendSendJob (p : Pty) (job : SendJob) : Pty :=
  { p with _pendingSendJobs := p._pendingSendJobs ++ [job] }

/-- The method `Pty::sendData`; `job` is `SendJob(s,len)` and `ok` is the
value `writeStdin` returns if it is called. -/
def Pty.sendData (p : Pty) (job : SendJob) (ok : Bool) : Pty × List Effect :=
  let p1 := p.appendSendJob job
  if !p1._bufferFull then p1.doSendJobs ok else (p1, [])

/-- The slot `Pty::writeReady`.  Erasing `begin()` of an empty list is
undefined, and the model has no result there. -/
def Pty.writeReady (p : Pty) (ok : Bool) : Option (Pty × List Effect) :=
  match p._pendingSendJobs with
  | [] => none
  | _ :: rest =>
    some (Pty.doSendJobs { p with _pendingSendJobs := rest, _bufferFull := false } ok)

/-- The constructor `Pty::Pty`: the members of a fresh `K3Process` are
empty, `_bufferFull = false`, and `setUsePty(All, false)`. -/
def Pty.new : Pty :=
  { arguments := [], executable := [], env := [],
    usePty := Communication.All, addUtmp := false,
    _pendingSendJobs := [], _bufferFull := false }

/-! ## The queue under a stream of events -/

/-- An event delivered to the object: a call of `sendData`, or the signal
`wroteStdin` that runs the slot `writeReady`.  Each carries the answer
`writeStdin` gives if the handler calls it. -/
inductive Event
  | sendData (job : SendJob) (ok : Bool)
  | writeReady (ok : Bool)
  deriving DecidableEq, Repr

/-- The number of calls of `writeStdin` in a list of effects that the
process accepted. -/
def accepted : List Effect → Nat
  | [] => 0
  | Effect.writeStdin _ true :: es => accepted es + 1
  | _ :: es => accepted es

/-- The jobs handed to `writeStdin`, in call order. -/
def submitted : List Effect → List SendJob
  | [] => []
  | Effect.writeStdin job _ :: es => job :: submitted es
  | _ :: es => submitted es

/-- Whether every call of `writeStdin` in a list of effects succeeded. -/
def allSucceed : List Effect → Bool
  | [] => true
  | Effect.writeStdin _ false :: _ => false
  | _ :: es => allSucceed es

/-- The number of `bufferEmpty` signals in a list of effects. -/
def bufferEmptyCount : List Effect → Nat
  | [] => 0
  | Effect.bufferEmpty :: es => bufferEmptyCount es + 1
  | _ :: es => bufferEmptyCount es

/-- The jobs of the accepted calls of `writeStdin`, in call order. -/
def acceptedJobs : List Effect → List SendJob
  | [] => []
  | Effect.writeStdin job true :: es => job :: acceptedJobs es
  | _ :: es => acceptedJobs es

/-- The job of the last accepted call of `writeStdin`, if any. -/
def lastAccepted (es : List Effect) : Option SendJob := (acceptedJobs es).getLast?

/-- The jobs passed to `sendData`, in call order. -/
def enqueued : List Event → List SendJob
  | [] => []
  | Event.sendData job _ :: es => job :: enqueued es
  | Event.writeReady _ :: es => enqueued es

/-- The object together with its surroundings: `outstanding` counts the
submits the process accepted and has not yet confirmed by `wroteStdin`,
`log` is everything the object did so far. -/
structure World where
  pty : Pty
  outstanding : Nat
  log : List Effect
  deriving DecidableEq, Repr

/-- The world right after the constructor. -/
def World.init : World := { pty := Pty.new, outstanding := 0, log := [] }

/-- One event.  `wroteStdin` is the completion of an accepted submit, so it
is delivered only while one is outstanding. -/
def World.step (w : World) : Event → Option World
  | Event.sendData job ok =>
    let r := w.pty.sendData job ok
    some { pty := r.1, outstanding := w.outstanding + accepted r.2, log := w.log ++ r.2 }
  | Event.writeReady ok =>
    if w.outstanding = 0 then none
    else
      match w.pty.writeReady ok with
      | none => none
      | some r =>
        some { pty := r.1, outstanding := w.outstanding - 1 + accepted r.2, log := w.log ++ r.2 }

/-- A sequence of events, from left to right. -/
def World.run (w : World) : List Event → Option World
  | [] => some w
  | e :: es =>
    match w.step e with
    | none => none
    | some w1 => w1.run es

/-- The number of jobs at the front of the queue that have been handed to
the process and accepted: one while `_bufferFull`, none otherwise. -/
def Pty.inFlight (p : Pty) : Nat := if p._bufferFull then 1 else 0

/-- Three jobs used in the worked examples. -/
def jobA : SendJob := { buffer := [108, 115] }

/-- See `jobA`. -/
def jobB : SendJob := { buffer := [10] }

/-- See `jobA`. -/
def jobC : SendJob := { buffer := [112, 119, 100, 10] }

/-- A worked example: three jobs are sent while the process confirms one. -/
def demoEvents : List Event :=
  [Event.sendData jobA true, Event.sendData jobB true, Event.writeReady true,
   Event.sendData jobC true]

/-- The world after `demoEvents`. -/
def demoWorld : World :=
  { pty := { Pty.new with _pendingSendJobs := [jobB, jobC], _bufferFull := true },
    outstanding := 1,
    log := [Effect.writeStdin jobA true, Effect.writeStdin jobB true] }

/-- A worked example with a rejected submit: the first job is rejected, then
sent again with the second call. -/
def stallEvents : List Event :=
  [Event.sendData jobA false, Event.sendData jobB true]

/-- The world after `stallEvents`. -/
def stallWorld : World :=
  { pty := { Pty.new with _pendingSendJobs := [jobA, jobB], _bufferFull := true },
    outstanding := 1,
    log := [Effect.writeStdin jobA false, Effect.qWarning sendWarning,
            Effect.writeStdin jobA true] }

/-- What holds of the object and its surroundings after every admissible
sequence of events `evs`. -/
structure Inv (evs : List Event) (w : World) : Prop where
  count : w.outstanding = w.pty.inFlight
  head : w.pty._bufferFull = true →
    ∃ j rest, w.pty._pendingSendJobs = j :: rest ∧ lastAccepted w.log = some j
  fifo : allSucceed w.log = true →
    enqueued evs = submitted w.log ++ w.pty._pendingSendJobs.drop w.pty.inFlight
  idle : allSucceed w.log = true → w.pty._bufferFull = false → w.pty._pendingSendJobs = []

/-! ## Locking, process start-up, foreground process, tty permissions -/

/-- The conversion `QString::toLatin1`: a UTF-16 code unit above 255 becomes
a question mark; a character outside the basic plane is two code units. -/
def toLatin1 (s : String) : List Nat :=
  s.data.flatMap fun c =>
    if c.toNat < 256 then [c.toNat] else if c.toNat < 65536 then [63] else [63, 63]

/-- The conversion `QString::toUtf8`. -/
def toUtf8 (s : String) : List Nat :=
  s.data.flatMap fun c => (String.utf8EncodeChar c).map UInt8.toNat

/-- The call `K3Process::setEnvironment(name, value)` on the environment
map: the binding of `name` is replaced. -/
def setEnvironment (env : List (String × String)) (name value : String) :
    List (String × String) :=
  (name, value) :: env.filter fun kv => kv.1 != name

/-- The value of a variable in the environment map. -/
def getEnvironment (env : List (String × String)) (name : String) : Option String :=
  env.lookup name

/-- The method `Pty::start`.  `winid` is the value of the `ulong` argument,
`startOk` is the value `K3Process::start` returns.  The result is the new
state, the effects, and the returned `int`. -/
def Pty.start (p : Pty) (program : String) (programArguments : List String)
    (term : String) (winid : Nat) (addToUtmp : Bool)
    (dbusService dbusSession : String) (startOk : Bool) : Pty × List Effect × Int :=
  let p1 := { p with arguments := [] }
  let p2 := { p1 with executable := toLatin1 program }
  let p3 := { p2 with arguments := p2.arguments ++ programArguments.map toUtf8 }
  let p4 := if !term.isEmpty then { p3 with env := setEnvironment p3.env "TERM" term } else p3
  let p5 := if !dbusService.isEmpty then
      { p4 with env := setEnvironment p4.env "KONSOLE_DBUS_SERVICE" dbusService } else p4
  let p6 := if !dbusSession.isEmpty then
      { p5 with env := setEnvironment p5.env "KONSOLE_DBUS_SESSION" dbusSession } else p5
  let p7 := { p6 with env := setEnvironment p6.env "WINDOWID" (toString winid) }
  let p8 := { p7 with usePty := Communication.All, addUtmp := addToUtmp }
  if startOk == false then
    (p8, [Effect.start false], -1)
  else
    (p8, [Effect.start true, Effect.resume], 0)

/-- The method `Pty::foregroundProcessGroup`; `pgrp` is the value
`tcgetpgrp(pty()->masterFd())` returns. -/
def Pty.foregroundProcessGroup (pgrp : Int) : Int :=
  if pgrp != -1 then pgrp else 0

/-- The permission bit `S_IWGRP` of `sys/stat.h`, octal 020. -/
def S_IWGRP : Nat := 16

/-- The permission bit `S_IWOTH` of `sys/stat.h`, octal 002. -/
def S_IWOTH : Nat := 2

/-- The type `mode_t` is an unsigned 32-bit integer; `~x` on it is the
exclusive or with this value. -/
def modeMask : Nat := 2 ^ 32 - 1

/-- The method `Pty::setWriteable`: the mode it passes to `chmod`, where
`st_mode` is the mode `stat` stored in `sbuf`. -/
def Pty.setWriteable (st_mode : Nat) (writeable : Bool) : Nat :=
  if writeable then
    st_mode ||| S_IWGRP
  else
    st_mode &&& (modeMask ^^^ (S_IWGRP ||| S_IWOTH))

/-! ## Terminal attributes -/

/-- The structure `struct termios` of `termios.h`. -/
structure Termios where
  c_iflag : Nat
  c_oflag : Nat
  c_cflag : Nat
  c_lflag : Nat
  c_line : Nat
  c_cc : List Nat
  c_ispeed : Nat
  c_ospeed : Nat
  deriving DecidableEq, Repr

/-- The index `VERASE` of `termios.h` into `c_cc` (its value on Linux). -/
def VERASE : Nat := 2

/-- What `Pty::setErase` does to the outside, in program order. -/
inductive TermEffect
  | tcgetattr (result : Bool)
  | tcsetattr (tios : Termios) (result : Bool)
  | qWarning (msg : String)
  deriving DecidableEq, Repr

/-- The method `Pty::setErase`.  `tty` holds the attributes of the terminal
behind the slave descriptor; `getOk` and `setOk` tell whether `tcgetattr`
and `tcsetattr` succeed (return 0); `erase` is the byte of the `char`
argument.  A successful `tcgetattr` fills `tios` with the attributes of the
terminal, a successful `tcsetattr` installs the ones it is given.  The
method returns `void`: the result is the terminal afterwards and the
effects. -/
def Pty.setErase (tty : Termios) (getOk setOk : Bool) (erase : Nat) :
    Termios × List TermEffect :=
  if !getOk then
    (tty, [TermEffect.tcgetattr false,
           TermEffect.qWarning "Unable to get terminal attributes."])
  else
    let tios := { tty with c_cc := tty.c_cc.set VERASE erase }
    if !setOk then
      (tty, [TermEffect.tcgetattr true, TermEffect.tcsetattr tios false,
             TermEffect.qWarning "Unable to set terminal attributes."])
    else
      (tios, [TermEffect.tcgetattr true, TermEffect.tcsetattr tios true])

/-- The attribute sets handed to `tcsetattr`, in call order. -/
def attributeWrites : List TermEffect → List Termios
  | [] => []
  | TermEffect.tcsetattr tios _ :: es => tios :: attributeWrites es
  | _ :: es => attributeWrites es

/-- A terminal used in the worked examples: erase is DEL. -/
def demoTermios : Termios :=
  { c_iflag := 0o2400, c_oflag := 5, c_cflag := 0o277, c_lflag := 0o105073, c_line := 0,
    c_cc := [3, 28, 127, 21, 4, 0, 1, 0, 17, 19, 26, 0, 18, 15, 23, 22],
    c_ispeed := 15, c_ospeed := 15 }

/-! ## Colour schemas (src/konsole/schema.cpp): data model -/

/-- The number of entries of a colour table, `TABLE_COLORS`: the number of
initialisers of `colornames` and of `default_table`. -/
def TABLE_COLORS : Int := 20

/-- The palette roles `schema.cpp` asks the application palette for. -/
inductive PaletteRole
  | Text
  | Base
  deriving DecidableEq, Repr

/-- A `QColor`, kept as the call that made it: `QColor()`, `QColor(r,g,b)`,
`QColor()` followed by `setHsv(h,s,v)`, or a colour of the application
palette, `kapp->palette().color(QPalette::Active, role)`. -/
inductive QColor
  | invalid
  | rgb (r g b : Int)
  | hsv (h s v : Int)
  | palette (role : PaletteRole)
  deriving DecidableEq, Repr

/-- The structure `ColorEntry`; the two flags are kept as the integers
assigned to them. -/
structure ColorEntry where
  color : QColor
  transparent : Int
  bold : Int
  deriving DecidableEq, Repr

/-- A value of type `float` or `double`.  Floating point is not modelled: a
value is kept as the text that denotes it. -/
structure FloatVal where
  text : List Char
  deriving DecidableEq, Repr

/-- The members of a `ColorSchema` object.  `lastRead` is a pointer to a
`QDateTime`: `none` is the null pointer, a time is a number. -/
structure ColorSchema where
  m_numb : Int
  m_tr_x : FloatVal
  m_tr_r : Int
  m_tr_g : Int
  m_tr_b : Int
  m_title : String
  m_imagePath : String
  m_alignment : Int
  m_table : List ColorEntry
  m_useTransparency : Bool
  m_fileRead : Bool
  fRelPath : String
  lastRead : Option Nat
  deriving DecidableEq, Repr

/-- What `schema.cpp` reads from its surroundings: the translation
catalogue, the resource directories and the file system, the clock, the
random number generator, and two conversions of the C library (`%g`, applied
behind leading white space, and the `int` that `%d` stores for a digit
string of a given value, which is that value whenever an `int` can hold
it). -/
structure Env where
  i18n : String → String
  locate : String → String → String
  fileExists : String → Bool
  fopen : String → Option (List Char)
  lastModified : String → Nat
  currentDateTime : Nat
  random : Int
  scanFloat : List Char → Option (FloatVal × List Char)
  conv : Int → Int
  resources : List String

/-- The table `default_table`. -/
def default_table : List ColorEntry :=
  [⟨QColor.rgb 0x00 0x00 0x00, 0, 0⟩, ⟨QColor.rgb 0xFF 0xFF 0xFF, 1, 0⟩,
   ⟨QColor.rgb 0x00 0x00 0x00, 0, 0⟩, ⟨QColor.rgb 0xB2 0x18 0x18, 0, 0⟩,
   ⟨QColor.rgb 0x18 0xB2 0x18, 0, 0⟩, ⟨QColor.rgb 0xB2 0x68 0x18, 0, 0⟩,
   ⟨QColor.rgb 0x18 0x18 0xB2, 0, 0⟩, ⟨QColor.rgb 0xB2 0x18 0xB2, 0, 0⟩,
   ⟨QColor.rgb 0x18 0xB2 0xB2, 0, 0⟩, ⟨QColor.rgb 0xB2 0xB2 0xB2, 0, 0⟩,
   ⟨QColor.rgb 0x00 0x00 0x00, 0, 1⟩, ⟨QColor.rgb 0xFF 0xFF 0xFF, 1, 0⟩,
   ⟨QColor.rgb 0x68 0x68 0x68, 0, 0⟩, ⟨QColor.rgb 0xFF 0x54 0x54, 0, 0⟩,
   ⟨QColor.rgb 0x54 0xFF 0x54, 0, 0⟩, ⟨QColor.rgb 0xFF 0xFF 0x54, 0, 0⟩,
   ⟨QColor.rgb 0x54 0x54 0xFF, 0, 0⟩, ⟨QColor.rgb 0xFF 0x54 0xFF, 0, 0⟩,
   ⟨QColor.rgb 0x54 0xFF 0xFF, 0, 0⟩, ⟨QColor.rgb 0xFF 0xFF 0xFF, 0, 0⟩]

/-- The value `0.0`. -/
def FloatVal.zero : FloatVal := ⟨['0', '.', '0']⟩

/-- The method `ColorSchema::clearSchema`. -/
def ColorSchema.clearSchema (env : Env) (s : ColorSchema) : ColorSchema :=
  { s with
    m_table := List.replicate TABLE_COLORS.toNat ⟨QColor.rgb 0 0 0, 0, 0⟩
    m_title := env.i18n "[no title]"
    m_imagePath := ""
    m_alignment := 1
    m_useTransparency := false
    m_tr_x := FloatVal.zero
    m_tr_r := 0
    m_tr_g := 0
    m_tr_b := 0 }

/-- The method `ColorSchema::setDefaultSchema`. -/
def ColorSchema.setDefaultSchema (env : Env) (s : ColorSchema) : ColorSchema :=
  { s with
    m_numb := 0
    m_title := env.i18n "Konsole Default"
    m_imagePath := ""
    m_alignment := 1
    m_useTransparency := false
    m_tr_r := 0
    m_tr_g := 0
    m_tr_b := 0
    m_tr_x := FloatVal.zero
    m_table := default_table }

/-- The members of an object before its constructor body runs; the members
without an initialiser are all assigned by `clearSchema` or
`setDefaultSchema` before they are read. -/
def ColorSchema.raw (lastRead : Option Nat) : ColorSchema :=
  { m_numb := 0, m_tr_x := FloatVal.zero, m_tr_r := 0, m_tr_g := 0, m_tr_b := 0,
    m_title := "", m_imagePath := "", m_alignment := 0, m_table := [],
    m_useTransparency := false, m_fileRead := false, fRelPath := "", lastRead := lastRead }

/-- Whether a `QString` starts with a slash: `startsWith("/")`. -/
def startsWithSlash (s : String) : Bool := s.data.head? == some '/'

/-- The constructor `ColorSchema::ColorSchema(const QString& pathname)`;
`serial` is the static counter `ColorSchema::serial`, returned incremented.
The counter is an `int`; the model counts in the integers, which is the
same as long as the counter stays below `INT_MAX`. -/
def ColorSchema.fromPath (env : Env) (serial : Int) (pathname : String) : ColorSchema × Int :=
  let s0 := ColorSchema.raw (some env.currentDateTime)
  let fPath := if startsWithSlash pathname then pathname
    else env.locate "data" ("konsole/" ++ pathname)
  let s1 :=
    if fPath.isEmpty || !env.fileExists fPath then
      ColorSchema.setDefaultSchema env { s0 with fRelPath := "" }
    else
      ColorSchema.clearSchema env { s0 with fRelPath := pathname }
  ({ s1 with m_numb := serial }, serial + 1)

/-- The constructor `ColorSchema::ColorSchema()`. -/
def ColorSchema.default (env : Env) : ColorSchema :=
  { ColorSchema.setDefaultSchema env (ColorSchema.raw none) with m_numb := 0 }

/-- The table `colornames`. -/
def colornames : List String :=
  ["fgnormal", "bgnormal", "bg0", "bg1", "bg2", "bg3", "bg4", "bg5", "bg6", "bg7",
   "fgintense", "bgintense", "bg0i", "bg1i", "bg2i", "bg3i", "bg4i", "bg5i", "bg6i", "bg7i"]

/-- The static method `ColorSchema::colorName`. -/
def ColorSchema.colorName (i : Int) : String :=
  if i < 0 || i ≥ TABLE_COLORS then "" else colornames.getD i.toNat ""

/-- What the constructor from a `KConfig` reads from the configuration, as
the values `readEntry` returns (defaults applied): the entries of the group
`SchemaGeneral`, and for a group name the colour and the two booleans. -/
structure KConfig where
  title : String
  imagePath : String
  imageAlignment : Int
  useTransparency : Bool
  transparentR : Int
  transparentG : Int
  transparentB : Int
  transparentX : FloatVal
  color : String → QColor
  transparent : String → Bool
  bold : String → Bool

/-- The method `ColorSchema::readConfigColor`: the entry read for a group. -/
def ColorSchema.readConfigColor (c : KConfig) (name : String) : ColorEntry :=
  { color := c.color name
    transparent := if c.transparent name then 1 else 0
    bold := if c.bold name then 1 else 0 }

/-- The constructor `ColorSchema::ColorSchema(KConfig& c)`, with the static
counter as in `ColorSchema.fromPath`. -/
def ColorSchema.fromConfig (env : Env) (serial : Int) (c : KConfig) : ColorSchema × Int :=
  let s1 := ColorSchema.clearSchema env (ColorSchema.raw none)
  let s2 := { s1 with
    m_title := c.title
    m_imagePath := c.imagePath
    m_alignment := c.imageAlignment
    m_useTransparency := c.useTransparency
    m_tr_r := c.transparentR
    m_tr_g := c.transparentG
    m_tr_b := c.transparentB
    m_tr_x := c.transparentX }
  let s3 := { s2 with
    m_table := (List.range TABLE_COLORS.toNat).map fun i =>
      ColorSchema.readConfigColor c (ColorSchema.colorName i) }
  ({ s3 with m_numb := serial }, serial + 1)

/-! ## Colour schemas: the C library's scanning functions -/

/-- The function `isspace` in the C locale. -/
def isspace (c : Char) : Bool := c.toNat == 32 || (9 ≤ c.toNat && c.toNat ≤ 13)

/-- The function `isdigit`. -/
def isdigit (c : Char) : Bool := 48 ≤ c.toNat && c.toNat ≤ 57

/-- White space in a format, and the white space a conversion skips first. -/
def skipSpace (input : List Char) : List Char := input.dropWhile isspace

/-- The value of a string of decimal digits. -/
def digitsValue (ds : List Char) : Nat := ds.foldl (fun a c => a * 10 + (c.toNat - 48)) 0

/-- The conversion `%d`: white space, an optional sign, one digit or more.
The result is the `int` stored and the input left, `none` on a matching
failure. -/
def scanInt (conv : Int → Int) (input : List Char) : Option (Int × List Char) :=
  let s := skipSpace input
  let neg := s.head? == some '-'
  let s1 := if s.head? == some '-' || s.head? == some '+' then s.tail else s
  let ds := s1.takeWhile isdigit
  if ds.isEmpty then none
  else
    some (conv (if neg then -(digitsValue ds : Int) else (digitsValue ds : Int)),
      s1.dropWhile isdigit)

/-- A run of `n` conversions `%d`, separated by white space or not: the
values stored, in order, up to the first matching failure. -/
def scanInts (conv : Int → Int) : Nat → List Char → List Int
  | 0, _ => []
  | n + 1, input =>
    match scanInt conv input with
    | none => []
    | some (v, rest) => v :: scanInts conv n rest

/-- The conversion `%s`: white space, then one character or more that is
not white space. -/
def scanStr (input : List Char) : Option (List Char × List Char) :=
  let s := skipSpace input
  let w := s.takeWhile fun c => !isspace c
  if w.isEmpty then none else some (w, s.dropWhile fun c => !isspace c)

/-- Ordinary characters in a format: they must be the next characters of
the input. -/
def matchLit : List Char → List Char → Option (List Char)
  | [], input => some input
  | _ :: _, [] => none
  | c :: cs, d :: ds => if c = d then matchLit cs ds else none

/-- The call `sscanf(line, "<keyword> %d ... %d", ...)` with `n` conversions:
the values stored; the call returns their number (or `EOF`, when there is
none). -/
def sscanfInts (conv : Int → Int) (keyword : List Char) (n : Nat) (line : List Char) :
    List Int :=
  match matchLit keyword line with
  | none => []
  | some rest => scanInts conv n rest

/-- The keywords of a schema file. -/
def kwTitle : List Char := ['t', 'i', 't', 'l', 'e']

/-- See `kwTitle`. -/
def kwImage : List Char := ['i', 'm', 'a', 'g', 'e']

/-- See `kwTitle`. -/
def kwTransparency : List Char :=
  ['t', 'r', 'a', 'n', 's', 'p', 'a', 'r', 'e', 'n', 'c', 'y']

/-- See `kwTitle`. -/
def kwRcolor : List Char := ['r', 'c', 'o', 'l', 'o', 'r']

/-- See `kwTitle`. -/
def kwColor : List Char := ['c', 'o', 'l', 'o', 'r']

/-- See `kwTitle`. -/
def kwSysfg : List Char := ['s', 'y', 's', 'f', 'g']

/-- See `kwTitle`. -/
def kwSysbg : List Char := ['s', 'y', 's', 'b', 'g']

/-- The call `sscanf(line, "image %s %s", rend, path)`: the two words when
it returns 2. -/
def sscanfImage (line : List Char) : Option (List Char × List Char) :=
  match matchLit kwImage line with
  | none => none
  | some rest =>
    match scanStr rest with
    | none => none
    | some (rend, rest1) =>
      match scanStr rest1 with
      | none => none
      | some (path, _) => some (rend, path)

/-- The call `sscanf(line, "transparency %g %d %d %d", ...)`: the four
values when it returns 4. -/
def sscanfTransparency (env : Env) (line : List Char) : Option (FloatVal × Int × Int × Int) :=
  match matchLit kwTransparency line with
  | none => none
  | some rest =>
    match env.scanFloat (skipSpace rest) with
    | none => none
    | some (rx, rest1) =>
      match scanInts env.conv 3 rest1 with
      | [rr, rg, rb] => some (rx, rr, rg, rb)
      | _ => none

/-- The call `indexOf(c, start)` of a `QString`: the first position at or
after `start` that holds `c`, or -1. -/
def indexOfFrom (l : List Char) (c : Char) (start : Nat) : Int :=
  match (l.drop start).findIdx? fun d => d == c with
  | some k => (start + k : Nat)
  | none => -1

/-! ## Colour schemas: reading a schema file -/

/-- The state the loop of `rereadSchemaFile` works on: the object, the
static variable `random_hue`, and, for stating bounds, the indices at which
`m_table` has been assigned so far. -/
structure ParserState where
  schema : ColorSchema
  random_hue : Int
  written : List Int
  deriving DecidableEq, Repr

/-- How a block of the loop body ends: control goes on to the next block, or
`continue` takes it to the next line. -/
inductive Flow
  | goOn (st : ParserState)
  | nextLine (st : ParserState)
  deriving DecidableEq, Repr

/-- The state a block ends with. -/
def Flow.state : Flow → ParserState
  | Flow.goOn st => st
  | Flow.nextLine st => st

/-- Sequencing of blocks. -/
def Flow.andThen (f : Flow) (g : ParserState → Flow) : Flow :=
  match f with
  | Flow.goOn st => g st
  | Flow.nextLine st => Flow.nextLine st

/-- The three assignments to `m_table[fi]`. -/
def ParserState.setEntry (st : ParserState) (fi : Int) (e : ColorEntry) : ParserState :=
  { st with
    schema := { st.schema with m_table := st.schema.m_table.set fi.toNat e }
    written := st.written ++ [fi] }

/-- The block of the keyword `title`. -/
def titleBlock (env : Env) (st : ParserState) (line : List Char) : Flow :=
  if line.take 5 = kwTitle then
    Flow.goOn { st with schema := { st.schema with m_title := env.i18n (String.mk (line.drop 6)) } }
  else Flow.goOn st

/-- The block of the keyword `image`. -/
def imageBlock (env : Env) (st : ParserState) (line : List Char) : Flow :=
  if line.take 5 = kwImage then
    match sscanfImage line with
    | none => Flow.nextLine st
    | some (rend, _) =>
      if rend = ['t', 'i', 'l', 'e'] || rend = ['c', 'e', 'n', 't', 'e', 'r']
          || rend = ['f', 'u', 'l', 'l'] then
        let attr : Int :=
          if rend = ['t', 'i', 'l', 'e'] then 2
          else if rend = ['c', 'e', 'n', 't', 'e', 'r'] then 3
          else 4
        Flow.goOn { st with schema := { st.schema with
          m_imagePath := env.locate "wallpaper"
            (String.mk (line.drop (indexOfFrom line ' ' 7 + 1).toNat))
          m_alignment := attr } }
      else Flow.nextLine st
  else Flow.goOn st

/-- The block of the keyword `transparency`. -/
def transparencyBlock (env : Env) (st : ParserState) (line : List Char) : Flow :=
  if line.take 12 = kwTransparency then
    match sscanfTransparency env line with
    | none => Flow.nextLine st
    | some (rx, rr, rg, rb) =>
      Flow.goOn { st with schema := { st.schema with
        m_useTransparency := true
        m_tr_x := rx
        m_tr_r := rr
        m_tr_g := rg
        m_tr_b := rb } }
  else Flow.goOn st

/-- The block of the keyword `rcolor`. -/
def rcolorBlock (env : Env) (st : ParserState) (line : List Char) : Flow :=
  if line.take 6 = kwRcolor then
    match sscanfInts env.conv kwRcolor 5 line with
    | [fi, cs, cv, tr, bo] =>
      if !(0 ≤ fi && fi < TABLE_COLORS) then Flow.nextLine st
      else
        let st1 :=
          if st.random_hue == -1 then { st with random_hue := (env.random.tmod 32) * 11 }
          else st
        let ch := st1.random_hue
        if !(0 ≤ cs && cs ≤ 255) then Flow.nextLine st1
        else if !(0 ≤ cv && cv ≤ 255) then Flow.nextLine st1
        else if !(0 ≤ tr && tr ≤ 1) then Flow.nextLine st1
        else if !(0 ≤ bo && bo ≤ 1) then Flow.nextLine st1
        else Flow.goOn (st1.setEntry fi ⟨QColor.hsv ch cs cv, tr, bo⟩)
    | _ => Flow.nextLine st
  else Flow.goOn st

/-- The block of the keyword `color`. -/
def colorBlock (env : Env) (st : ParserState) (line : List Char) : Flow :=
  if line.take 5 = kwColor then
    match sscanfInts env.conv kwColor 6 line with
    | [fi, cr, cg, cb, tr, bo] =>
      if !(0 ≤ fi && fi < TABLE_COLORS) then Flow.nextLine st
      else if !(0 ≤ cr && cr ≤ 255) then Flow.nextLine st
      else if !(0 ≤ cg && cg ≤ 255) then Flow.nextLine st
      else if !(0 ≤ cb && cb ≤ 255) then Flow.nextLine st
      else if !(0 ≤ tr && tr ≤ 1) then Flow.nextLine st
      else if !(0 ≤ bo && bo ≤ 1) then Flow.nextLine st
      else Flow.goOn (st.setEntry fi ⟨QColor.rgb cr cg cb, tr, bo⟩)
    | _ => Flow.nextLine st
  else Flow.goOn st

/-- The blocks of the keywords `sysfg` and `sysbg`, which differ in the
keyword and the palette role. -/
def sysBlock (env : Env) (keyword : List Char) (role : PaletteRole) (st : ParserState)
    (line : List Char) : Flow :=
  if line.take 5 = keyword then
    match sscanfInts env.conv keyword 3 line with
    | [fi, tr, bo] =>
      if !(0 ≤ fi && fi < TABLE_COLORS) then Flow.nextLine st
      else if !(0 ≤ tr && tr ≤ 1) then Flow.nextLine st
      else if !(0 ≤ bo && bo ≤ 1) then Flow.nextLine st
      else Flow.goOn (st.setEntry fi ⟨QColor.palette role, tr, bo⟩)
    | _ => Flow.nextLine st
  else Flow.goOn st

/-- The body of the loop of `rereadSchemaFile` for one line, the C string
in the buffer `line`. -/
def processLine (env : Env) (st : ParserState) (line : List Char) : ParserState :=
  if line.length > 5 then
    (((((((titleBlock env st line).andThen fun s => imageBlock env s line).andThen
      fun s => transparencyBlock env s line).andThen
      fun s => rcolorBlock env s line).andThen
      fun s => colorBlock env s line).andThen
      fun s => sysBlock env kwSysfg PaletteRole.Text s line).andThen
      fun s => sysBlock env kwSysbg PaletteRole.Base s line).state
  else st

/-- The call `fscanf(sysin, "%80[^\n]\n", line)` on the rest of the file:
up to 80 characters other than a newline go to the buffer, then white space
is skipped.  The result is the buffer and the input left when the call
returns 1, `none` when it returns 0 or `EOF`. -/
def fscanfLine (input : List Char) : Option (List Char × List Char) :=
  let chunk := (input.takeWhile fun c => c.toNat != 10).take 80
  if chunk.isEmpty then none else some (chunk, skipSpace (input.drop chunk.length))

/-- The C string in a buffer: the characters before the first NUL. -/
def cstr (buf : List Char) : List Char := buf.takeWhile fun c => c.toNat != 0

/-- The loop `while (fscanf(...) > 0) { ... }`; every round takes at least
one character off the input, so `fuel` rounds are enough for an input of
`fuel` characters. -/
def readLoop (env : Env) : Nat → List Char → ParserState → ParserState
  | 0, _, st => st
  | fuel + 1, input, st =>
    match fscanfLine input with
    | none => st
    | some (chunk, rest) => readLoop env fuel rest (processLine env st (cstr chunk))

/-- The path `rereadSchemaFile` opens. -/
def ColorSchema.schemaPath (env : Env) (s : ColorSchema) : String :=
  if s.fRelPath.isEmpty then ""
  else if startsWithSlash s.fRelPath then s.fRelPath
  else env.locate "data" ("konsole/" ++ s.fRelPath)

/-- The method `ColorSchema::rereadSchemaFile` of src/konsole/schema.cpp, on
the object and `random_hue`; the Boolean is the value returned.  (The
assignment to `*lastRead` needs a non-null `lastRead`; an object with a null
one has an empty `fRelPath` and returns before.) -/
def ColorSchema.rereadSchemaFile (env : Env) (st : ParserState) : ParserState × Bool :=
  let fPath := st.schema.schemaPath env
  if fPath.isEmpty || !env.fileExists fPath then (st, false)
  else
    match env.fopen fPath with
    | none => (st, false)
    | some content =>
      let st1 := { st with schema := { st.schema with lastRead := some env.currentDateTime } }
      let st2 := readLoop env content.length content st1
      ({ st2 with schema := { st2.schema with m_fileRead := true } }, true)

/-- A C library for the worked examples: `%d` stores the value read, `%g`
reads digits with at most one point among them. -/
def demoScanFloat (input : List Char) : Option (FloatVal × List Char) :=
  let tok := input.takeWhile fun c => isdigit c || c == '.'
  if tok.isEmpty then none
  else some (⟨tok⟩, input.dropWhile fun c => isdigit c || c == '.')

/-- Surroundings for the worked examples: no translation, resources under
`/usr/share`, one schema file. -/
def demoEnv : Env :=
  { i18n := fun s => s
    locate := fun _ file => "/usr/share/" ++ file
    fileExists := fun path => path == "/usr/share/konsole/demo.schema"
    fopen := fun path =>
      if path == "/usr/share/konsole/demo.schema" then
        some "title Demo\ncolor 3 178 24 24 0 0\ntransparency 0.5 300 0 0\n".data
      else none
    lastModified := fun _ => 100
    currentDateTime := 200
    random := 7
    scanFloat := demoScanFloat
    conv := fun v => v
    resources := ["konsole/demo.schema"] }

/-- A schema under construction in the worked examples: the object the
constructor makes for `demo.schema`, with `random_hue` not yet drawn. -/
def demoStart : ParserState :=
  { schema := (ColorSchema.fromPath demoEnv 1 "demo.schema").1, random_hue := -1, written := [] }

/-! ## Colour schemas: the list of schemas -/

/-- The method `ColorSchema::hasSchemaFileChanged`.  (The comparison reads
`*lastRead`; an object with a null `lastRead` has an empty `fRelPath` and
returns before.) -/
def ColorSchema.hasSchemaFileChanged (env : Env) (s : ColorSchema) : Bool :=
  let fPath := if s.fRelPath.isEmpty then "" else env.locate "data" ("konsole/" ++ s.fRelPath)
  if fPath.isEmpty then false
  else if env.fileExists fPath then
    if some (env.lastModified fPath) != s.lastRead then true else false
  else false

/-- The method `ColorSchema::updateLastRead`. -/
def ColorSchema.updateLastRead (s : ColorSchema) (dt : Nat) : ColorSchema :=
  match s.lastRead with
  | some _ => { s with lastRead := some dt }
  | none => s

/-- A `ColorSchemaList` together with the two static variables its methods
read and write.  The list holds pointers to distinct objects: `items` are
the objects in list order, and a `ColorSchema*` into the list is a position. -/
structure SchemaState where
  items : List ColorSchema
  serial : Int
  random_hue : Int
  deriving DecidableEq, Repr

/-- The constructor `ColorSchemaList::ColorSchemaList`; `random_hue` is the
static variable as it stands. -/
def ColorSchemaList.new (env : Env) (random_hue : Int) : SchemaState :=
  { items := [ColorSchema.default env], serial := 1, random_hue := random_hue }

/-- The destructor `ColorSchemaList::~ColorSchemaList`: the static variables
it leaves. -/
def SchemaState.destroy (st : SchemaState) : Int × Int := (1, st.random_hue)

/-- The method `ColorSchemaList::find(int)`: the position of the first
schema with that number, `none` for the null pointer. -/
def SchemaState.findNumb (st : SchemaState) (i : Int) : Option Nat :=
  st.items.findIdx? fun s => s.m_numb == i

/-- Appending a schema made by `new ColorSchema(path)`. -/
def SchemaState.appendNew (st : SchemaState) (env : Env) (path : String) : SchemaState :=
  { st with
    items := st.items ++ [(ColorSchema.fromPath env st.serial path).1]
    serial := (ColorSchema.fromPath env st.serial path).2 }

/-- The method `ColorSchemaList::find(const QString&)`: the state afterwards
and the position of the schema returned, `none` for the null pointer. -/
def SchemaState.findPath (st : SchemaState) (env : Env) (path : String) :
    SchemaState × Option Nat :=
  if path.isEmpty then (st, st.findNumb 0)
  else if startsWithSlash path then
    (st.appendNew env path, some st.items.length)
  else
    match st.items.findIdx? fun s => s.fRelPath == path with
    | some i => (st, some i)
    | none =>
      if st.items.length == 1 then (st.appendNew env path, some st.items.length)
      else (st, none)

/-- One round of the loop of `updateAllSchemaTimes`, for one file name of
the resource list; the Boolean is the variable `r`. -/
def SchemaState.updateStep (env : Env) (now : Nat) (acc : SchemaState × Bool)
    (file : String) : SchemaState × Bool :=
  let filename := if file.data.contains '/' then String.mk (file.data.drop 8) else file
  match acc.1.findPath env filename with
  | (st1, none) => (st1.appendNew env filename, true)
  | (st1, some i) =>
    match st1.items.get? i with
    | none => (st1, acc.2)
    | some sc =>
      if sc.hasSchemaFileChanged env then
        let r := ColorSchema.rereadSchemaFile env
          { schema := sc, random_hue := st1.random_hue, written := [] }
        ({ st1 with items := st1.items.set i r.1.schema, random_hue := r.1.random_hue }, acc.2)
      else
        ({ st1 with items := st1.items.set i (sc.updateLastRead now) }, acc.2)

/-- The method `ColorSchemaList::updateAllSchemaTimes`; the resource list is
`env.resources`. -/
def SchemaState.updateAllSchemaTimes (st : SchemaState) (env : Env) (now : Nat) :
    SchemaState × Bool :=
  env.resources.foldl (SchemaState.updateStep env now) (st, false)

/-- The test of `deleteOldSchemas`: a time was read and it is before `now`. -/
def ColorSchema.isOld (s : ColorSchema) (now : Nat) : Bool :=
  match s.lastRead with
  | some t => t < now
  | none => false

/-- Comparison of two strings character by character, by character code:
-1, 0 or 1. -/
def compareChars : List Char → List Char → Int
  | [], [] => 0
  | [], _ :: _ => -1
  | _ :: _, [] => 1
  | a :: as, b :: bs =>
    if a.toNat < b.toNat then -1
    else if b.toNat < a.toNat then 1
    else compareChars as bs

/-- The function `QString::compare(s1, s2)`: negative, zero or positive as
`s1` is less than, equal to or greater than `s2`; of the value, only the sign
is modelled. -/
def QString.compare (s1 s2 : String) : Int := compareChars s1.data s2.data

/-- The accessor `title()`, declared in `schema.h` (not among the sources):
taken to return the member.  (If it first rereads a schema that has not been
read, that changes nothing for a schema with an empty `fRelPath`.) -/
def ColorSchema.title (s : ColorSchema) : String := s.m_title

/-- The method `ColorSchemaList::compareItems`, which replaces the
comparison of `Q3PtrList`: 0 exactly when the two titles are equal. -/
def compareItems (schema1 schema2 : ColorSchema) : Int :=
  -1 * QString.compare schema1.title schema2.title

/-- The position `Q3PtrList::find(item)` yields: the first item of the list,
from the start, that `compareItems` finds equal to `item`. -/
def findItem (items : List ColorSchema) (item : ColorSchema) : Option Nat :=
  items.findIdx? fun q => compareItems q item == 0

/-- The loop of `deleteOldSchemas`.  `items` is the list, `pos` the position
of the iterator `it`, `r` the variable `r`.  The call `remove(p)` of
`Q3PtrList` looks the item up with `find`, that is with `compareItems`, and
unlinks the item found: the first one with the title of `p`, which need not
be `p`.  An iterator behind the unlinked item moves one position down with
its item.  Every round shortens the way from `pos` to the end of the list,
so `fuel` rounds are enough for a list of `fuel` items. -/
def deleteLoop (now : Nat) : Nat → List ColorSchema → Nat → Bool → List ColorSchema × Bool
  | 0, items, _, r => (items, r)
  | fuel + 1, items, pos, r =>
    match items.get? pos with
    | none => (items, r)
    | some p =>
      if p.isOld now then
        match findItem items p with
        | some i =>
          deleteLoop now fuel (items.eraseIdx i) (if i ≤ pos then pos else pos + 1) true
        | none => deleteLoop now fuel items (pos + 1) true
      else deleteLoop now fuel items (pos + 1) r

/-- The method `ColorSchemaList::deleteOldSchemas`. -/
def SchemaState.deleteOldSchemas (st : SchemaState) (now : Nat) : SchemaState × Bool :=
  ({ st with items := (deleteLoop now st.items.length st.items 0 false).1 },
    (deleteLoop now st.items.length st.items 0 false).2)

/-- A construction of a `ColorSchema` that takes a number from the counter. -/
inductive SchemaCtor
  | path (env : Env) (pathname : String)
  | config (env : Env) (c : KConfig)

/-- The object a construction makes and the counter afterwards. -/
def SchemaCtor.run (serial : Int) : SchemaCtor → ColorSchema × Int
  | SchemaCtor.path env pathname => ColorSchema.fromPath env serial pathname
  | SchemaCtor.config env c => ColorSchema.fromConfig env serial c

/-- A sequence of constructions, from left to right: the objects made and
the counter afterwards. -/
def constructAll : Int → List SchemaCtor → List ColorSchema × Int
  | serial, [] => ([], serial)
  | serial, c :: cs =>
    ((c.run serial).1 :: (constructAll (c.run serial).2 cs).1,
      (constructAll (c.run serial).2 cs).2)

/-- The states of a list, from its constructor on, under `find(path)`,
`updateAllSchemaTimes` and `deleteOldSchemas` in any surroundings, and
under constructions of schemas elsewhere in the program; `find(int)` leaves
the state as it is.  The first argument is the object the constructor made,
the one the member `defaultSchema` points to. -/
inductive Reach : ColorSchema → SchemaState → Prop
  | new (env : Env) (random_hue : Int) :
    Reach (ColorSchema.default env) (ColorSchemaList.new env random_hue)
  | findPath (d : ColorSchema) (st : SchemaState) (env : Env) (path : String) :
    Reach d st → Reach d (st.findPath env path).1
  | updateAllSchemaTimes (d : ColorSchema) (st : SchemaState) (env : Env) (now : Nat) :
    Reach d st → Reach d (st.updateAllSchemaTimes env now).1
  | deleteOldSchemas (d : ColorSchema) (st : SchemaState) (now : Nat) :
    Reach d st → Reach d (st.deleteOldSchemas now).1
  | elsewhere (d : ColorSchema) (st : SchemaState) (c : SchemaCtor) :
    Reach d st → Reach d { st with serial := (c.run st.serial).2 }

/-! ## Colour schemas: properties of states, for the proofs -/

/-- A channel value or flag within `lo..hi`. -/
def within (lo hi v : Int) : Bool := decide (lo ≤ v) && decide (v ≤ hi)

/-- The channel values a colour was made from lie in 0..255: red, green and
blue of `QColor(r,g,b)`, saturation and value of `setHsv(h,s,v)`. -/
def QColor.channelsOk : QColor → Bool
  | QColor.rgb r g b => within 0 255 r && within 0 255 g && within 0 255 b
  | QColor.hsv _ s v => within 0 255 s && within 0 255 v
  | QColor.invalid => true
  | QColor.palette _ => true

/-- Both flags of a table entry are 0 or 1. -/
def ColorEntry.flagsOk (e : ColorEntry) : Bool := within 0 1 e.transparent && within 0 1 e.bold

/-- A property of loop states that every assignment of `rereadSchemaFile`
keeps: the assignments to the title, to image path and alignment, to the
transparency members, to `random_hue`, to `lastRead` and `m_fileRead`, and
the assignments to `m_table[fi]` with `fi`, the channels and the flags
within their ranges. -/
structure Closed (P : ParserState → Prop) : Prop where
  title : ∀ (st : ParserState) (t : String), P st →
    P { st with schema := { st.schema with m_title := t } }
  image : ∀ (st : ParserState) (path : String) (attr : Int), P st →
    P { st with schema := { st.schema with m_imagePath := path, m_alignment := attr } }
  transparency : ∀ (st : ParserState) (rx : FloatVal) (rr rg rb : Int), P st →
    P { st with schema := { st.schema with
      m_useTransparency := true, m_tr_x := rx, m_tr_r := rr, m_tr_g := rg, m_tr_b := rb } }
  hue : ∀ (st : ParserState) (h : Int), P st → P { st with random_hue := h }
  lastRead : ∀ (st : ParserState) (t : Nat), P st →
    P { st with schema := { st.schema with lastRead := some t } }
  fileRead : ∀ (st : ParserState), P st →
    P { st with schema := { st.schema with m_fileRead := true } }
  entry : ∀ (st : ParserState) (fi : Int) (e : ColorEntry),
    0 ≤ fi → fi < TABLE_COLORS → e.color.channelsOk = true → e.flagsOk = true → P st →
    P (st.setEntry fi e)

/-- The table has `TABLE_COLORS` entries, each with flags 0 or 1 and
channels in 0..255, and every index assigned so far is within the table. -/
def ParserState.tableOk (st : ParserState) : Prop :=
  (st.schema.m_table.length : Int) = TABLE_COLORS ∧
  (∀ e ∈ st.schema.m_table, e.flagsOk = true ∧ e.color.channelsOk = true) ∧
  (∀ fi ∈ st.written, 0 ≤ fi ∧ fi < TABLE_COLORS)

/-- Every entry of the table has its two flags in {0,1}, the table has
`TABLE_COLORS` entries, and every index at which the table has been assigned
is within `0..TABLE_COLORS-1`. -/
def ParserState.flagsBoolean (st : ParserState) : Prop :=
  (st.schema.m_table.length : Int) = TABLE_COLORS ∧
  (∀ e ∈ st.schema.m_table,
    (e.transparent = 0 ∨ e.transparent = 1) ∧ (e.bold = 0 ∨ e.bold = 1)) ∧
  (∀ fi ∈ st.written, 0 ≤ fi ∧ fi < TABLE_COLORS)

/-- What holds of a list in every state of `Reach d`: the object `d` the
constructor made is the first item, it has number 0, no time stamp and an
empty path; the numbers of the items increase strictly along the list and
are all below the counter. -/
structure ListInv (d : ColorSchema) (st : SchemaState) : Prop where
  head : st.items.head? = some d
  numb : d.m_numb = 0
  stamp : d.lastRead = none
  path : d.fRelPath = ""
  sorted : (st.items.map fun s => s.m_numb).Pairwise fun a b => a < b
  below : ∀ s ∈ st.items, s.m_numb < st.serial

/-- A list in the worked examples: `find` was called twice with an absolute
path. -/
def demoList : SchemaState :=
  (((ColorSchemaList.new demoEnv (-1)).findPath demoEnv "/x").1.findPath demoEnv "/x").1

/-- The seven keywords, in the order of their blocks in the loop body. -/
def keywords : List (List Char) :=
  [kwTitle, kwImage, kwTransparency, kwRcolor, kwColor, kwSysfg, kwSysbg]

/-- The test `!strncmp(line, keyword, n)` with `n` the length of the
keyword: the line begins with the keyword. -/
abbrev beginsWith (line keyword : List Char) : Prop := line.take keyword.length = keyword

/-! ## Colour schemas: numbers written in decimal -/

/-- The character of a decimal digit. -/
def digitChar (d : Nat) : Char := Char.ofNat (48 + d)

/-- The decimal digits of a natural number, most significant first. -/
def decimal (n : Nat) : List Char :=
  if n = 0 then ['0'] else (Nat.digits 10 n).reverse.map digitChar

/-- An integer written in decimal, with a minus sign when negative. -/
def showInt (v : Int) : List Char :=
  if v < 0 then '-' :: decimal v.natAbs else decimal v.natAbs

/-- The line `color fi cr cg cb tr bo`, the numbers in decimal and one blank
between the fields. -/
def colorLine (fi cr cg cb tr bo : Int) : List Char :=
  kwColor ++ (' ' :: (showInt fi ++ (' ' :: (showInt cr ++ (' ' :: (showInt cg ++
    (' ' :: (showInt cb ++ (' ' :: (showInt tr ++ (' ' :: showInt bo)))))))))))

/-- Input left behind a number: nothing, or something that does not start
with a digit. -/
def noDigitAhead (rest : List Char) : Prop := ∀ c ∈ rest.head?, isdigit c = false

/-- What holds of the numbers in every state of `Reach d`: they increase
strictly along the list and are all below the counter. -/
structure NumInv (st : SchemaState) : Prop where
  sorted : (st.items.map fun s => s.m_numb).Pairwise fun a b => a < b
  below : ∀ s ∈ st.items, s.m_numb < st.serial

/-- The states of a list as in `Reach`, but without `deleteOldSchemas`. -/
inductive ReachKeep : ColorSchema → SchemaState → Prop
  | new (env : Env) (random_hue : Int) :
    ReachKeep (ColorSchema.default env) (ColorSchemaList.new env random_hue)
  | findPath (d : ColorSchema) (st : SchemaState) (env : Env) (path : String) :
    ReachKeep d st → ReachKeep d (st.findPath env path).1
  | updateAllSchemaTimes (d : ColorSchema) (st : SchemaState) (env : Env) (now : Nat) :
    ReachKeep d st → ReachKeep d (st.updateAllSchemaTimes env now).1
  | elsewhere (d : ColorSchema) (st : SchemaState) (c : SchemaCtor) :
    ReachKeep d st → ReachKeep d { st with serial := (c.run st.serial).2 }

/-- A list in the worked examples: `find` was called with the absolute path
of a file that does not exist; the schema made for it has the title of the
default schema. -/
def staleList : SchemaState := ((ColorSchemaList.new demoEnv (-1)).findPath demoEnv "/x").1

/-! ## The write queue with `wroteStdin` tied to `_bufferFull` -/

/-- One event, where `wroteStdin` is delivered only while `_bufferFull` is
true; there is no next state for a `wroteStdin` outside that, nor where the
slot `writeReady` has no result. -/
def Pty.stepFull (p : Pty) : Event → Option Pty
  | Event.sendData job ok => some (p.sendData job ok).1
  | Event.writeReady ok =>
    if p._bufferFull then
      match p.writeReady ok with
      | none => none
      | some r => some r.1
    else none

/-- A sequence of events, from left to right, under `Pty.stepFull`. -/
def Pty.runFull (p : Pty) : List Event → Option Pty
  | [] => some p
  | e :: es =>
    match p.stepFull e with
    | none => none
    | some p1 => p1.runFull es

/-! ## Colour schemas: src/src/old/schema.cpp -/

/-- The function `operator<` on `ColorSchema` of src/src/old/schema.cpp: the
`int` is converted to `bool`. -/
def operatorLt (one two : ColorSchema) : Bool :=
  -1 * QString.compare one.title two.title != 0

/-- The loop state of src/src/old/schema.cpp: the one of
src/konsole/schema.cpp and the member `m_titleRead`. -/
structure OldParserState where
  st : ParserState
  m_titleRead : Bool
  deriving DecidableEq, Repr

/-- The body of the loop of `rereadSchemaFile(bool readTitleOnly)` of
src/src/old/schema.cpp for one line; the Boolean tells whether `break` left
the loop.  The block of `title` is followed by `if (readTitleOnly) break;`;
all seven blocks read as in src/konsole/schema.cpp. -/
def processLineOld (env : Env) (readTitleOnly : Bool) (st : ParserState) (line : List Char) :
    ParserState × Bool :=
  if line.length > 5 then
    let f := titleBlock env st line
    if line.take 5 = kwTitle ∧ readTitleOnly = true then (f.state, true)
    else
      ((((((((f.andThen fun s => imageBlock env s line).andThen
        fun s => transparencyBlock env s line).andThen
        fun s => rcolorBlock env s line).andThen
        fun s => colorBlock env s line).andThen
        fun s => sysBlock env kwSysfg PaletteRole.Text s line).andThen
        fun s => sysBlock env kwSysbg PaletteRole.Base s line).state), false)
  else (st, false)

/-- The loop of `rereadSchemaFile(bool readTitleOnly)`, with fuel as in
`readLoop`. -/
def readLoopOld (env : Env) (readTitleOnly : Bool) : Nat → List Char → ParserState → ParserState
  | 0, _, st => st
  | fuel + 1, input, st =>
    match fscanfLine input with
    | none => st
    | some (chunk, rest) =>
      if (processLineOld env readTitleOnly st (cstr chunk)).2 then
        (processLineOld env readTitleOnly st (cstr chunk)).1
      else readLoopOld env readTitleOnly fuel rest (processLineOld env readTitleOnly st (cstr chunk)).1

/-- The method `ColorSchema::rereadSchemaFile(bool readTitleOnly)` of
src/src/old/schema.cpp; the Boolean is the value returned. -/
def rereadSchemaFileOld (env : Env) (readTitleOnly : Bool) (o : OldParserState) :
    OldParserState × Bool :=
  let fPath := o.st.schema.schemaPath env
  if fPath.isEmpty || !env.fileExists fPath then (o, false)
  else
    match env.fopen fPath with
    | none => (o, false)
    | some content =>
      let st1 := { o.st with
        schema := { o.st.schema with lastRead := some env.currentDateTime } }
      let st2 := readLoopOld env readTitleOnly content.length content st1
      let st3 := if !readTitleOnly then
          { st2 with schema := { st2.schema with m_fileRead := true } }
        else st2
      ({ st := st3, m_titleRead := true }, true)

/-- Surroundings for a worked example: as `demoEnv`, with a translation of
one title. -/
def translatingEnv : Env :=
  { demoEnv with i18n := fun s => if s == "Demo" then "Beispiel" else s }

/-! ## The encodings of `Pty::start`, for comparison -/

/-- The UTF-8 form of a code point as RFC 3629 lays it out, in arithmetic:
one byte below U+0080, two below U+0800, three below U+10000, four above.
This is the reference `toUtf8` is compared with. -/
def utf8Bytes (v : Nat) : List Nat :=
  if v < 128 then [v]
  else if v < 2048 then [192 + v / 64, 128 + v % 64]
  else if v < 65536 then [224 + v / 4096, 128 + v / 64 % 64, 128 + v % 64]
  else [240 + v / 262144, 128 + v / 4096 % 64, 128 + v / 64 % 64, 128 + v % 64]

/-! ## Colour schemas: files read line by line -/

/-- A line that the loop of `rereadSchemaFile` reads whole and as it stands:
not empty, at most 80 characters, none of them a newline or NUL, and no
white space at its start. -/
def wholeLine (l : List Char) : Bool :=
  match l with
  | [] => false
  | c :: _ =>
    !isspace c && decide (l.length ≤ 80) && l.all fun d => d.toNat != 10 && d.toNat != 0

/-- The file made of the given lines, a newline behind each. -/
def fileOf (lines : List (List Char)) : List Char :=
  lines.flatMap fun l => l ++ ['\n']

/-- The `int` that `%d` of the GNU C library stores where `long` has 64
bits: the digits are converted to a `long`, which saturates at `LONG_MIN`
and `LONG_MAX`, and the store through the `int *` keeps the low 32 bits. -/
def glibcConv (v : Int) : Int :=
  (max (-(2 ^ 63)) (min v (2 ^ 63 - 1)) + 2 ^ 31) % 2 ^ 32 - 2 ^ 31

/-- Surroundings for a worked example: as `demoEnv`, with `%d` as in
`glibcConv`. -/
def wrapEnv : Env := { demoEnv with conv := glibcConv }

/-- Surroundings for a worked example: as `demoEnv`, where the schema file
starts with an empty line. -/
def blankLineEnv : Env :=
  { demoEnv with
    fopen := fun path =>
      if path == "/usr/share/konsole/demo.schema" then
        some "\ncolor 3 178 24 24 0 0\n".data
      else none }

/-- A line of 85 characters: `color 3 178 24 24 0`, 65 blanks, `0`. -/
def longColorLine : List Char :=
  "color 3 178 24 24 0".data ++ (List.replicate 65 ' ' ++ ['0'])

end Konsole

namespace Konsole

/-! ## Lemmas on effect lists and runs -/

theorem accepted_append (a b : List Effect) : accepted (a ++ b) = accepted a + accepted b := by
  induction a with
  | nil => simp [accepted]
  | cons e es ih =>
    cases e with
    | writeStdin job result =>
      cases result
      · simp [accepted, ih]
      · show accepted (es ++ b) + 1 = accepted es + 1 + accepted b
        rw [ih]
        omega
    | _ => simp [accepted, ih]

theorem submitted_append (a b : List Effect) :
    submitted (a ++ b) = submitted a ++ submitted b := by
  induction a with
  | nil => simp [submitted]
  | cons e es ih => cases e <;> simp [submitted, ih]

theorem acceptedJobs_append (a b : List Effect) :
    acceptedJobs (a ++ b) = acceptedJobs a ++ acceptedJobs b := by
  induction a with
  | nil => simp [acceptedJobs]
  | cons e es ih =>
    cases e with
    | writeStdin job result => cases result <;> simp [acceptedJobs, ih]
    | _ => simp [acceptedJobs, ih]

theorem allSucceed_append (a b : List Effect) :
    allSucceed (a ++ b) = (allSucceed a && allSucceed b) := by
  induction a with
  | nil => simp [allSucceed]
  | cons e es ih =>
    cases e with
    | writeStdin job result => cases result <;> simp [allSucceed, ih]
    | _ => simp [allSucceed, ih]

theorem enqueued_append (a b : List Event) : enqueued (a ++ b) = enqueued a ++ enqueued b := by
  induction a with
  | nil => simp [enqueued]
  | cons e es ih => cases e <;> simp [enqueued, ih]

theorem run_append (w : World) (a b : List Event) :
    w.run (a ++ b) = (w.run a).bind fun w1 => w1.run b := by
  induction a generalizing w with
  | nil => simp [World.run]
  | cons e es ih =>
    simp only [List.cons_append, World.run]
    cases w.step e with
    | none => simp
    | some w1 => simpa using ih w1

theorem run_snoc (w : World) (a : List Event) (e : Event) :
    w.run (a ++ [e]) = (w.run a).bind fun w1 => w1.step e := by
  rw [run_append]
  congr 1
  funext w1
  simp only [World.run]
  cases w1.step e <;> rfl

theorem inv_init : Inv [] World.init := by
  constructor <;> simp [World.init, Pty.new, Pty.inFlight, enqueued, submitted]

theorem inv_step (evs : List Event) (w w1 : World) (e : Event) (h : Inv evs w)
    (hs : w.step e = some w1) : Inv (evs ++ [e]) w1 := by
  obtain ⟨hc, hh, hf, hi⟩ := h
  obtain ⟨p, n, log⟩ := w
  obtain ⟨args, exe, env, up, au, q, bf⟩ := p
  simp only [Pty.inFlight] at hc hh hf hi
  cases e with
  | sendData job ok =>
    simp only [World.step, Pty.sendData, Pty.appendSendJob, Option.some.injEq] at hs
    subst hs
    cases bf with
    | true =>
      obtain ⟨j, rest, hq, hl⟩ := hh rfl
      subst hq
      constructor
      · simpa [Pty.inFlight, accepted] using hc
      · intro _
        exact ⟨j, rest ++ [job], by simp, by simpa using hl⟩
      · intro ha
        have := hf (by simpa using ha)
        simp [enqueued_append, enqueued, Pty.inFlight] at this ⊢
        rw [this, List.append_assoc]
      · intro _ hb
        simp at hb
    | false =>
      cases q with
      | nil =>
        cases ok with
        | true =>
          constructor
          · simpa [Pty.doSendJobs, Pty.inFlight, accepted] using hc
          · intro _
            exact ⟨job, [], by simp [Pty.doSendJobs],
              by simp [Pty.doSendJobs, lastAccepted, acceptedJobs_append, acceptedJobs]⟩
          · intro ha
            have h1 : allSucceed log = true := by
              simp [Pty.doSendJobs, allSucceed_append] at ha
              exact ha.1
            have := hf h1
            simp [enqueued_append, enqueued, Pty.inFlight, Pty.doSendJobs, submitted_append,
              submitted] at this ⊢
            exact this
          · intro _ hb
            simp [Pty.doSendJobs] at hb
        | false =>
          constructor
          · simpa [Pty.doSendJobs, Pty.inFlight, accepted] using hc
          · intro hb
            simp [Pty.doSendJobs] at hb
          · intro ha
            simp [Pty.doSendJobs, allSucceed_append, allSucceed] at ha
          · intro ha
            simp [Pty.doSendJobs, allSucceed_append, allSucceed] at ha
      | cons j rest =>
        cases ok with
        | true =>
          constructor
          · simpa [Pty.doSendJobs, Pty.inFlight, accepted] using hc
          · intro _
            exact ⟨j, rest ++ [job], by simp [Pty.doSendJobs],
              by simp [Pty.doSendJobs, lastAccepted, acceptedJobs_append, acceptedJobs]⟩
          · intro ha
            have h1 : allSucceed log = true := by
              simp [Pty.doSendJobs, allSucceed_append] at ha
              exact ha.1
            have := hi h1 rfl
            simp at this
          · intro _ hb
            simp [Pty.doSendJobs] at hb
        | false =>
          constructor
          · simpa [Pty.doSendJobs, Pty.inFlight, accepted] using hc
          · intro hb
            simp [Pty.doSendJobs] at hb
          · intro ha
            simp [Pty.doSendJobs, allSucceed_append, allSucceed] at ha
          · intro ha
            simp [Pty.doSendJobs, allSucceed_append, allSucceed] at ha
  | writeReady ok =>
    simp only [World.step] at hs
    cases bf with
    | false =>
      simp at hc
      simp [hc] at hs
    | true =>
      simp at hc
      obtain ⟨j, rest, hq, hl⟩ := hh rfl
      subst hq
      subst hc
      simp only [Pty.writeReady, one_ne_zero, if_false, Option.some.injEq] at hs
      subst hs
      cases rest with
      | nil =>
        constructor
        · simp [Pty.doSendJobs, Pty.inFlight, accepted]
        · intro hb
          simp [Pty.doSendJobs] at hb
        · intro ha
          have h1 : allSucceed log = true := by
            simp [Pty.doSendJobs, allSucceed_append] at ha
            exact ha.1
          have := hf h1
          simp [enqueued_append, enqueued, Pty.inFlight, Pty.doSendJobs, submitted_append,
            submitted] at this ⊢
          exact this
        · intro _ _
          simp [Pty.doSendJobs]
      | cons k rest2 =>
        cases ok with
        | true =>
          constructor
          · simp [Pty.doSendJobs, Pty.inFlight, accepted]
          · intro _
            exact ⟨k, rest2, by simp [Pty.doSendJobs],
              by simp [Pty.doSendJobs, lastAccepted, acceptedJobs_append, acceptedJobs]⟩
          · intro ha
            have h1 : allSucceed log = true := by
              simp [Pty.doSendJobs, allSucceed_append] at ha
              exact ha.1
            have := hf h1
            simp [enqueued_append, enqueued, Pty.inFlight, Pty.doSendJobs, submitted_append,
              submitted] at this ⊢
            exact this
          · intro _ hb
            simp [Pty.doSendJobs] at hb
        | false =>
          constructor
          · simp [Pty.doSendJobs, Pty.inFlight, accepted]
          · intro hb
            simp [Pty.doSendJobs] at hb
          · intro ha
            simp [Pty.doSendJobs, allSucceed_append, allSucceed] at ha
          · intro ha
            simp [Pty.doSendJobs, allSucceed_append, allSucceed] at ha

theorem inv_run (evs : List Event) :
    ∀ w, World.init.run evs = some w → Inv evs w := by
  induction evs using List.reverseRecOn with
  | nil =>
    intro w h
    simp only [World.run, Option.some.injEq] at h
    subst h
    exact inv_init
  | append_singleton es e ih =>
    intro w h
    rw [run_snoc] at h
    cases h0 : World.init.run es with
    | none => simp [h0] at h
    | some w0 =>
      simp only [h0, Option.some_bind] at h
      exact inv_step es w0 w e (ih w0 h0) h


/-- In a world reached from the constructor, a `wroteStdin` that arrives
while a submit is outstanding finds a non-empty queue: the slot runs. -/
theorem step_writeReady_defined (evs : List Event) (w : World) (ok : Bool)
    (hrun : World.init.run evs = some w) (hout : w.outstanding ≠ 0) :
    ∃ w1, w.step (Event.writeReady ok) = some w1 := by
  have h := inv_run evs w hrun
  have hb : w.pty._bufferFull = true := by
    have hc := h.count
    unfold Pty.inFlight at hc
    cases hbf : w.pty._bufferFull with
    | true => rfl
    | false =>
      rw [hbf] at hc
      exact absurd (by simpa using hc) hout
  obtain ⟨j, rest, hq, _⟩ := h.head hb
  simp [World.step, hout, Pty.writeReady, hq]

/-! ## The write queue: the claims -/

/-- C1: from the constructed Pty, along every sequence of `sendData` calls
and `wroteStdin` completions (each delivered only while a submit is
outstanding) in which every `writeStdin` call succeeded, the jobs handed to
`writeStdin` are a prefix of the jobs passed to `sendData`, in the same
order; the jobs not yet handed over are exactly the ones waiting in the
queue behind the one in flight, so each job is submitted exactly once. -/
theorem submit_order_fifo (evs : List Event) (w : World)
    (hrun : World.init.run evs = some w) (hok : allSucceed w.log = true) :
    submitted w.log <+: enqueued evs ∧
    enqueued evs = submitted w.log ++ w.pty._pendingSendJobs.drop w.pty.inFlight := by
  have h := (inv_run evs w hrun).fifo hok
  exact ⟨⟨_, h.symm⟩, h⟩

theorem submit_order_fifo_witness :
    World.init.run demoEvents = some demoWorld ∧ allSucceed demoWorld.log = true ∧
    submitted demoWorld.log = [jobA, jobB] ∧ enqueued demoEvents = [jobA, jobB, jobC] ∧
    (submitted demoWorld.log <+: enqueued demoEvents ∧
      enqueued demoEvents =
        submitted demoWorld.log ++ demoWorld.pty._pendingSendJobs.drop demoWorld.pty.inFlight) :=
  ⟨by decide, by decide, by decide, by decide,
    submit_order_fifo demoEvents demoWorld (by decide) (by decide)⟩

/-- C2: in every state reachable from the constructed Pty by `sendData`
calls and `wroteStdin` completions (delivered only while a submit is
outstanding), at most one accepted submit awaits its completion, and
`_bufferFull` is true exactly when one does; and in any state with
`_bufferFull` true, `sendData` calls `writeStdin` not at all (it has no
effect on the outside). -/
theorem at_most_one_in_flight (evs : List Event) (w : World)
    (hrun : World.init.run evs = some w) :
    w.outstanding ≤ 1 ∧ (w.pty._bufferFull = true ↔ w.outstanding = 1) ∧
    (∀ (p : Pty) (job : SendJob) (ok : Bool), p._bufferFull = true →
      (p.sendData job ok).2 = []) := by
  have hc := (inv_run evs w hrun).count
  unfold Pty.inFlight at hc
  refine ⟨?_, ?_, ?_⟩
  · rw [hc]
    split <;> omega
  · rw [hc]
    cases w.pty._bufferFull <;> simp
  · intro p job ok hb
    simp [Pty.sendData, Pty.appendSendJob, hb]

theorem at_most_one_in_flight_witness :
    World.init.run stallEvents = some stallWorld ∧ stallWorld.outstanding ≤ 1 ∧
    (stallWorld.pty._bufferFull = true ↔ stallWorld.outstanding = 1) ∧
    (stallWorld.pty.sendData jobC true).2 = [] :=
  ⟨by decide, (at_most_one_in_flight stallEvents stallWorld (by decide)).1,
    (at_most_one_in_flight stallEvents stallWorld (by decide)).2.1,
    (at_most_one_in_flight stallEvents stallWorld (by decide)).2.2 stallWorld.pty jobC true
      (by decide)⟩

/-- C3: a job leaves the pending queue only through `writeReady`.  For every
state, `sendData` (and `appendSendJob`) yield the old queue with the job
appended at the tail; `doSendJobs` leaves the queue as it is, whether the
submit succeeds or not; `writeReady` removes the head element and no other
(and has no result on an empty queue).  In every world reached from the
constructor in which a submit is outstanding, that head element is the job
of the last accepted submit, the one the next `wroteStdin` confirms. -/
theorem queue_leaves_only_by_writeReady (p : Pty) (job : SendJob) (ok : Bool) :
    (p.sendData job ok).1._pendingSendJobs = p._pendingSendJobs ++ [job] ∧
    (p.appendSendJob job)._pendingSendJobs = p._pendingSendJobs ++ [job] ∧
    (p.doSendJobs ok).1._pendingSendJobs = p._pendingSendJobs ∧
    (p.writeReady ok).map (fun r => r.1._pendingSendJobs) =
      (if p._pendingSendJobs = [] then none else some p._pendingSendJobs.tail) ∧
    (∀ (evs : List Event) (w : World), World.init.run evs = some w → 0 < w.outstanding →
      ∃ j rest, w.pty._pendingSendJobs = j :: rest ∧ lastAccepted w.log = some j ∧
        (w.pty.writeReady ok).map (fun r => r.1._pendingSendJobs) = some rest) := by
  have hdo : ∀ (q : Pty) (b : Bool), (q.doSendJobs b).1._pendingSendJobs = q._pendingSendJobs := by
    intro q b
    unfold Pty.doSendJobs
    split
    · rfl
    · split <;> rfl
  refine ⟨?_, rfl, hdo p ok, ?_, ?_⟩
  · simp only [Pty.sendData]
    split
    · rw [hdo]
      rfl
    · rfl
  · unfold Pty.writeReady
    cases hq : p._pendingSendJobs with
    | nil => simp
    | cons j rest => simp [hdo]
  · intro evs w hrun hout
    have h := inv_run evs w hrun
    have hb : w.pty._bufferFull = true := by
      have hc := h.count
      unfold Pty.inFlight at hc
      cases hbf : w.pty._bufferFull with
      | true => rfl
      | false =>
        rw [hbf] at hc
        simp at hc
        omega
    obtain ⟨j, rest, hq, hl⟩ := h.head hb
    refine ⟨j, rest, hq, hl, ?_⟩
    simp [Pty.writeReady, hq, hdo]

theorem queue_leaves_only_by_writeReady_witness :
    World.init.run stallEvents = some stallWorld ∧ 0 < stallWorld.outstanding ∧
    ∃ j rest, stallWorld.pty._pendingSendJobs = j :: rest ∧
      lastAccepted stallWorld.log = some j ∧
      (stallWorld.pty.writeReady true).map (fun r => r.1._pendingSendJobs) = some rest :=
  ⟨by decide, by decide,
    (queue_leaves_only_by_writeReady Pty.new jobA true).2.2.2.2 stallEvents stallWorld
      (by decide) (by decide)⟩

/-- C4: for every state whose queue is `j :: rest`, `writeReady` removes `j`.
If `rest` is empty it emits `bufferEmpty`, calls `writeStdin` not at all and
leaves `_bufferFull` false.  If `rest` is `k :: rest2` it calls `writeStdin`
on `k`, emits no `bufferEmpty`, and `_bufferFull` ends true when the submit
succeeded and false when it failed.  So `writeReady` emits `bufferEmpty`
exactly when the queue has become empty, and `sendData` never emits it. -/
theorem writeReady_spec (p : Pty) (j : SendJob) (rest : List SendJob) (ok : Bool)
    (hq : p._pendingSendJobs = j :: rest) :
    (rest = [] → p.writeReady ok =
      some ({ p with _pendingSendJobs := [], _bufferFull := false }, [Effect.bufferEmpty])) ∧
    (∀ k rest2, rest = k :: rest2 → p.writeReady ok =
      some ({ p with _pendingSendJobs := k :: rest2, _bufferFull := ok },
        Effect.writeStdin k ok :: (if ok then [] else [Effect.qWarning sendWarning]))) ∧
    (∃ r, p.writeReady ok = some r ∧ r.1._pendingSendJobs = rest ∧
      (Effect.bufferEmpty ∈ r.2 ↔ r.1._pendingSendJobs = []) ∧
      (bufferEmptyCount r.2 = if rest = [] then 1 else 0)) ∧
    (∀ (q : Pty) (job : SendJob) (ok2 : Bool),
      Effect.bufferEmpty ∉ (q.sendData job ok2).2 ∧ bufferEmptyCount (q.sendData job ok2).2 = 0) := by
  refine ⟨?_, ?_, ?_, ?_⟩
  · intro hr
    subst hr
    simp [Pty.writeReady, hq, Pty.doSendJobs]
  · intro k rest2 hr
    subst hr
    cases ok <;> simp [Pty.writeReady, hq, Pty.doSendJobs]
  · cases rest with
    | nil =>
      refine ⟨({ p with _pendingSendJobs := [], _bufferFull := false }, [Effect.bufferEmpty]),
        by simp [Pty.writeReady, hq, Pty.doSendJobs], rfl, by simp, by simp [bufferEmptyCount]⟩
    | cons k rest2 =>
      refine ⟨({ p with _pendingSendJobs := k :: rest2, _bufferFull := ok },
          Effect.writeStdin k ok :: (if ok then [] else [Effect.qWarning sendWarning])),
        by cases ok <;> simp [Pty.writeReady, hq, Pty.doSendJobs], rfl,
        by cases ok <;> simp, by cases ok <;> simp [bufferEmptyCount]⟩
  · intro q job ok2
    obtain ⟨args, exe, env, up, au, qq, bf⟩ := q
    cases bf
    · cases qq with
      | nil => cases ok2 <;> simp [Pty.sendData, Pty.appendSendJob, Pty.doSendJobs, bufferEmptyCount]
      | cons a l =>
        cases ok2 <;> simp [Pty.sendData, Pty.appendSendJob, Pty.doSendJobs, bufferEmptyCount]
    · simp [Pty.sendData, Pty.appendSendJob, bufferEmptyCount]

theorem writeReady_spec_witness :
    demoWorld.pty._pendingSendJobs = jobB :: [jobC] ∧
    demoWorld.pty.writeReady false =
      some ({ demoWorld.pty with _pendingSendJobs := [jobC], _bufferFull := false },
        [Effect.writeStdin jobC false, Effect.qWarning sendWarning]) :=
  ⟨by decide,
    (writeReady_spec demoWorld.pty jobB [jobC] false (by decide)).2.1 jobC [] rfl⟩

/-- C5: for every state and job, `sendData` appends the job to the tail of
the queue.  If `_bufferFull` is false it then runs `doSendJobs`, which calls
`writeStdin` once, on the first job of the queue: the new job when the queue
was empty before the call, the old head otherwise; `_bufferFull` becomes
true when the call succeeds.  If `_bufferFull` is true it calls nothing and
changes nothing but the queue. -/
theorem sendData_spec (p : Pty) (job : SendJob) (ok : Bool) :
    (p.sendData job ok).1._pendingSendJobs = p._pendingSendJobs ++ [job] ∧
    (p._bufferFull = false →
      p.sendData job ok = (p.appendSendJob job).doSendJobs ok ∧
      (p.sendData job ok).1 =
        { p with _pendingSendJobs := p._pendingSendJobs ++ [job], _bufferFull := ok } ∧
      (p._pendingSendJobs = [] → submitted (p.sendData job ok).2 = [job]) ∧
      (∀ h t, p._pendingSendJobs = h :: t → submitted (p.sendData job ok).2 = [h])) ∧
    (p._bufferFull = true →
      p.sendData job ok = ({ p with _pendingSendJobs := p._pendingSendJobs ++ [job] }, [])) := by
  obtain ⟨args, exe, env, up, au, q, bf⟩ := p
  refine ⟨?_, ?_, ?_⟩
  · cases bf
    · cases q <;> cases ok <;> simp [Pty.sendData, Pty.appendSendJob, Pty.doSendJobs]
    · simp [Pty.sendData, Pty.appendSendJob]
  · intro hb
    simp only at hb
    subst hb
    cases q <;> cases ok <;>
      simp [Pty.sendData, Pty.appendSendJob, Pty.doSendJobs, submitted]
  · intro hb
    simp only at hb
    subst hb
    simp [Pty.sendData, Pty.appendSendJob]

theorem sendData_spec_witness :
    stallWorld.pty._bufferFull = true ∧
    stallWorld.pty.sendData jobC true =
      ({ stallWorld.pty with _pendingSendJobs := stallWorld.pty._pendingSendJobs ++ [jobC] }, []) :=
  ⟨by decide, (sendData_spec stallWorld.pty jobC true).2.2 (by decide)⟩

/-- C6: if `writeStdin` reports failure inside `doSendJobs`, the state is left
as it was: the failed job is still the head of the queue, the rest of the
queue is unchanged and `_bufferFull` keeps its value.  The effects are the
one failed call of `writeStdin` followed by the warning: no `bufferEmpty`
and no second call of `writeStdin`. -/
theorem doSendJobs_failure (p : Pty) (j : SendJob) (rest : List SendJob)
    (hq : p._pendingSendJobs = j :: rest) :
    p.doSendJobs false = (p, [Effect.writeStdin j false, Effect.qWarning sendWarning]) ∧
    (p.doSendJobs false).1._pendingSendJobs = j :: rest ∧
    (p.doSendJobs false).1._bufferFull = p._bufferFull ∧
    bufferEmptyCount (p.doSendJobs false).2 = 0 ∧
    submitted (p.doSendJobs false).2 = [j] := by
  have h : p.doSendJobs false = (p, [Effect.writeStdin j false, Effect.qWarning sendWarning]) := by
    simp [Pty.doSendJobs, hq]
  rw [h]
  exact ⟨rfl, hq, rfl, rfl, rfl⟩

theorem doSendJobs_failure_witness :
    (Pty.new.appendSendJob jobA)._pendingSendJobs = jobA :: [] ∧
    (Pty.new.appendSendJob jobA).doSendJobs false =
      (Pty.new.appendSendJob jobA, [Effect.writeStdin jobA false, Effect.qWarning sendWarning]) :=
  ⟨by decide, (doSendJobs_failure (Pty.new.appendSendJob jobA) jobA [] (by decide)).1⟩

/-! ## Process start-up -/

theorem lookup_filter_ne (env : List (String × String)) (name k : String) (h : k ≠ name) :
    (env.filter fun kv => kv.1 != name).lookup k = env.lookup k := by
  induction env with
  | nil => rfl
  | cons kv rest ih =>
    obtain ⟨a, b⟩ := kv
    by_cases ha : a = name
    · subst ha
      have hk : (k == a) = false := by simpa using h
      simp [List.filter, List.lookup, hk, ih]
    · have hf : (a != name) = true := by simpa using ha
      simp only [List.filter, hf, List.lookup]
      rw [ih]

theorem getEnvironment_setEnvironment (env : List (String × String)) (name value k : String) :
    getEnvironment (setEnvironment env name value) k =
      if k = name then some value else getEnvironment env k := by
  unfold getEnvironment setEnvironment
  by_cases h : k = name
  · subst h
    simp [List.lookup]
  · have hk : (k == name) = false := by simpa using h
    simp only [List.lookup, hk, h, if_false]
    exact lookup_filter_ne env name k h

/-- C7: `Pty::start` returns -1 exactly when `K3Process::start` reports
failure and 0 exactly when it reports success; `resume()` is called exactly
on the success path, after the process start; the write queue and
`_bufferFull` are what they were before the call, on failure as on success. -/
theorem start_result (p : Pty) (program : String) (programArguments : List String)
    (term : String) (winid : Nat) (addToUtmp : Bool) (dbusService dbusSession : String)
    (startOk : Bool) :
    ((p.start program programArguments term winid addToUtmp dbusService dbusSession startOk).2.2
        = -1 ↔ startOk = false) ∧
    ((p.start program programArguments term winid addToUtmp dbusService dbusSession startOk).2.2
        = 0 ↔ startOk = true) ∧
    (Effect.resume ∈
      (p.start program programArguments term winid addToUtmp dbusService dbusSession startOk).2.1
        ↔ startOk = true) ∧
    (p.start program programArguments term winid addToUtmp dbusService dbusSession startOk).2.1
      = (if startOk then [Effect.start true, Effect.resume] else [Effect.start false]) ∧
    (p.start program programArguments term winid addToUtmp dbusService dbusSession
      startOk).1._pendingSendJobs = p._pendingSendJobs ∧
    (p.start program programArguments term winid addToUtmp dbusService dbusSession
      startOk).1._bufferFull = p._bufferFull := by
  cases startOk <;> simp only [Pty.start] <;>
    (refine ⟨?_, ?_, ?_, ?_, ?_, ?_⟩ <;> first | (split_ifs <;> rfl) | simp)

/-- C8: for all inputs to `Pty::start`, the environment after the call
differs from the one before exactly so: `WINDOWID` is the decimal
representation of `winid`; `TERM`, `KONSOLE_DBUS_SERVICE` and
`KONSOLE_DBUS_SESSION` are `term`, `dbusService` and `dbusSession` where
that input is non-empty; every other variable, and each of the three whose
input is empty, has the value it had before. -/
theorem start_environment (p : Pty) (program : String) (programArguments : List String)
    (term : String) (winid : Nat) (addToUtmp : Bool) (dbusService dbusSession : String)
    (startOk : Bool) (name : String) :
    getEnvironment
      (p.start program programArguments term winid addToUtmp dbusService dbusSession
        startOk).1.env name =
      if name = "WINDOWID" then some (Nat.repr winid)
      else if name = "KONSOLE_DBUS_SESSION" ∧ dbusSession.isEmpty = false then some dbusSession
      else if name = "KONSOLE_DBUS_SERVICE" ∧ dbusService.isEmpty = false then some dbusService
      else if name = "TERM" ∧ term.isEmpty = false then some term
      else getEnvironment p.env name := by
  simp only [Pty.start]
  cases term.isEmpty <;> cases dbusService.isEmpty <;> cases dbusSession.isEmpty <;>
    cases startOk <;>
    simp only [getEnvironment_setEnvironment, if_true, if_false, and_true, and_false,
      Bool.true_eq_false, Bool.false_eq_true, Bool.not_true, Bool.not_false, beq_self_eq_true,
      Bool.true_beq, Bool.false_beq, toString]

/-! ## Foreground process group and tty permissions -/

/-- C9: `foregroundProcessGroup` returns the value `tcgetpgrp` reported
whenever that value is not -1, and 0 when it is -1; the result is never -1. -/
theorem foregroundProcessGroup_spec (pgrp : Int) :
    (pgrp ≠ -1 → Pty.foregroundProcessGroup pgrp = pgrp) ∧
    (pgrp = -1 → Pty.foregroundProcessGroup pgrp = 0) ∧
    Pty.foregroundProcessGroup pgrp ≠ -1 := by
  unfold Pty.foregroundProcessGroup
  by_cases h : pgrp = -1
  · subst h
    simp
  · have hb : (pgrp != -1) = true := by simpa using h
    simp [hb, h]

theorem foregroundProcessGroup_spec_witness :
    Pty.foregroundProcessGroup 4711 = 4711 ∧ Pty.foregroundProcessGroup (-1) = 0 :=
  ⟨(foregroundProcessGroup_spec 4711).1 (by decide),
    (foregroundProcessGroup_spec (-1)).2.1 rfl⟩

theorem testBit_modeMask_clear (i : Nat) (hi : i < 32) :
    (modeMask ^^^ (S_IWGRP ||| S_IWOTH)).testBit i = (i != 4 && i != 1) := by
  interval_cases i <;> decide

/-- C10: for every mode `m` that `stat` reports (a `mode_t`, below 2^32),
`setWriteable(true)` passes `m | S_IWGRP` to `chmod`: bit 4 (group write)
is set and every other bit, the other-write bit 1 included, is the bit of
`m`.  `setWriteable(false)` passes `m & ~(S_IWGRP|S_IWOTH)`: bits 4 and 1
are clear and every other bit is the bit of `m`. -/
theorem setWriteable_spec (m : Nat) (hm : m < 2 ^ 32) :
    Pty.setWriteable m true = m ||| S_IWGRP ∧
    (∀ i, (Pty.setWriteable m true).testBit i = (m.testBit i || i == 4)) ∧
    (Pty.setWriteable m true).testBit 1 = m.testBit 1 ∧
    Pty.setWriteable m false = m &&& (modeMask ^^^ (S_IWGRP ||| S_IWOTH)) ∧
    (∀ i, (Pty.setWriteable m false).testBit i = (m.testBit i && (i != 4 && i != 1))) := by
  have hon : ∀ i, (Pty.setWriteable m true).testBit i = (m.testBit i || i == 4) := by
    intro i
    simp only [Pty.setWriteable, if_true, Nat.testBit_or, S_IWGRP]
    congr 1
    have h16 : (16 : Nat) = 2 ^ 4 := by norm_num
    rw [h16, Nat.testBit_two_pow]
    by_cases h : i = 4
    · subst h
      rfl
    · have h4 : ¬ 4 = i := fun e => h e.symm
      simp [h, h4]
  have hoff : ∀ i, (Pty.setWriteable m false).testBit i =
      (m.testBit i && (i != 4 && i != 1)) := by
    intro i
    show (m &&& (modeMask ^^^ (S_IWGRP ||| S_IWOTH))).testBit i = _
    rw [Nat.testBit_and]
    by_cases hi : i < 32
    · rw [testBit_modeMask_clear i hi]
    · have hlt : m < 2 ^ i :=
        lt_of_lt_of_le hm (Nat.pow_le_pow_right (by norm_num) (by omega))
      rw [Nat.testBit_lt_two_pow hlt]
      simp
  refine ⟨rfl, hon, ?_, rfl, hoff⟩
  rw [hon]
  simp

theorem setWriteable_spec_witness :
    (0o620 : Nat) < 2 ^ 32 ∧ Pty.setWriteable 0o620 true = 0o620 ||| S_IWGRP ∧
    Pty.setWriteable 0o622 false = 0o600 :=
  ⟨by decide, (setWriteable_spec 0o620 (by decide)).1, by decide⟩

/-! ## Terminal attributes, stalled writes, arguments -/

/-- C11: `setErase(c)`.  If reading the terminal attributes fails, no
`tcsetattr` is attempted and the terminal keeps its attributes.  If the read
succeeds, exactly one `tcsetattr` is attempted, with the attributes just
read in which only `c_cc[VERASE]` is replaced by `c`; when that write
succeeds these become the attributes of the terminal, when it fails the
terminal keeps its attributes and only a warning is logged.  The method
returns nothing in either case. -/
theorem setErase_spec (tty : Termios) (getOk setOk : Bool) (c : Nat) :
    (getOk = false →
      (Pty.setErase tty getOk setOk c).1 = tty ∧
      attributeWrites (Pty.setErase tty getOk setOk c).2 = []) ∧
    (getOk = true →
      attributeWrites (Pty.setErase tty getOk setOk c).2 =
        [{ tty with c_cc := tty.c_cc.set VERASE c }] ∧
      (setOk = true →
        (Pty.setErase tty getOk setOk c).1 = { tty with c_cc := tty.c_cc.set VERASE c }) ∧
      (setOk = false →
        (Pty.setErase tty getOk setOk c).1 = tty ∧
        (Pty.setErase tty getOk setOk c).2 =
          [TermEffect.tcgetattr true,
           TermEffect.tcsetattr { tty with c_cc := tty.c_cc.set VERASE c } false,
           TermEffect.qWarning "Unable to set terminal attributes."])) ∧
    (∀ i, i ≠ VERASE →
      ((Pty.setErase tty getOk setOk c).1.c_cc.get? i = tty.c_cc.get? i)) ∧
    (Pty.setErase tty getOk setOk c).1.c_iflag = tty.c_iflag ∧
    (Pty.setErase tty getOk setOk c).1.c_oflag = tty.c_oflag ∧
    (Pty.setErase tty getOk setOk c).1.c_cflag = tty.c_cflag ∧
    (Pty.setErase tty getOk setOk c).1.c_lflag = tty.c_lflag := by
  cases getOk <;> cases setOk <;>
    simp [Pty.setErase, attributeWrites, List.getElem?_set]
  all_goals
    intro i hi
    simp [Ne.symm hi]

theorem setErase_spec_witness :
    Pty.setErase demoTermios true true 8 =
      ({ demoTermios with c_cc := [3, 28, 8, 21, 4, 0, 1, 0, 17, 19, 26, 0, 18, 15, 23, 22] },
       [TermEffect.tcgetattr true,
        TermEffect.tcsetattr
          { demoTermios with c_cc := [3, 28, 8, 21, 4, 0, 1, 0, 17, 19, 26, 0, 18, 15, 23, 22] }
          true]) ∧
    (Pty.setErase demoTermios false true 8).1 = demoTermios ∧
    attributeWrites (Pty.setErase demoTermios false true 8).2 = [] :=
  ⟨by decide, ((setErase_spec demoTermios false true 8).1 rfl).1,
    ((setErase_spec demoTermios false true 8).1 rfl).2⟩

/-- C15, as stated, fails: `doSendJobs` on the queue `[jobA]` submits `jobA`
and leaves it in the queue; and when the submit fails it does not mark the
buffer full either. -/
theorem drain_pops_head_counterexample :
    ((Pty.new.appendSendJob jobA).doSendJobs true).1._pendingSendJobs = [jobA] ∧
    ((Pty.new.appendSendJob jobA).doSendJobs true).1._pendingSendJobs ≠ [] ∧
    ((Pty.new.appendSendJob jobA).doSendJobs false).1._bufferFull = false := by
  decide

/-- C15, amended: `doSendJobs` on a queue `j :: rest` calls `writeStdin` once,
on `j`, and leaves the queue `j :: rest` (the head is removed later, by
`writeReady`); it sets `_bufferFull` when the call succeeded and leaves the
flag as it was when the call failed. -/
theorem doSendJobs_keeps_head (p : Pty) (j : SendJob) (rest : List SendJob) (ok : Bool)
    (hq : p._pendingSendJobs = j :: rest) :
    (p.doSendJobs ok).1._pendingSendJobs = j :: rest ∧
    submitted (p.doSendJobs ok).2 = [j] ∧
    (p.doSendJobs ok).2 =
      Effect.writeStdin j ok :: (if ok then [] else [Effect.qWarning sendWarning]) ∧
    (p.doSendJobs ok).1._bufferFull = (ok || p._bufferFull) ∧
    (p.doSendJobs ok).1 = { p with _bufferFull := (ok || p._bufferFull) } := by
  obtain ⟨args, exe, env, up, au, q, bf⟩ := p
  simp only at hq
  subst hq
  cases ok <;> simp [Pty.doSendJobs, submitted]

theorem doSendJobs_keeps_head_witness :
    (Pty.new.appendSendJob jobA)._pendingSendJobs = jobA :: [] ∧
    ((Pty.new.appendSendJob jobA).doSendJobs true).1._pendingSendJobs = jobA :: [] ∧
    ((Pty.new.appendSendJob jobA).doSendJobs true).1._bufferFull =
      (true || (Pty.new.appendSendJob jobA)._bufferFull) :=
  ⟨by decide,
    (doSendJobs_keeps_head (Pty.new.appendSendJob jobA) jobA [] true (by decide)).1,
    (doSendJobs_keeps_head (Pty.new.appendSendJob jobA) jobA [] true (by decide)).2.2.2.1⟩

theorem toLatin1_of_latin1 (cs : List Char) (h : ∀ c ∈ cs, c.toNat < 256) :
    toLatin1 (String.mk cs) = cs.map Char.toNat := by
  unfold toLatin1
  induction cs with
  | nil => rfl
  | cons c rest ih =>
    have hc : c.toNat < 256 := h c (List.mem_cons_self c rest)
    have hr := ih fun d hd => h d (List.mem_cons_of_mem c hd)
    simp only [List.flatMap_cons, hc, if_true, List.map_cons] at hr ⊢
    rw [hr]
    rfl

/-! ## Colour schemas: what the loop of `rereadSchemaFile` keeps -/

theorem andThen_keeps (P : ParserState → Prop) (f : Flow) (g : ParserState → Flow)
    (hf : P f.state) (hg : ∀ s, P s → P (g s).state) : P (f.andThen g).state := by
  cases f with
  | goOn st => exact hg st hf
  | nextLine st => exact hf

theorem titleBlock_keeps (P : ParserState → Prop) (h : Closed P) (env : Env)
    (st : ParserState) (line : List Char) (hP : P st) : P (titleBlock env st line).state := by
  unfold titleBlock
  split
  · exact h.title st _ hP
  · exact hP

theorem imageBlock_keeps (P : ParserState → Prop) (h : Closed P) (env : Env)
    (st : ParserState) (line : List Char) (hP : P st) : P (imageBlock env st line).state := by
  unfold imageBlock
  split
  · split
    · exact hP
    · split
      · exact h.image st _ _ hP
      · exact hP
  · exact hP

theorem transparencyBlock_keeps (P : ParserState → Prop) (h : Closed P) (env : Env)
    (st : ParserState) (line : List Char) (hP : P st) :
    P (transparencyBlock env st line).state := by
  unfold transparencyBlock
  split
  · split
    · exact hP
    · exact h.transparency st _ _ _ _ hP
  · exact hP

theorem within_of_not_not (lo hi v : Int) (hv : ¬ ((!(decide (lo ≤ v) && decide (v ≤ hi))) = true)) :
    within lo hi v = true := by
  simpa [within] using hv

theorem rcolorBlock_keeps (P : ParserState → Prop) (h : Closed P) (env : Env)
    (st : ParserState) (line : List Char) (hP : P st) : P (rcolorBlock env st line).state := by
  have hP1 : P (if st.random_hue == -1 then
      { st with random_hue := (env.random.tmod 32) * 11 } else st) := by
    split
    · exact h.hue st _ hP
    · exact hP
  unfold rcolorBlock
  split
  · split
    · rename_i fi cs cv tr bo _
      by_cases hfi : (!(decide (0 ≤ fi) && decide (fi < TABLE_COLORS))) = true
      · simp only [hfi, if_true]
        exact hP
      · simp only [hfi, if_false]
        by_cases hcs : (!(decide (0 ≤ cs) && decide (cs ≤ 255))) = true
        · simp only [hcs, if_true]
          exact hP1
        · by_cases hcv : (!(decide (0 ≤ cv) && decide (cv ≤ 255))) = true
          · simp only [hcs, hcv, if_true, if_false]
            exact hP1
          · by_cases htr : (!(decide (0 ≤ tr) && decide (tr ≤ 1))) = true
            · simp only [hcs, hcv, htr, if_true, if_false]
              exact hP1
            · by_cases hbo : (!(decide (0 ≤ bo) && decide (bo ≤ 1))) = true
              · simp only [hcs, hcv, htr, hbo, if_true, if_false]
                exact hP1
              · simp only [hcs, hcv, htr, hbo, if_false]
                have h1 : 0 ≤ fi ∧ fi < TABLE_COLORS := by simpa using hfi
                refine h.entry _ fi _ h1.1 h1.2 ?_ ?_ hP1
                · simp only [QColor.channelsOk, within_of_not_not _ _ _ hcs,
                    within_of_not_not _ _ _ hcv, Bool.and_self]
                · simp only [ColorEntry.flagsOk, within_of_not_not _ _ _ htr,
                    within_of_not_not _ _ _ hbo, Bool.and_self]
    · exact hP
  · exact hP

theorem colorBlock_keeps (P : ParserState → Prop) (h : Closed P) (env : Env)
    (st : ParserState) (line : List Char) (hP : P st) : P (colorBlock env st line).state := by
  unfold colorBlock
  split
  · split
    · rename_i fi cr cg cb tr bo _
      by_cases hfi : (!(decide (0 ≤ fi) && decide (fi < TABLE_COLORS))) = true
      · simp only [hfi, if_true]
        exact hP
      · by_cases hcr : (!(decide (0 ≤ cr) && decide (cr ≤ 255))) = true
        · simp only [hfi, hcr, if_true, if_false]
          exact hP
        · by_cases hcg : (!(decide (0 ≤ cg) && decide (cg ≤ 255))) = true
          · simp only [hfi, hcr, hcg, if_true, if_false]
            exact hP
          · by_cases hcb : (!(decide (0 ≤ cb) && decide (cb ≤ 255))) = true
            · simp only [hfi, hcr, hcg, hcb, if_true, if_false]
              exact hP
            · by_cases htr : (!(decide (0 ≤ tr) && decide (tr ≤ 1))) = true
              · simp only [hfi, hcr, hcg, hcb, htr, if_true, if_false]
                exact hP
              · by_cases hbo : (!(decide (0 ≤ bo) && decide (bo ≤ 1))) = true
                · simp only [hfi, hcr, hcg, hcb, htr, hbo, if_true, if_false]
                  exact hP
                · simp only [hfi, hcr, hcg, hcb, htr, hbo, if_false]
                  have h1 : 0 ≤ fi ∧ fi < TABLE_COLORS := by simpa using hfi
                  refine h.entry _ fi _ h1.1 h1.2 ?_ ?_ hP
                  · simp only [QColor.channelsOk, within_of_not_not _ _ _ hcr,
                      within_of_not_not _ _ _ hcg, within_of_not_not _ _ _ hcb, Bool.and_self]
                  · simp only [ColorEntry.flagsOk, within_of_not_not _ _ _ htr,
                      within_of_not_not _ _ _ hbo, Bool.and_self]
    · exact hP
  · exact hP

theorem sysBlock_keeps (P : ParserState → Prop) (h : Closed P) (env : Env)
    (keyword : List Char) (role : PaletteRole)
    (st : ParserState) (line : List Char) (hP : P st) :
    P (sysBlock env keyword role st line).state := by
  unfold sysBlock
  split
  · split
    · rename_i fi tr bo _
      by_cases hfi : (!(decide (0 ≤ fi) && decide (fi < TABLE_COLORS))) = true
      · simp only [hfi, if_true]
        exact hP
      · by_cases htr : (!(decide (0 ≤ tr) && decide (tr ≤ 1))) = true
        · simp only [hfi, htr, if_true, if_false]
          exact hP
        · by_cases hbo : (!(decide (0 ≤ bo) && decide (bo ≤ 1))) = true
          · simp only [hfi, htr, hbo, if_true, if_false]
            exact hP
          · simp only [hfi, htr, hbo, if_false]
            have h1 : 0 ≤ fi ∧ fi < TABLE_COLORS := by simpa using hfi
            refine h.entry _ fi _ h1.1 h1.2 rfl ?_ hP
            simp only [ColorEntry.flagsOk, within_of_not_not _ _ _ htr,
              within_of_not_not _ _ _ hbo, Bool.and_self]
    · exact hP
  · exact hP

theorem processLine_keeps (P : ParserState → Prop) (h : Closed P) (env : Env)
    (st : ParserState) (line : List Char) (hP : P st) : P (processLine env st line) := by
  unfold processLine
  split
  · refine andThen_keeps P _ _ ?_ fun s hs => sysBlock_keeps P h env _ _ s line hs
    refine andThen_keeps P _ _ ?_ fun s hs => sysBlock_keeps P h env _ _ s line hs
    refine andThen_keeps P _ _ ?_ fun s hs => colorBlock_keeps P h env s line hs
    refine andThen_keeps P _ _ ?_ fun s hs => rcolorBlock_keeps P h env s line hs
    refine andThen_keeps P _ _ ?_ fun s hs => transparencyBlock_keeps P h env s line hs
    refine andThen_keeps P _ _ ?_ fun s hs => imageBlock_keeps P h env s line hs
    exact titleBlock_keeps P h env st line hP
  · exact hP

theorem readLoop_keeps (P : ParserState → Prop) (h : Closed P) (env : Env) (fuel : Nat) :
    ∀ (input : List Char) (st : ParserState), P st → P (readLoop env fuel input st) := by
  induction fuel with
  | zero =>
    intro input st hP
    exact hP
  | succ n ih =>
    intro input st hP
    unfold readLoop
    split
    · exact hP
    · exact ih _ _ (processLine_keeps P h env st _ hP)

theorem rereadSchemaFile_keeps (P : ParserState → Prop) (h : Closed P) (env : Env)
    (st : ParserState) (hP : P st) : P (ColorSchema.rereadSchemaFile env st).1 := by
  simp only [ColorSchema.rereadSchemaFile]
  split
  · exact hP
  · cases env.fopen (ColorSchema.schemaPath env st.schema) with
    | none => exact hP
    | some content =>
      exact h.fileRead _ (readLoop_keeps P h env _ _ _ (h.lastRead st _ hP))

theorem fscanfLine_shorter (input chunk rest : List Char)
    (h : fscanfLine input = some (chunk, rest)) : rest.length < input.length := by
  unfold fscanfLine at h
  simp only at h
  split at h
  · exact absurd h (by simp)
  · rename_i hne
    simp only [Option.some.injEq, Prod.mk.injEq] at h
    obtain ⟨hc, hr⟩ := h
    subst hr
    have h1 : chunk.length ≠ 0 := by
      intro h0
      apply hne
      rw [← hc] at h0
      simp [List.isEmpty_iff, List.length_eq_zero.mp h0] 
    have h2 : (skipSpace (input.drop chunk.length)).length ≤ (input.drop chunk.length).length :=
      List.Sublist.length_le (List.dropWhile_sublist _)
    have h3 : chunk.length ≤ input.length := by
      rw [← hc, List.length_take]
      exact le_trans (min_le_right _ _) (List.Sublist.length_le (List.takeWhile_sublist _))
    rw [hc]
    simp only [List.length_drop] at h2
    omega

/-- The loop of `rereadSchemaFile` ends by itself: with `fuel` at least the
length of the input, more fuel gives the same result. -/
theorem readLoop_fuel_enough (env : Env) (fuel : Nat) :
    ∀ (k : Nat) (input : List Char) (st : ParserState), input.length ≤ fuel →
      readLoop env (fuel + k) input st = readLoop env fuel input st := by
  induction fuel with
  | zero =>
    intro k input st hlen
    have h0 : input = [] := List.length_eq_zero.mp (Nat.le_zero.mp hlen)
    subst h0
    cases k with
    | zero => rfl
    | succ k => simp [readLoop, fscanfLine]
  | succ n ih =>
    intro k input st hlen
    have hk : n + 1 + k = (n + k) + 1 := by omega
    rw [hk]
    unfold readLoop
    cases hf : fscanfLine input with
    | none => rfl
    | some r =>
      obtain ⟨chunk, rest⟩ := r
      have hs := fscanfLine_shorter input chunk rest hf
      exact ih k rest _ (by omega)

theorem within_zero_one (v : Int) : within 0 1 v = true ↔ v = 0 ∨ v = 1 := by
  simp only [within, Bool.and_eq_true, decide_eq_true_eq]
  omega

theorem tableOk_closed : Closed ParserState.tableOk := by
  constructor
  · intro st t h
    exact h
  · intro st path attr h
    exact h
  · intro st rx rr rg rb h
    exact h
  · intro st hh h
    exact h
  · intro st t h
    exact h
  · intro st h
    exact h
  · intro st fi e h0 h1 hc hf h
    obtain ⟨hlen, hall, hw⟩ := h
    refine ⟨?_, ?_, ?_⟩
    · simpa [ParserState.setEntry] using hlen
    · intro x hx
      simp only [ParserState.setEntry] at hx
      rcases List.mem_or_eq_of_mem_set hx with hm | he
      · exact hall x hm
      · subst he
        exact ⟨hf, hc⟩
    · intro x hx
      simp only [ParserState.setEntry, List.mem_append, List.mem_singleton] at hx
      rcases hx with hm | he
      · exact hw x hm
      · subst he
        exact ⟨h0, h1⟩

theorem flagsBoolean_of_tableOk (st : ParserState) (h : st.tableOk) : st.flagsBoolean := by
  obtain ⟨hlen, hall, hw⟩ := h
  refine ⟨hlen, ?_, hw⟩
  intro e he
  have hf := (hall e he).1
  simp only [ColorEntry.flagsOk, Bool.and_eq_true] at hf
  exact ⟨(within_zero_one _).mp hf.1, (within_zero_one _).mp hf.2⟩

theorem tableOk_clearSchema (env : Env) (s : ColorSchema) (rh : Int) :
    ParserState.tableOk { schema := s.clearSchema env, random_hue := rh, written := [] } := by
  refine ⟨by simp [ColorSchema.clearSchema, TABLE_COLORS], ?_, by simp⟩
  intro e he
  simp only [ColorSchema.clearSchema] at he
  rw [List.eq_of_mem_replicate he]
  exact ⟨rfl, rfl⟩

theorem tableOk_setDefaultSchema (env : Env) (s : ColorSchema) (rh : Int) :
    ParserState.tableOk { schema := s.setDefaultSchema env, random_hue := rh, written := [] } := by
  refine ⟨by simp [ColorSchema.setDefaultSchema, TABLE_COLORS, default_table], ?_, by simp⟩
  intro e he
  simp only [ColorSchema.setDefaultSchema, default_table, List.mem_cons, List.mem_singleton,
    List.not_mem_nil, or_false] at he
  rcases he with h | h | h | h | h | h | h | h | h | h | h | h | h | h | h | h | h | h | h | h <;>
    (subst h; exact ⟨rfl, rfl⟩)

theorem foldl_processLine_keeps (P : ParserState → Prop) (h : Closed P) (env : Env)
    (lines : List (List Char)) :
    ∀ st : ParserState, P st → P (lines.foldl (processLine env) st) := by
  induction lines with
  | nil =>
    intro st hP
    exact hP
  | cons l rest ih =>
    intro st hP
    exact ih _ (processLine_keeps P h env st l hP)

/-- C17: start from a schema as `clearSchema` or `setDefaultSchema` leaves it
(in any surroundings `env0`, with any `random_hue`).  After the loop body of
`rereadSchemaFile` has run on any sequence of lines, after the loop has run
on any file content, and after a whole call of `rereadSchemaFile`, the table
still has `TABLE_COLORS` entries, every entry has its transparent flag in
{0,1} and its bold flag in {0,1}, and every index at which the table was
assigned lies in `0..TABLE_COLORS-1`. -/
theorem flags_stay_boolean (env0 env : Env) (s : ColorSchema) (rh : Int)
    (lines : List (List Char)) (content : List Char) (fuel : Nat) :
    (lines.foldl (processLine env)
      { schema := s.clearSchema env0, random_hue := rh, written := [] }).flagsBoolean ∧
    (lines.foldl (processLine env)
      { schema := s.setDefaultSchema env0, random_hue := rh, written := [] }).flagsBoolean ∧
    (readLoop env fuel content
      { schema := s.clearSchema env0, random_hue := rh, written := [] }).flagsBoolean ∧
    (readLoop env fuel content
      { schema := s.setDefaultSchema env0, random_hue := rh, written := [] }).flagsBoolean ∧
    (ColorSchema.rereadSchemaFile env
      { schema := s.clearSchema env0, random_hue := rh, written := [] }).1.flagsBoolean ∧
    (ColorSchema.rereadSchemaFile env
      { schema := s.setDefaultSchema env0, random_hue := rh, written := [] }).1.flagsBoolean := by
  have hc := tableOk_clearSchema env0 s rh
  have hd := tableOk_setDefaultSchema env0 s rh
  exact ⟨flagsBoolean_of_tableOk _ (foldl_processLine_keeps _ tableOk_closed env lines _ hc),
    flagsBoolean_of_tableOk _ (foldl_processLine_keeps _ tableOk_closed env lines _ hd),
    flagsBoolean_of_tableOk _ (readLoop_keeps _ tableOk_closed env fuel content _ hc),
    flagsBoolean_of_tableOk _ (readLoop_keeps _ tableOk_closed env fuel content _ hd),
    flagsBoolean_of_tableOk _ (rereadSchemaFile_keeps _ tableOk_closed env _ hc),
    flagsBoolean_of_tableOk _ (rereadSchemaFile_keeps _ tableOk_closed env _ hd)⟩

/-! ## Colour schemas: the directives `color` and `transparency` -/

theorem matchLit_eq_some (kw : List Char) :
    ∀ (line rest : List Char), matchLit kw line = some rest → line = kw ++ rest := by
  induction kw with
  | nil =>
    intro line rest h
    simp only [matchLit, Option.some.injEq] at h
    simp [h]
  | cons c cs ih =>
    intro line rest h
    cases line with
    | nil => simp [matchLit] at h
    | cons d ds =>
      simp only [matchLit] at h
      split at h
      · rename_i hcd
        subst hcd
        rw [ih ds rest h]
        rfl
      · exact absurd h (by simp)

theorem scanInts_nil (conv : Int → Int) (n : Nat) : scanInts conv n [] = [] := by
  cases n with
  | zero => rfl
  | succ n => simp [scanInts, scanInt, skipSpace]

theorem sscanfInts_shape (conv : Int → Int) (kw : List Char) (n : Nat) (line : List Char)
    (v : Int) (vs : List Int) (h : sscanfInts conv kw n line = v :: vs) :
    ∃ c rest, line = kw ++ c :: rest := by
  unfold sscanfInts at h
  cases hm : matchLit kw line with
  | none => simp [hm] at h
  | some rest =>
    simp only [hm] at h
    cases rest with
    | nil => simp [scanInts_nil] at h
    | cons c rest1 => exact ⟨c, rest1, matchLit_eq_some kw line _ hm⟩

theorem andThen_goOn_state (f : Flow) (g : ParserState → Flow)
    (hg : ∀ s, g s = Flow.goOn s) : (f.andThen g).state = f.state := by
  cases f with
  | goOn st => simp [Flow.andThen, hg, Flow.state]
  | nextLine st => rfl

theorem processLine_color_line (env : Env) (st : ParserState) (line : List Char)
    (h5 : line.take 5 = kwColor) (hlen : 5 < line.length) :
    processLine env st line = (colorBlock env st line).state := by
  have h12 : line.take 12 ≠ kwTransparency := by
    intro h
    have h1 := congrArg (List.take 5) h
    rw [List.take_take] at h1
    simp only [Nat.reduceLeDiff, min_eq_left] at h1
    rw [h5] at h1
    exact absurd h1 (by decide)
  have h6 : line.take 6 ≠ kwRcolor := by
    intro h
    have h1 := congrArg (List.take 5) h
    rw [List.take_take] at h1
    simp only [Nat.reduceLeDiff, min_eq_left] at h1
    rw [h5] at h1
    exact absurd h1 (by decide)
  have ht : titleBlock env st line = Flow.goOn st := by
    simp only [titleBlock, h5]
    rw [if_neg (by decide)]
  have hi : imageBlock env st line = Flow.goOn st := by
    simp only [imageBlock, h5]
    rw [if_neg (by decide)]
  have htr : transparencyBlock env st line = Flow.goOn st := by
    simp only [transparencyBlock, h12, if_false]
  have hr : rcolorBlock env st line = Flow.goOn st := by
    simp only [rcolorBlock, h6, if_false]
  have hfg : ∀ s, sysBlock env kwSysfg PaletteRole.Text s line = Flow.goOn s := by
    intro s
    simp only [sysBlock, h5]
    rw [if_neg (by decide)]
  have hbg : ∀ s, sysBlock env kwSysbg PaletteRole.Base s line = Flow.goOn s := by
    intro s
    simp only [sysBlock, h5]
    rw [if_neg (by decide)]
  unfold processLine
  rw [if_pos hlen, andThen_goOn_state _ _ hbg, andThen_goOn_state _ _ hfg, ht]
  simp only [Flow.andThen, hi, htr, hr]

theorem digitChar_toNat (d : Nat) (h : d < 10) : (digitChar d).toNat = 48 + d := by
  unfold digitChar
  interval_cases d <;> rfl

theorem isdigit_digitChar (d : Nat) (h : d < 10) : isdigit (digitChar d) = true := by
  simp only [isdigit, digitChar_toNat d h, Bool.and_eq_true, decide_eq_true_eq]
  omega

theorem decimal_digits (n : Nat) : ∀ c ∈ decimal n, isdigit c = true := by
  intro c hc
  unfold decimal at hc
  split at hc
  · simp only [List.mem_singleton] at hc
    subst hc
    rfl
  · simp only [List.mem_map, List.mem_reverse] at hc
    obtain ⟨d, hd, rfl⟩ := hc
    exact isdigit_digitChar d (Nat.digits_lt_base (by norm_num) hd)

theorem decimal_ne_nil (n : Nat) : decimal n ≠ [] := by
  unfold decimal
  split
  · simp
  · rename_i hn
    simp only [ne_eq, List.map_eq_nil_iff, List.reverse_eq_nil_iff]
    exact fun h => hn (Nat.digits_eq_nil_iff_eq_zero.mp h)

theorem digitsValue_snoc (ds : List Char) (c : Char) :
    digitsValue (ds ++ [c]) = digitsValue ds * 10 + (c.toNat - 48) := by
  simp [digitsValue, List.foldl_append]

theorem digitsValue_digits (L : List Nat) (hL : ∀ d ∈ L, d < 10) :
    digitsValue (L.reverse.map digitChar) = Nat.ofDigits 10 L := by
  induction L with
  | nil => rfl
  | cons d t ih =>
    have hd : d < 10 := hL d (List.mem_cons_self d t)
    have ht := ih fun x hx => hL x (List.mem_cons_of_mem d hx)
    simp only [List.reverse_cons, List.map_append, List.map_cons, List.map_nil,
      digitsValue_snoc, ht, digitChar_toNat d hd, Nat.ofDigits_cons]
    omega

theorem digitsValue_decimal (n : Nat) : digitsValue (decimal n) = n := by
  unfold decimal
  split
  · rename_i h
    subst h
    rfl
  · rw [digitsValue_digits _ fun d hd => Nat.digits_lt_base (by norm_num) hd]
    exact Nat.ofDigits_digits 10 n

theorem takeWhile_digits (ds rest : List Char) (hds : ∀ c ∈ ds, isdigit c = true)
    (hr : noDigitAhead rest) :
    (ds ++ rest).takeWhile isdigit = ds ∧ (ds ++ rest).dropWhile isdigit = rest := by
  induction ds with
  | nil =>
    cases rest with
    | nil => exact ⟨rfl, rfl⟩
    | cons c t =>
      have hc : isdigit c = false := hr c (by simp)
      simp [List.takeWhile, List.dropWhile, hc]
  | cons d t ih =>
    have hd : isdigit d = true := hds d (List.mem_cons_self d t)
    obtain ⟨i1, i2⟩ := ih fun x hx => hds x (List.mem_cons_of_mem d hx)
    simp [List.takeWhile, List.dropWhile, hd, i1, i2]

theorem digit_facts (c : Char) (h : isdigit c = true) :
    isspace c = false ∧ c ≠ '-' ∧ c ≠ '+' := by
  simp only [isdigit, Bool.and_eq_true, decide_eq_true_eq] at h
  refine ⟨?_, ?_, ?_⟩
  · simp only [isspace, Bool.or_eq_false_iff, beq_eq_false_iff_ne, ne_eq, Bool.and_eq_false_imp,
      decide_eq_true_eq, decide_eq_false_iff_not, not_le]
    omega
  · intro hc
    subst hc
    simp at h
  · intro hc
    subst hc
    simp at h

theorem scanInt_decimal (conv : Int → Int) (n : Nat) (neg : Bool) (rest : List Char)
    (hr : noDigitAhead rest) :
    scanInt conv (' ' :: ((if neg then ['-'] else []) ++ decimal n ++ rest)) =
      some (conv (if neg then -(n : Int) else (n : Int)), rest) := by
  obtain ⟨c, t, hct⟩ := List.exists_cons_of_ne_nil (decimal_ne_nil n)
  have hcd : isdigit c = true := decimal_digits n c (by rw [hct]; exact List.mem_cons_self c t)
  obtain ⟨hsp, hm, hp⟩ := digit_facts c hcd
  obtain ⟨tw, dw⟩ := takeWhile_digits (decimal n) rest (decimal_digits n) hr
  have hne : ((decimal n).isEmpty) = false := by rw [hct]; rfl
  cases neg with
  | true =>
    have hs : skipSpace (' ' :: (['-'] ++ decimal n ++ rest)) = '-' :: (decimal n ++ rest) := by
      simp [skipSpace, List.dropWhile, isspace]
    simp only [scanInt, if_true, hs, List.head?_cons, beq_self_eq_true, Bool.true_or,
      List.tail_cons, tw, dw, hne, digitsValue_decimal]
    simp
  | false =>
    have hs : skipSpace (' ' :: ([] ++ decimal n ++ rest)) = decimal n ++ rest := by
      rw [hct]
      have h0 : isspace ' ' = true := rfl
      simp only [skipSpace, List.nil_append, List.cons_append, List.dropWhile, h0, hsp]
      rfl
    have hh : (decimal n ++ rest).head? = some c := by rw [hct]; rfl
    have h1 : (some c == some '-') = false := by simpa using hm
    have h2 : (some c == some '+') = false := by simpa using hp
    simp only [scanInt, hs, hh, h1, h2, Bool.or_self, Bool.false_eq_true, if_false, tw, dw, hne,
      digitsValue_decimal]


theorem noDigitAhead_blank (l : List Char) : noDigitAhead (' ' :: l) := by
  intro c hc
  simp only [List.head?_cons, Option.mem_def, Option.some.injEq] at hc
  subst hc
  rfl

theorem noDigitAhead_nil : noDigitAhead [] := by
  intro c hc
  simp at hc

theorem scanInt_showInt (conv : Int → Int) (v : Int) (rest : List Char)
    (hr : noDigitAhead rest) :
    scanInt conv (' ' :: (showInt v ++ rest)) = some (conv v, rest) := by
  by_cases hv : v < 0
  · have h := scanInt_decimal conv v.natAbs true rest hr
    simp only [if_true] at h
    have e : -((v.natAbs : Nat) : Int) = v := by omega
    rw [e] at h
    simpa [showInt, hv] using h
  · have h := scanInt_decimal conv v.natAbs false rest hr
    simp only [Bool.false_eq_true, if_false] at h
    have e : ((v.natAbs : Nat) : Int) = v := by omega
    rw [e] at h
    simpa [showInt, hv] using h

/-- The line `color fi cr cg cb tr bo` is read as its six numbers. -/
theorem sscanf_colorLine (conv : Int → Int) (fi cr cg cb tr bo : Int) :
    sscanfInts conv kwColor 6 (colorLine fi cr cg cb tr bo) =
      [conv fi, conv cr, conv cg, conv cb, conv tr, conv bo] := by
  have hm : ∀ rest, matchLit kwColor (kwColor ++ rest) = some rest := by
    intro rest
    simp [kwColor, matchLit]
  unfold sscanfInts colorLine
  rw [hm]
  have e6 := scanInt_showInt conv bo [] noDigitAhead_nil
  rw [List.append_nil] at e6
  simp only [scanInts,
    scanInt_showInt conv fi _ (noDigitAhead_blank _),
    scanInt_showInt conv cr _ (noDigitAhead_blank _),
    scanInt_showInt conv cg _ (noDigitAhead_blank _),
    scanInt_showInt conv cb _ (noDigitAhead_blank _),
    scanInt_showInt conv tr _ (noDigitAhead_blank _), e6]

theorem not_within_iff (lo hi v : Int) :
    ((!(decide (lo ≤ v) && decide (v ≤ hi))) = true) ↔ ¬ (lo ≤ v ∧ v ≤ hi) := by
  by_cases h1 : lo ≤ v <;> by_cases h2 : v ≤ hi <;> simp [h1, h2]

theorem not_index_iff (fi : Int) :
    ((!(decide (0 ≤ fi) && decide (fi < TABLE_COLORS))) = true) ↔
      ¬ (0 ≤ fi ∧ fi < TABLE_COLORS) := by
  by_cases h1 : 0 ≤ fi <;> by_cases h2 : fi < TABLE_COLORS <;> simp [h1, h2]

theorem color_line_effect (env : Env) (st : ParserState) (line : List Char)
    (fi cr cg cb tr bo : Int)
    (hscan : sscanfInts env.conv kwColor 6 line = [fi, cr, cg, cb, tr, bo]) :
    processLine env st line =
      (if 0 ≤ fi ∧ fi < TABLE_COLORS ∧ 0 ≤ cr ∧ cr ≤ 255 ∧ 0 ≤ cg ∧ cg ≤ 255 ∧
          0 ≤ cb ∧ cb ≤ 255 ∧ 0 ≤ tr ∧ tr ≤ 1 ∧ 0 ≤ bo ∧ bo ≤ 1 then
        { st with
          schema := { st.schema with
            m_table := st.schema.m_table.set fi.toNat ⟨QColor.rgb cr cg cb, tr, bo⟩ }
          written := st.written ++ [fi] }
      else st) := by
  obtain ⟨c, rest, hline⟩ := sscanfInts_shape _ _ _ _ _ _ hscan
  have h5 : line.take 5 = kwColor := by
    rw [hline]
    rfl
  have hlen : 5 < line.length := by
    rw [hline]
    simp [kwColor]
  rw [processLine_color_line env st line h5 hlen]
  simp only [colorBlock, h5, if_true, hscan, not_within_iff, not_index_iff]
  by_cases hfi : 0 ≤ fi ∧ fi < TABLE_COLORS
  swap
  · rw [if_pos hfi, if_neg fun h => hfi ⟨h.1, h.2.1⟩]
    rfl
  rw [if_neg (not_not.mpr hfi)]
  by_cases hcr : 0 ≤ cr ∧ cr ≤ 255
  swap
  · rw [if_pos hcr, if_neg fun h => hcr ⟨h.2.2.1, h.2.2.2.1⟩]
    rfl
  rw [if_neg (not_not.mpr hcr)]
  by_cases hcg : 0 ≤ cg ∧ cg ≤ 255
  swap
  · rw [if_pos hcg, if_neg fun h => hcg ⟨h.2.2.2.2.1, h.2.2.2.2.2.1⟩]
    rfl
  rw [if_neg (not_not.mpr hcg)]
  by_cases hcb : 0 ≤ cb ∧ cb ≤ 255
  swap
  · rw [if_pos hcb, if_neg fun h => hcb ⟨h.2.2.2.2.2.2.1, h.2.2.2.2.2.2.2.1⟩]
    rfl
  rw [if_neg (not_not.mpr hcb)]
  by_cases htr : 0 ≤ tr ∧ tr ≤ 1
  swap
  · rw [if_pos htr, if_neg fun h => htr ⟨h.2.2.2.2.2.2.2.2.1, h.2.2.2.2.2.2.2.2.2.1⟩]
    rfl
  rw [if_neg (not_not.mpr htr)]
  by_cases hbo : 0 ≤ bo ∧ bo ≤ 1
  swap
  · rw [if_pos hbo, if_neg fun h => hbo h.2.2.2.2.2.2.2.2.2.2]
    rfl
  rw [if_neg (not_not.mpr hbo),
    if_pos ⟨hfi.1, hfi.2, hcr.1, hcr.2, hcg.1, hcg.2, hcb.1, hcb.2, htr.1, htr.2, hbo⟩]
  rfl

/-- C16, at the failing input: the line `transparency 0.5 300 0 0` is not
ignored; the loop body stores 300 in `m_tr_r` and switches transparency on,
and so does a whole call of `rereadSchemaFile` on a file with that line. -/
theorem transparency_unchecked :
    (processLine demoEnv demoStart "transparency 0.5 300 0 0".data).schema.m_tr_r = 300 ∧
    (processLine demoEnv demoStart "transparency 0.5 300 0 0".data).schema.m_useTransparency
      = true ∧
    (ColorSchema.rereadSchemaFile demoEnv demoStart).1.schema.m_tr_r = 300 := by
  decide

/-! ## Colour schemas: the list and the numbering -/

theorem fromPath_numb (env : Env) (serial : Int) (path : String) :
    (ColorSchema.fromPath env serial path).1.m_numb = serial ∧
    (ColorSchema.fromPath env serial path).2 = serial + 1 := by
  simp only [ColorSchema.fromPath]
  exact ⟨trivial, trivial⟩

theorem fromConfig_numb (env : Env) (serial : Int) (c : KConfig) :
    (ColorSchema.fromConfig env serial c).1.m_numb = serial ∧
    (ColorSchema.fromConfig env serial c).2 = serial + 1 :=
  ⟨rfl, rfl⟩

theorem ctor_run_numb (serial : Int) (c : SchemaCtor) :
    (c.run serial).1.m_numb = serial ∧ (c.run serial).2 = serial + 1 := by
  cases c with
  | path env pathname => exact fromPath_numb env serial pathname
  | config env c => exact fromConfig_numb env serial c

theorem listInv_new (env : Env) (rh : Int) :
    ListInv (ColorSchema.default env) (ColorSchemaList.new env rh) := by
  constructor
  · rfl
  · rfl
  · rfl
  · rfl
  · simp [ColorSchemaList.new]
  · intro s hs
    simp only [ColorSchemaList.new, List.mem_singleton] at hs
    subst hs
    show (0 : Int) < 1
    omega

theorem listInv_appendNew (d : ColorSchema) (st : SchemaState) (env : Env) (path : String)
    (h : ListInv d st) : ListInv d (st.appendNew env path) := by
  obtain ⟨hn, hs⟩ := fromPath_numb env st.serial path
  constructor
  · simp only [SchemaState.appendNew]
    cases hi : st.items with
    | nil =>
      have := h.head
      rw [hi] at this
      simp at this
    | cons a l =>
      have := h.head
      rw [hi] at this
      simpa using this
  · exact h.numb
  · exact h.stamp
  · exact h.path
  · simp only [SchemaState.appendNew, List.map_append, List.map_cons, List.map_nil]
    rw [List.pairwise_append]
    refine ⟨h.sorted, List.pairwise_singleton _ _, ?_⟩
    intro a ha b hb
    simp only [List.mem_singleton] at hb
    obtain ⟨s, hs1, hs2⟩ := List.mem_map.mp ha
    rw [hb, hn, ← hs2]
    exact h.below s hs1
  · intro s hs
    simp only [SchemaState.appendNew, List.mem_append, List.mem_singleton] at hs
    simp only [SchemaState.appendNew, hs]
    rcases hs with hm | he
    · have := h.below s hm
      omega
    · rw [he, hn]
      omega

theorem listInv_findPath (d : ColorSchema) (st : SchemaState) (env : Env) (path : String)
    (h : ListInv d st) : ListInv d (st.findPath env path).1 := by
  unfold SchemaState.findPath
  split
  · exact h
  · split
    · exact listInv_appendNew d st env path h
    · split
      · exact h
      · split
        · exact listInv_appendNew d st env path h
        · exact h

theorem numb_closed (n : Int) : Closed fun st => st.schema.m_numb = n := by
  constructor
  · intro st t h
    exact h
  · intro st p a h
    exact h
  · intro st rx rr rg rb h
    exact h
  · intro st hh h
    exact h
  · intro st t h
    exact h
  · intro st h
    exact h
  · intro st fi e _ _ _ _ h
    exact h

theorem map_numb_set (l : List ColorSchema) :
    ∀ (i : Nat) (sc sc2 : ColorSchema), l.get? i = some sc → sc2.m_numb = sc.m_numb →
      (l.set i sc2).map (fun s => s.m_numb) = l.map fun s => s.m_numb := by
  induction l with
  | nil =>
    intro i sc sc2 h
    simp at h
  | cons a t ih =>
    intro i sc sc2 h hn
    cases i with
    | zero =>
      simp only [List.get?_cons_zero, Option.some.injEq] at h
      subst h
      simp [hn]
    | succ i =>
      simp only [List.get?_cons_succ] at h
      simp only [List.set_cons_succ, List.map_cons, ih i sc sc2 h hn]

theorem default_not_changed (env : Env) (d : ColorSchema) (hp : d.fRelPath = "") :
    d.hasSchemaFileChanged env = false := by
  simp only [ColorSchema.hasSchemaFileChanged, hp]
  rfl

theorem default_updateLastRead (d : ColorSchema) (now : Nat) (hs : d.lastRead = none) :
    d.updateLastRead now = d := by
  simp only [ColorSchema.updateLastRead, hs]

theorem listInv_set (d : ColorSchema) (st : SchemaState) (i : Nat) (sc sc2 : ColorSchema)
    (rh : Int) (h : ListInv d st) (hget : st.items.get? i = some sc)
    (hn : sc2.m_numb = sc.m_numb) (h0 : i = 0 → sc2 = sc) :
    ListInv d { st with items := st.items.set i sc2, random_hue := rh } := by
  constructor
  · cases hi : st.items with
    | nil =>
      have := h.head
      rw [hi] at this
      simp at this
    | cons a l =>
      have hh := h.head
      rw [hi] at hh hget
      cases i with
      | zero =>
        simp only [List.get?_cons_zero, Option.some.injEq] at hget
        rw [h0 rfl, ← hget]
        simpa using hh
      | succ i => simpa using hh
  · exact h.numb
  · exact h.stamp
  · exact h.path
  · show ((st.items.set i sc2).map fun s => s.m_numb).Pairwise fun a b => a < b
    rw [map_numb_set st.items i sc sc2 hget hn]
    exact h.sorted
  · intro s hs
    show s.m_numb < st.serial
    rcases List.mem_or_eq_of_mem_set hs with hm | he
    · exact h.below s hm
    · rw [he, hn]
      exact h.below sc (List.get?_mem hget)

theorem listInv_updateStep (d : ColorSchema) (env : Env) (now : Nat) (acc : SchemaState × Bool)
    (file : String) (h : ListInv d acc.1) :
    ListInv d (SchemaState.updateStep env now acc file).1 := by
  simp only [SchemaState.updateStep]
  generalize (if file.data.contains '/' = true then String.mk (List.drop 8 file.data)
    else file) = filename
  have hf := listInv_findPath d acc.1 env filename h
  cases hr : acc.1.findPath env filename with
  | mk st1 oi =>
    rw [hr] at hf
    simp only at hf
    cases oi with
    | none => exact listInv_appendNew d st1 env filename hf
    | some i =>
      simp only
      cases hg : st1.items.get? i with
      | none => exact hf
      | some sc =>
        simp only
        have hd0 : i = 0 → sc = d := by
          intro hi
          subst hi
          have hh := hf.head
          cases hitems : st1.items with
          | nil =>
            rw [hitems] at hg
            simp at hg
          | cons a l =>
            rw [hitems] at hg hh
            simp only [List.get?_cons_zero, Option.some.injEq] at hg
            simp only [List.head?_cons, Option.some.injEq] at hh
            rw [← hg, hh]
        split
        · rename_i hch
          refine listInv_set d st1 i sc _ _ hf hg ?_ ?_
          · exact rereadSchemaFile_keeps _ (numb_closed sc.m_numb) env _ rfl
          · intro hi
            rw [hd0 hi, default_not_changed env d hf.path] at hch
            exact absurd hch (by decide)
        · have := listInv_set d st1 i sc (sc.updateLastRead now) st1.random_hue hf hg ?_ ?_
          · exact this
          · unfold ColorSchema.updateLastRead
            split <;> rfl
          · intro hi
            rw [hd0 hi]
            exact default_updateLastRead d now hf.stamp

theorem listInv_foldl (d : ColorSchema) (env : Env) (now : Nat) (files : List String) :
    ∀ acc : SchemaState × Bool, ListInv d acc.1 →
      ListInv d (files.foldl (SchemaState.updateStep env now) acc).1 := by
  induction files with
  | nil =>
    intro acc h
    exact h
  | cons f rest ih =>
    intro acc h
    exact ih _ (listInv_updateStep d env now acc f h)

/-! ## Colour schemas: one directive a line -/

theorem titleBlock_off (env : Env) (st : ParserState) (line : List Char)
    (h : line.take 5 ≠ kwTitle) : titleBlock env st line = Flow.goOn st := by
  simp only [titleBlock, h, if_false]

theorem imageBlock_off (env : Env) (st : ParserState) (line : List Char)
    (h : line.take 5 ≠ kwImage) : imageBlock env st line = Flow.goOn st := by
  simp only [imageBlock, h, if_false]

theorem transparencyBlock_off (env : Env) (st : ParserState) (line : List Char)
    (h : line.take 12 ≠ kwTransparency) : transparencyBlock env st line = Flow.goOn st := by
  simp only [transparencyBlock, h, if_false]

theorem rcolorBlock_off (env : Env) (st : ParserState) (line : List Char)
    (h : line.take 6 ≠ kwRcolor) : rcolorBlock env st line = Flow.goOn st := by
  simp only [rcolorBlock, h, if_false]

theorem colorBlock_off (env : Env) (st : ParserState) (line : List Char)
    (h : line.take 5 ≠ kwColor) : colorBlock env st line = Flow.goOn st := by
  simp only [colorBlock, h, if_false]

theorem sysBlock_off (env : Env) (keyword : List Char) (role : PaletteRole)
    (st : ParserState) (line : List Char)
    (h : line.take 5 ≠ keyword) : sysBlock env keyword role st line = Flow.goOn st := by
  simp only [sysBlock, h, if_false]

theorem take5_of_beginsWith (line keyword : List Char) (h5 : 5 ≤ keyword.length)
    (h : beginsWith line keyword) : line.take 5 = keyword.take 5 := by
  have h1 := congrArg (List.take 5) h
  rwa [List.take_take, min_eq_left h5] at h1

theorem processLine_long (env : Env) (st : ParserState) (line : List Char)
    (hlen : 5 < line.length) :
    processLine env st line =
      (((((((titleBlock env st line).andThen fun s => imageBlock env s line).andThen
        fun s => transparencyBlock env s line).andThen
        fun s => rcolorBlock env s line).andThen
        fun s => colorBlock env s line).andThen
        fun s => sysBlock env kwSysfg PaletteRole.Text s line).andThen
        fun s => sysBlock env kwSysbg PaletteRole.Base s line).state := by
  unfold processLine
  rw [if_pos hlen]

/-- The tests of the seven blocks, decided by the first five characters. -/
theorem tests_of_take5 (line k : List Char) (hk : k ∈ keywords) (h : beginsWith line k) :
    (line.take 5 = kwTitle ↔ k = kwTitle) ∧ (line.take 5 = kwImage ↔ k = kwImage) ∧
    (line.take 12 = kwTransparency ↔ k = kwTransparency) ∧
    (line.take 6 = kwRcolor ↔ k = kwRcolor) ∧ (line.take 5 = kwColor ↔ k = kwColor) ∧
    (line.take 5 = kwSysfg ↔ k = kwSysfg) ∧ (line.take 5 = kwSysbg ↔ k = kwSysbg) := by
  have e12 : line.take 12 = kwTransparency → line.take 5 = kwTransparency.take 5 :=
    fun e => take5_of_beginsWith line kwTransparency (by decide) e
  have e6 : line.take 6 = kwRcolor → line.take 5 = kwRcolor.take 5 :=
    fun e => take5_of_beginsWith line kwRcolor (by decide) e
  simp only [keywords, List.mem_cons, List.mem_singleton, List.not_mem_nil, or_false] at hk
  rcases hk with rfl | rfl | rfl | rfl | rfl | rfl | rfl
  all_goals
    have h5 := take5_of_beginsWith line _ (by decide) h
    refine ⟨?_, ?_, ?_, ?_, ?_, ?_, ?_⟩ <;> constructor <;> intro e <;>
      first
        | exact h
        | rfl
        | (rw [h5] at e; exact absurd e (by decide))
        | (exact absurd e (by decide))
        | (have e2 := e12 e; rw [h5] at e2; exact absurd e2 (by decide))
        | (have e2 := e6 e; rw [h5] at e2; exact absurd e2 (by decide))


theorem processLine_single (env : Env) (st : ParserState) (line k : List Char)
    (hk : k ∈ keywords) (h : beginsWith line k) (hlen : 5 < line.length) :
    (k = kwTitle → processLine env st line = (titleBlock env st line).state) ∧
    (k = kwImage → processLine env st line = (imageBlock env st line).state) ∧
    (k = kwTransparency → processLine env st line = (transparencyBlock env st line).state) ∧
    (k = kwRcolor → processLine env st line = (rcolorBlock env st line).state) ∧
    (k = kwColor → processLine env st line = (colorBlock env st line).state) ∧
    (k = kwSysfg →
      processLine env st line = (sysBlock env kwSysfg PaletteRole.Text st line).state) ∧
    (k = kwSysbg →
      processLine env st line = (sysBlock env kwSysbg PaletteRole.Base st line).state) := by
  obtain ⟨t1, t2, t3, t4, t5, t6, t7⟩ := tests_of_take5 line k hk h
  rw [processLine_long env st line hlen]
  refine ⟨?_, ?_, ?_, ?_, ?_, ?_, ?_⟩ <;> intro hkk <;> subst hkk
  · have o2 : ∀ s, imageBlock env s line = Flow.goOn s :=
      fun s => imageBlock_off env s line (fun e => absurd (t2.mp e) (by decide))
    have o3 : ∀ s, transparencyBlock env s line = Flow.goOn s :=
      fun s => transparencyBlock_off env s line (fun e => absurd (t3.mp e) (by decide))
    have o4 : ∀ s, rcolorBlock env s line = Flow.goOn s :=
      fun s => rcolorBlock_off env s line (fun e => absurd (t4.mp e) (by decide))
    have o5 : ∀ s, colorBlock env s line = Flow.goOn s :=
      fun s => colorBlock_off env s line (fun e => absurd (t5.mp e) (by decide))
    have o6 : ∀ s, sysBlock env kwSysfg PaletteRole.Text s line = Flow.goOn s :=
      fun s => sysBlock_off env _ _ s line (fun e => absurd (t6.mp e) (by decide))
    have o7 : ∀ s, sysBlock env kwSysbg PaletteRole.Base s line = Flow.goOn s :=
      fun s => sysBlock_off env _ _ s line (fun e => absurd (t7.mp e) (by decide))
    rw [andThen_goOn_state _ _ o7, andThen_goOn_state _ _ o6, andThen_goOn_state _ _ o5,
      andThen_goOn_state _ _ o4, andThen_goOn_state _ _ o3, andThen_goOn_state _ _ o2]
  · have o1 : titleBlock env st line = Flow.goOn st :=
      titleBlock_off env st line (fun e => absurd (t1.mp e) (by decide))
    have o3 : ∀ s, transparencyBlock env s line = Flow.goOn s :=
      fun s => transparencyBlock_off env s line (fun e => absurd (t3.mp e) (by decide))
    have o4 : ∀ s, rcolorBlock env s line = Flow.goOn s :=
      fun s => rcolorBlock_off env s line (fun e => absurd (t4.mp e) (by decide))
    have o5 : ∀ s, colorBlock env s line = Flow.goOn s :=
      fun s => colorBlock_off env s line (fun e => absurd (t5.mp e) (by decide))
    have o6 : ∀ s, sysBlock env kwSysfg PaletteRole.Text s line = Flow.goOn s :=
      fun s => sysBlock_off env _ _ s line (fun e => absurd (t6.mp e) (by decide))
    have o7 : ∀ s, sysBlock env kwSysbg PaletteRole.Base s line = Flow.goOn s :=
      fun s => sysBlock_off env _ _ s line (fun e => absurd (t7.mp e) (by decide))
    rw [andThen_goOn_state _ _ o7, andThen_goOn_state _ _ o6, andThen_goOn_state _ _ o5,
      andThen_goOn_state _ _ o4, andThen_goOn_state _ _ o3, o1]
    rfl
  · have o1 : titleBlock env st line = Flow.goOn st :=
      titleBlock_off env st line (fun e => absurd (t1.mp e) (by decide))
    have o2 : ∀ s, imageBlock env s line = Flow.goOn s :=
      fun s => imageBlock_off env s line (fun e => absurd (t2.mp e) (by decide))
    have o4 : ∀ s, rcolorBlock env s line = Flow.goOn s :=
      fun s => rcolorBlock_off env s line (fun e => absurd (t4.mp e) (by decide))
    have o5 : ∀ s, colorBlock env s line = Flow.goOn s :=
      fun s => colorBlock_off env s line (fun e => absurd (t5.mp e) (by decide))
    have o6 : ∀ s, sysBlock env kwSysfg PaletteRole.Text s line = Flow.goOn s :=
      fun s => sysBlock_off env _ _ s line (fun e => absurd (t6.mp e) (by decide))
    have o7 : ∀ s, sysBlock env kwSysbg PaletteRole.Base s line = Flow.goOn s :=
      fun s => sysBlock_off env _ _ s line (fun e => absurd (t7.mp e) (by decide))
    rw [andThen_goOn_state _ _ o7, andThen_goOn_state _ _ o6, andThen_goOn_state _ _ o5,
      andThen_goOn_state _ _ o4, o1]
    simp only [Flow.andThen, o2]
  · have o1 : titleBlock env st line = Flow.goOn st :=
      titleBlock_off env st line (fun e => absurd (t1.mp e) (by decide))
    have o2 : ∀ s, imageBlock env s line = Flow.goOn s :=
      fun s => imageBlock_off env s line (fun e => absurd (t2.mp e) (by decide))
    have o3 : ∀ s, transparencyBlock env s line = Flow.goOn s :=
      fun s => transparencyBlock_off env s line (fun e => absurd (t3.mp e) (by decide))
    have o5 : ∀ s, colorBlock env s line = Flow.goOn s :=
      fun s => colorBlock_off env s line (fun e => absurd (t5.mp e) (by decide))
    have o6 : ∀ s, sysBlock env kwSysfg PaletteRole.Text s line = Flow.goOn s :=
      fun s => sysBlock_off env _ _ s line (fun e => absurd (t6.mp e) (by decide))
    have o7 : ∀ s, sysBlock env kwSysbg PaletteRole.Base s line = Flow.goOn s :=
      fun s => sysBlock_off env _ _ s line (fun e => absurd (t7.mp e) (by decide))
    rw [andThen_goOn_state _ _ o7, andThen_goOn_state _ _ o6, andThen_goOn_state _ _ o5, o1]
    simp only [Flow.andThen, o2, o3]
  · have o1 : titleBlock env st line = Flow.goOn st :=
      titleBlock_off env st line (fun e => absurd (t1.mp e) (by decide))
    have o2 : ∀ s, imageBlock env s line = Flow.goOn s :=
      fun s => imageBlock_off env s line (fun e => absurd (t2.mp e) (by decide))
    have o3 : ∀ s, transparencyBlock env s line = Flow.goOn s :=
      fun s => transparencyBlock_off env s line (fun e => absurd (t3.mp e) (by decide))
    have o4 : ∀ s, rcolorBlock env s line = Flow.goOn s :=
      fun s => rcolorBlock_off env s line (fun e => absurd (t4.mp e) (by decide))
    have o6 : ∀ s, sysBlock env kwSysfg PaletteRole.Text s line = Flow.goOn s :=
      fun s => sysBlock_off env _ _ s line (fun e => absurd (t6.mp e) (by decide))
    have o7 : ∀ s, sysBlock env kwSysbg PaletteRole.Base s line = Flow.goOn s :=
      fun s => sysBlock_off env _ _ s line (fun e => absurd (t7.mp e) (by decide))
    rw [andThen_goOn_state _ _ o7, andThen_goOn_state _ _ o6, o1]
    simp only [Flow.andThen, o2, o3, o4]
  · have o1 : titleBlock env st line = Flow.goOn st :=
      titleBlock_off env st line (fun e => absurd (t1.mp e) (by decide))
    have o2 : ∀ s, imageBlock env s line = Flow.goOn s :=
      fun s => imageBlock_off env s line (fun e => absurd (t2.mp e) (by decide))
    have o3 : ∀ s, transparencyBlock env s line = Flow.goOn s :=
      fun s => transparencyBlock_off env s line (fun e => absurd (t3.mp e) (by decide))
    have o4 : ∀ s, rcolorBlock env s line = Flow.goOn s :=
      fun s => rcolorBlock_off env s line (fun e => absurd (t4.mp e) (by decide))
    have o5 : ∀ s, colorBlock env s line = Flow.goOn s :=
      fun s => colorBlock_off env s line (fun e => absurd (t5.mp e) (by decide))
    have o7 : ∀ s, sysBlock env kwSysbg PaletteRole.Base s line = Flow.goOn s :=
      fun s => sysBlock_off env _ _ s line (fun e => absurd (t7.mp e) (by decide))
    rw [andThen_goOn_state _ _ o7, o1]
    simp only [Flow.andThen, o2, o3, o4, o5]
  · have o1 : titleBlock env st line = Flow.goOn st :=
      titleBlock_off env st line (fun e => absurd (t1.mp e) (by decide))
    have o2 : ∀ s, imageBlock env s line = Flow.goOn s :=
      fun s => imageBlock_off env s line (fun e => absurd (t2.mp e) (by decide))
    have o3 : ∀ s, transparencyBlock env s line = Flow.goOn s :=
      fun s => transparencyBlock_off env s line (fun e => absurd (t3.mp e) (by decide))
    have o4 : ∀ s, rcolorBlock env s line = Flow.goOn s :=
      fun s => rcolorBlock_off env s line (fun e => absurd (t4.mp e) (by decide))
    have o5 : ∀ s, colorBlock env s line = Flow.goOn s :=
      fun s => colorBlock_off env s line (fun e => absurd (t5.mp e) (by decide))
    have o6 : ∀ s, sysBlock env kwSysfg PaletteRole.Text s line = Flow.goOn s :=
      fun s => sysBlock_off env _ _ s line (fun e => absurd (t6.mp e) (by decide))
    rw [o1]
    simp only [Flow.andThen, o2, o3, o4, o5, o6]

/-- C18: a line of at most 5 characters, and a line that begins with none
of the seven keywords, leave the state of the loop as it was: title, image
path, alignment, transparency members, colour table (and `random_hue`) are
unchanged.  No keyword is a prefix of another, a line begins with at most
one keyword, and on a line of more than 5 characters that begins with a
keyword the loop body is the block of that keyword alone. -/
theorem other_lines_change_nothing (env : Env) (st : ParserState) (line : List Char) :
    (line.length ≤ 5 → processLine env st line = st) ∧
    ((∀ k ∈ keywords, ¬ beginsWith line k) → processLine env st line = st) ∧
    (∀ k1 ∈ keywords, ∀ k2 ∈ keywords, k1 <+: k2 → k1 = k2) ∧
    (∀ k1 ∈ keywords, ∀ k2 ∈ keywords, beginsWith line k1 → beginsWith line k2 → k1 = k2) ∧
    (5 < line.length →
      (beginsWith line kwTitle → processLine env st line = (titleBlock env st line).state) ∧
      (beginsWith line kwImage → processLine env st line = (imageBlock env st line).state) ∧
      (beginsWith line kwTransparency →
        processLine env st line = (transparencyBlock env st line).state) ∧
      (beginsWith line kwRcolor → processLine env st line = (rcolorBlock env st line).state) ∧
      (beginsWith line kwColor → processLine env st line = (colorBlock env st line).state) ∧
      (beginsWith line kwSysfg →
        processLine env st line = (sysBlock env kwSysfg PaletteRole.Text st line).state) ∧
      (beginsWith line kwSysbg →
        processLine env st line = (sysBlock env kwSysbg PaletteRole.Base st line).state)) := by
  refine ⟨?_, ?_, by decide, ?_, ?_⟩
  · intro hlen
    unfold processLine
    rw [if_neg (by omega)]
  · intro hnone
    by_cases hlen : 5 < line.length
    · have o1 : titleBlock env st line = Flow.goOn st :=
        titleBlock_off env st line (hnone kwTitle (by decide))
      have o2 : ∀ s, imageBlock env s line = Flow.goOn s :=
        fun s => imageBlock_off env s line (hnone kwImage (by decide))
      have o3 : ∀ s, transparencyBlock env s line = Flow.goOn s :=
        fun s => transparencyBlock_off env s line (hnone kwTransparency (by decide))
      have o4 : ∀ s, rcolorBlock env s line = Flow.goOn s :=
        fun s => rcolorBlock_off env s line (hnone kwRcolor (by decide))
      have o5 : ∀ s, colorBlock env s line = Flow.goOn s :=
        fun s => colorBlock_off env s line (hnone kwColor (by decide))
      have o6 : ∀ s, sysBlock env kwSysfg PaletteRole.Text s line = Flow.goOn s :=
        fun s => sysBlock_off env _ _ s line (hnone kwSysfg (by decide))
      have o7 : ∀ s, sysBlock env kwSysbg PaletteRole.Base s line = Flow.goOn s :=
        fun s => sysBlock_off env _ _ s line (hnone kwSysbg (by decide))
      rw [processLine_long env st line hlen, o1]
      simp only [Flow.andThen, o2, o3, o4, o5, o6, o7, Flow.state]
    · unfold processLine
      rw [if_neg hlen]
  · intro k1 h1 k2 h2 b1 b2
    obtain ⟨t1, t2, t3, t4, t5, t6, t7⟩ := tests_of_take5 line k1 h1 b1
    simp only [keywords, List.mem_cons, List.mem_singleton, List.not_mem_nil, or_false] at h2
    rcases h2 with rfl | rfl | rfl | rfl | rfl | rfl | rfl
    · exact t1.mp b2
    · exact t2.mp b2
    · exact t3.mp b2
    · exact t4.mp b2
    · exact t5.mp b2
    · exact t6.mp b2
    · exact t7.mp b2
  · intro hlen
    exact ⟨fun b => (processLine_single env st line _ (by decide) b hlen).1 rfl,
      fun b => (processLine_single env st line _ (by decide) b hlen).2.1 rfl,
      fun b => (processLine_single env st line _ (by decide) b hlen).2.2.1 rfl,
      fun b => (processLine_single env st line _ (by decide) b hlen).2.2.2.1 rfl,
      fun b => (processLine_single env st line _ (by decide) b hlen).2.2.2.2.1 rfl,
      fun b => (processLine_single env st line _ (by decide) b hlen).2.2.2.2.2.1 rfl,
      fun b => (processLine_single env st line _ (by decide) b hlen).2.2.2.2.2.2 rfl⟩

theorem other_lines_change_nothing_witness :
    (∀ k ∈ keywords, ¬ beginsWith "# a comment".data k) ∧
    processLine demoEnv demoStart "# a comment".data = demoStart ∧
    processLine demoEnv demoStart "title".data = demoStart :=
  ⟨by decide,
    (other_lines_change_nothing demoEnv demoStart "# a comment".data).2.1 (by decide),
    (other_lines_change_nothing demoEnv demoStart "title".data).1 (by decide)⟩

/-! ## Colour schemas: the list under `deleteOldSchemas` -/

theorem numInv_new (env : Env) (rh : Int) : NumInv (ColorSchemaList.new env rh) := by
  constructor
  · simp [ColorSchemaList.new]
  · intro s hs
    simp only [ColorSchemaList.new, List.mem_singleton] at hs
    subst hs
    show (0 : Int) < 1
    omega

theorem numInv_appendNew (st : SchemaState) (env : Env) (path : String)
    (h : NumInv st) : NumInv (st.appendNew env path) := by
  obtain ⟨hn, hs⟩ := fromPath_numb env st.serial path
  constructor
  · simp only [SchemaState.appendNew, List.map_append, List.map_cons, List.map_nil]
    rw [List.pairwise_append]
    refine ⟨h.sorted, List.pairwise_singleton _ _, ?_⟩
    intro a ha b hb
    simp only [List.mem_singleton] at hb
    obtain ⟨s, hs1, hs2⟩ := List.mem_map.mp ha
    rw [hb, hn, ← hs2]
    exact h.below s hs1
  · intro s hs
    simp only [SchemaState.appendNew, List.mem_append, List.mem_singleton] at hs
    show s.m_numb < (ColorSchema.fromPath env st.serial path).2
    rw [(fromPath_numb env st.serial path).2]
    rcases hs with hm | he
    · have := h.below s hm
      omega
    · rw [he, hn]
      omega

theorem numInv_findPath (st : SchemaState) (env : Env) (path : String)
    (h : NumInv st) : NumInv (st.findPath env path).1 := by
  unfold SchemaState.findPath
  split
  · exact h
  · split
    · exact numInv_appendNew st env path h
    · split
      · exact h
      · split
        · exact numInv_appendNew st env path h
        · exact h

theorem numInv_set (st : SchemaState) (i : Nat) (sc sc2 : ColorSchema)
    (rh : Int) (h : NumInv st) (hget : st.items.get? i = some sc)
    (hn : sc2.m_numb = sc.m_numb) :
    NumInv { st with items := st.items.set i sc2, random_hue := rh } := by
  constructor
  · show ((st.items.set i sc2).map fun s => s.m_numb).Pairwise fun a b => a < b
    rw [map_numb_set st.items i sc sc2 hget hn]
    exact h.sorted
  · intro s hs
    show s.m_numb < st.serial
    rcases List.mem_or_eq_of_mem_set hs with hm | he
    · exact h.below s hm
    · rw [he, hn]
      exact h.below sc (List.get?_mem hget)

theorem numInv_updateStep (env : Env) (now : Nat) (acc : SchemaState × Bool)
    (file : String) (h : NumInv acc.1) :
    NumInv (SchemaState.updateStep env now acc file).1 := by
  simp only [SchemaState.updateStep]
  generalize (if file.data.contains '/' = true then String.mk (List.drop 8 file.data)
    else file) = filename
  have hf := numInv_findPath acc.1 env filename h
  cases hr : acc.1.findPath env filename with
  | mk st1 oi =>
    rw [hr] at hf
    simp only at hf
    cases oi with
    | none => exact numInv_appendNew st1 env filename hf
    | some i =>
      simp only
      cases hg : st1.items.get? i with
      | none => exact hf
      | some sc =>
        simp only
        split
        · exact numInv_set st1 i sc _ _ hf hg
            (rereadSchemaFile_keeps _ (numb_closed sc.m_numb) env _ rfl)
        · refine numInv_set st1 i sc (sc.updateLastRead now) st1.random_hue hf hg ?_
          unfold ColorSchema.updateLastRead
          split <;> rfl

theorem numInv_foldl (env : Env) (now : Nat) (files : List String) :
    ∀ acc : SchemaState × Bool, NumInv acc.1 →
      NumInv (files.foldl (SchemaState.updateStep env now) acc).1 := by
  induction files with
  | nil =>
    intro acc h
    exact h
  | cons f rest ih =>
    intro acc h
    exact ih _ (numInv_updateStep env now acc f h)

theorem deleteLoop_sublist (now : Nat) (fuel : Nat) :
    ∀ (items : List ColorSchema) (pos : Nat) (r : Bool),
      (deleteLoop now fuel items pos r).1.Sublist items := by
  induction fuel with
  | zero =>
    intro items pos r
    exact List.Sublist.refl items
  | succ n ih =>
    intro items pos r
    unfold deleteLoop
    split
    · exact List.Sublist.refl items
    · split
      · split
        · exact (ih _ _ _).trans (List.eraseIdx_sublist _ _)
        · exact ih _ _ _
      · exact ih _ _ _

theorem numInv_deleteOldSchemas (st : SchemaState) (now : Nat) (h : NumInv st) :
    NumInv (st.deleteOldSchemas now).1 := by
  have hsub := deleteLoop_sublist now st.items.length st.items 0 false
  constructor
  · exact List.Pairwise.sublist (List.Sublist.map _ hsub) h.sorted
  · intro s hs
    exact h.below s (hsub.subset hs)

theorem numInv_of_reach (d : ColorSchema) (st : SchemaState) (h : Reach d st) : NumInv st := by
  induction h with
  | new env rh => exact numInv_new env rh
  | findPath d st env path _ ih => exact numInv_findPath _ env path ih
  | updateAllSchemaTimes d st env now _ ih => exact numInv_foldl env now _ _ ih
  | deleteOldSchemas d st now _ ih => exact numInv_deleteOldSchemas _ now ih
  | elsewhere d st c _ ih =>
    obtain ⟨h5, h6⟩ := ih
    refine ⟨h5, ?_⟩
    intro s hs
    have := h6 s hs
    show s.m_numb < (c.run st.serial).2
    rw [(ctor_run_numb st.serial c).2]
    omega

theorem listInv_of_reachKeep (d : ColorSchema) (st : SchemaState) (h : ReachKeep d st) :
    ListInv d st := by
  induction h with
  | new env rh => exact listInv_new env rh
  | findPath d st env path _ ih => exact listInv_findPath _ _ env path ih
  | updateAllSchemaTimes d st env now _ ih => exact listInv_foldl _ env now _ _ ih
  | elsewhere d st c _ ih =>
    obtain ⟨h1, h2, h3, h4, h5, h6⟩ := ih
    refine ⟨h1, h2, h3, h4, h5, ?_⟩
    intro s hs
    have := h6 s hs
    show s.m_numb < (c.run st.serial).2
    rw [(ctor_run_numb st.serial c).2]
    omega

theorem constructAll_numbers (ctors : List SchemaCtor) :
    ∀ serial : Int,
      (constructAll serial ctors).1.map (fun s => s.m_numb) =
        (List.range ctors.length).map (fun k : Nat => serial + (k : Int)) ∧
      (constructAll serial ctors).2 = serial + (ctors.length : Int) := by
  induction ctors with
  | nil =>
    intro serial
    simp [constructAll]
  | cons c cs ih =>
    intro serial
    obtain ⟨h1, h2⟩ := ctor_run_numb serial c
    obtain ⟨i1, i2⟩ := ih (serial + 1)
    simp only [constructAll, h2, List.map_cons, h1, i1, i2, List.length_cons]
    refine ⟨?_, by push_cast; omega⟩
    rw [List.range_succ_eq_map]
    simp only [List.map_cons, Nat.cast_zero, add_zero, List.map_map, List.cons.injEq, true_and]
    apply List.map_congr_left
    intro k _
    show serial + 1 + (k : Int) = serial + ((k + 1 : Nat) : Int)
    push_cast
    omega

/-- As long as `deleteOldSchemas` is not called, the default schema stays the
first item of the list, with number 0, every other schema has a number of at
least 1, and `find(0)` and `find("")` return the default schema. -/
theorem default_first_without_delete (d : ColorSchema) (st : SchemaState)
    (hr : ReachKeep d st) :
    (∃ rest, st.items = d :: rest ∧ ∀ s ∈ rest, 1 ≤ s.m_numb) ∧
    d.m_numb = 0 ∧
    st.items.get? 0 = some d ∧
    st.findNumb 0 = some 0 ∧
    (∀ env : Env, st.findPath env "" = (st, some 0)) := by
  have h := listInv_of_reachKeep d st hr
  have hitems : ∃ rest, st.items = d :: rest := by
    cases hi : st.items with
    | nil =>
      have := h.head
      rw [hi] at this
      simp at this
    | cons a l =>
      have hh := h.head
      rw [hi] at hh
      simp only [List.head?_cons, Option.some.injEq] at hh
      exact ⟨l, by rw [hh]⟩
  obtain ⟨rest, hrest⟩ := hitems
  have hfind : st.findNumb 0 = some 0 := by
    simp [SchemaState.findNumb, hrest, List.findIdx?_cons, h.numb]
  refine ⟨⟨rest, hrest, ?_⟩, h.numb, by simp [hrest], hfind, ?_⟩
  · intro s hs
    have hsorted := h.sorted
    rw [hrest, List.map_cons, List.pairwise_cons] at hsorted
    have := hsorted.1 s.m_numb (List.mem_map.mpr ⟨s, hs, rfl⟩)
    rw [h.numb] at this
    omega
  · intro env
    have he : ("" : String).isEmpty = true := rfl
    simp only [SchemaState.findPath, he, if_true, hfind]

/-- C13, at the failing input: `find("/x")` for a file that does not exist
appends a schema with the title of the default schema; `deleteOldSchemas`
at a later time finds that schema stale, and `remove` unlinks the first item
with its title, the default schema.  The state is reachable, the list no
longer holds the default schema, its one item has number 1, and `find(0)`
and `find("")` return the null pointer. -/
theorem default_schema_removed :
    Reach (ColorSchema.default demoEnv) (staleList.deleteOldSchemas 201).1 ∧
    staleList.items.map (fun s => (s.m_numb, s.title, s.lastRead)) =
      [(0, "Konsole Default", none), (1, "Konsole Default", some 200)] ∧
    (staleList.deleteOldSchemas 201).1.items.map (fun s => (s.m_numb, s.title, s.lastRead)) =
      [(1, "Konsole Default", some 200)] ∧
    ColorSchema.default demoEnv ∉ (staleList.deleteOldSchemas 201).1.items ∧
    (staleList.deleteOldSchemas 201).1.findNumb 0 = none ∧
    ((staleList.deleteOldSchemas 201).1.findPath demoEnv "").2 = none :=
  ⟨Reach.deleteOldSchemas _ _ 201 (Reach.findPath _ _ demoEnv "/x" (Reach.new demoEnv (-1))),
    by decide, by decide, by decide, by decide, by decide⟩

/-- C20: schema numbering.  After a reset of the counter (to 1), the k-th
schema constructed from a path or from a `KConfig`, in any surroundings and
so whether its file exists or not, gets the number k, and the counter stands
at the number of constructions plus 1.  The constructor and the destructor
of a `ColorSchemaList` both leave the counter at 1.  In every state of a
list reached from its constructor while no list is constructed or destroyed
(other schemas may be constructed elsewhere), the numbers of the schemas in
the list increase strictly along the list, so they are pairwise distinct. -/
theorem schema_numbering (ctors : List SchemaCtor) :
    ((constructAll 1 ctors).1.map (fun s => s.m_numb) =
      (List.range ctors.length).map fun k : Nat => (k : Int) + 1) ∧
    (constructAll 1 ctors).2 = (ctors.length : Int) + 1 ∧
    (∀ (env : Env) (rh : Int), (ColorSchemaList.new env rh).serial = 1) ∧
    (∀ st : SchemaState, st.destroy.1 = 1) ∧
    (∀ (d : ColorSchema) (st : SchemaState), Reach d st →
      ((st.items.map fun s => s.m_numb).Pairwise fun a b => a < b) ∧
      (st.items.map fun s => s.m_numb).Nodup) := by
  obtain ⟨h1, h2⟩ := constructAll_numbers ctors 1
  refine ⟨?_, by omega, fun _ _ => rfl, fun _ => rfl, ?_⟩
  · rw [h1]
    apply List.map_congr_left
    intro k _
    omega
  · intro d st hr
    have h := (numInv_of_reach d st hr).sorted
    exact ⟨h, List.Pairwise.imp (fun hab => ne_of_lt hab) h⟩

theorem schema_numbering_witness :
    Reach (ColorSchema.default demoEnv) demoList ∧
    ((demoList.items.map fun s => s.m_numb).Pairwise fun a b => a < b) ∧
    ((constructAll 1 [SchemaCtor.path demoEnv "demo.schema", SchemaCtor.path demoEnv "nofile",
        SchemaCtor.path demoEnv "/x"]).1.map fun s => s.m_numb) = [1, 2, 3] :=
  ⟨Reach.findPath _ _ demoEnv "/x" (Reach.findPath _ _ demoEnv "/x" (Reach.new demoEnv (-1))),
    ((schema_numbering []).2.2.2.2 (ColorSchema.default demoEnv) demoList
      (Reach.findPath _ _ demoEnv "/x"
        (Reach.findPath _ _ demoEnv "/x" (Reach.new demoEnv (-1))))).1,
    (schema_numbering [SchemaCtor.path demoEnv "demo.schema", SchemaCtor.path demoEnv "nofile",
        SchemaCtor.path demoEnv "/x"]).1⟩

/-! ## `setWriteable` as two functions on modes -/

theorem setWriteable_on_testBit (m i : Nat) :
    (Pty.setWriteable m true).testBit i = (m.testBit i || i == 4) := by
  show (m ||| S_IWGRP).testBit i = _
  rw [Nat.testBit_or]
  congr 1
  show (2 ^ 4).testBit i = _
  rw [Nat.testBit_two_pow]
  by_cases h : i = 4
  · subst h; rfl
  · have h2 : ¬ 4 = i := fun e => h e.symm
    simp [h, h2]

theorem setWriteable_off_testBit (m i : Nat) (hm : m < 2 ^ 32) :
    (Pty.setWriteable m false).testBit i = (m.testBit i && (i != 4 && i != 1)) := by
  show (m &&& (modeMask ^^^ (S_IWGRP ||| S_IWOTH))).testBit i = _
  rw [Nat.testBit_and]
  by_cases hi : i < 32
  · rw [testBit_modeMask_clear i hi]
  · have hz : m.testBit i = false :=
      Nat.testBit_lt_two_pow (lt_of_lt_of_le hm (Nat.pow_le_pow_right (by decide) (by omega)))
    rw [hz]; rfl

theorem setWriteable_lt (m : Nat) (b : Bool) (hm : m < 2 ^ 32) :
    Pty.setWriteable m b < 2 ^ 32 := by
  cases b
  · exact lt_of_le_of_lt Nat.and_le_left hm
  · exact Nat.or_lt_two_pow hm (by decide)

/-- C21: with `on m = setWriteable(true)` and `off m = setWriteable(false)`
on a mode `m` (a `mode_t`, below 2^32): `on (on m) = on m`,
`off (off m) = off m`, `off (on m) = off m`; and when the other-write bit of
`m` is set, `on (off m)` is neither `on m` nor `m`. -/
theorem setWriteable_algebra (m : Nat) (hm : m < 2 ^ 32) :
    Pty.setWriteable (Pty.setWriteable m true) true = Pty.setWriteable m true ∧
    Pty.setWriteable (Pty.setWriteable m false) false = Pty.setWriteable m false ∧
    Pty.setWriteable (Pty.setWriteable m true) false = Pty.setWriteable m false ∧
    (m.testBit 1 = true →
      Pty.setWriteable (Pty.setWriteable m false) true ≠ Pty.setWriteable m true ∧
      Pty.setWriteable (Pty.setWriteable m false) true ≠ m) := by
  refine ⟨?_, ?_, ?_, ?_⟩
  · apply Nat.eq_of_testBit_eq
    intro i
    rw [setWriteable_on_testBit, setWriteable_on_testBit]
    cases m.testBit i <;> cases (i == 4) <;> rfl
  · apply Nat.eq_of_testBit_eq
    intro i
    rw [setWriteable_off_testBit _ _ (setWriteable_lt m false hm), setWriteable_off_testBit _ _ hm]
    cases m.testBit i <;> cases (i != 4 && i != 1) <;> rfl
  · apply Nat.eq_of_testBit_eq
    intro i
    rw [setWriteable_off_testBit _ _ (setWriteable_lt m true hm), setWriteable_off_testBit _ _ hm,
      setWriteable_on_testBit]
    by_cases h : i = 4
    · subst h; cases m.testBit 4 <;> rfl
    · have h4 : (i == 4) = false := by simp [h]
      rw [h4, Bool.or_false]
  · intro h1
    have hb : (Pty.setWriteable (Pty.setWriteable m false) true).testBit 1 = false := by
      rw [setWriteable_on_testBit, setWriteable_off_testBit _ _ hm]
      simp
    constructor
    · intro e
      rw [e, setWriteable_on_testBit, h1] at hb
      simp at hb
    · intro e
      rw [e, h1] at hb
      simp at hb

/-- C21, at the mode 0o622: `off` gives 0o600, `on` after it 0o620. -/
theorem setWriteable_algebra_witness :
    Nat.testBit 402 1 = true ∧ Pty.setWriteable 402 false = 384 ∧
    Pty.setWriteable (Pty.setWriteable 402 false) true = 400 ∧
    Pty.setWriteable (Pty.setWriteable 402 true) true = Pty.setWriteable 402 true ∧
    Pty.setWriteable (Pty.setWriteable 402 false) false = Pty.setWriteable 402 false ∧
    Pty.setWriteable (Pty.setWriteable 402 true) false = Pty.setWriteable 402 false ∧
    Pty.setWriteable (Pty.setWriteable 402 false) true ≠ Pty.setWriteable 402 true ∧
    Pty.setWriteable (Pty.setWriteable 402 false) true ≠ 402 :=
  ⟨by decide, by decide, by decide, (setWriteable_algebra 402 (by decide)).1,
    (setWriteable_algebra 402 (by decide)).2.1, (setWriteable_algebra 402 (by decide)).2.2.1,
    ((setWriteable_algebra 402 (by decide)).2.2.2 (by decide)).1,
    ((setWriteable_algebra 402 (by decide)).2.2.2 (by decide)).2⟩

/-! ## The write queue with `wroteStdin` tied to `_bufferFull` -/

theorem doSendJobs_full (p : Pty) (ok : Bool)
    (h : p._bufferFull = true → p._pendingSendJobs ≠ []) :
    (p.doSendJobs ok).1._bufferFull = true → (p.doSendJobs ok).1._pendingSendJobs ≠ [] := by
  unfold Pty.doSendJobs
  cases hq : p._pendingSendJobs with
  | nil => simpa [hq] using h
  | cons j rest =>
    cases ok
    · simp [hq]
    · simp [hq]

theorem stepFull_full (p q : Pty) (e : Event)
    (hs : p.stepFull e = some q) :
    q._bufferFull = true → q._pendingSendJobs ≠ [] := by
  cases e with
  | sendData job ok =>
    simp only [Pty.stepFull, Option.some.injEq] at hs
    subst hs
    unfold Pty.sendData
    simp only []
    by_cases hb : p._bufferFull = true
    · have hb2 : (p.appendSendJob job)._bufferFull = true := hb
      simp only [hb2, Bool.not_true, Bool.false_eq_true, if_false]
      intro _
      simp [Pty.appendSendJob]
    · have hb2 : (p.appendSendJob job)._bufferFull = false := by
        simpa [Pty.appendSendJob] using hb
      simp only [hb2, Bool.not_false, if_true]
      apply doSendJobs_full
      intro hf
      rw [hb2] at hf
      cases hf
  | writeReady ok =>
    unfold Pty.stepFull at hs
    by_cases hb : p._bufferFull = true
    · simp only [hb, if_true] at hs
      unfold Pty.writeReady at hs
      cases hq : p._pendingSendJobs with
      | nil => simp [hq] at hs
      | cons j rest =>
        simp only [hq, Option.some.injEq] at hs
        subst hs
        apply doSendJobs_full
        intro hf
        cases hf
    · simp [hb] at hs

theorem runFull_full (evs : List Event) : ∀ (p q : Pty),
    (p._bufferFull = true → p._pendingSendJobs ≠ []) →
    p.runFull evs = some q →
    (q._bufferFull = true → q._pendingSendJobs ≠ []) := by
  induction evs with
  | nil =>
    intro p q h hr
    simp only [Pty.runFull, Option.some.injEq] at hr
    subst hr
    exact h
  | cons e es ih =>
    intro p q h hr
    unfold Pty.runFull at hr
    cases hs : p.stepFull e with
    | none => simp [hs] at hr
    | some p1 =>
      simp only [hs] at hr
      exact ih p1 q (stepFull_full p p1 e hs) hr

/-- C22: in every state `p` reached from the constructed object by calls of
`sendData` and by `wroteStdin` signals that arrive only while `_bufferFull`
is true, `_bufferFull = true` implies that the queue is not empty; so when
the next `wroteStdin` is due (`_bufferFull = true`) the slot `writeReady`
erases the head of a non-empty list and has a result, and the run goes on
to a next state. -/
theorem bufferFull_queue_nonempty (evs : List Event) (p : Pty)
    (h : Pty.new.runFull evs = some p) :
    (p._bufferFull = true → p._pendingSendJobs ≠ []) ∧
    (∀ ok, p._bufferFull = true →
      ∃ r, p.writeReady ok = some r ∧ p.stepFull (Event.writeReady ok) = some r.1) ∧
    (∀ job ok, ∃ q, p.stepFull (Event.sendData job ok) = some q) := by
  have hinv := runFull_full evs Pty.new p (by intro hf; cases hf) h
  refine ⟨hinv, ?_, ?_⟩
  · intro ok hb
    have hne := hinv hb
    cases hq : p._pendingSendJobs with
    | nil => exact absurd hq hne
    | cons j rest =>
      refine ⟨Pty.doSendJobs { p with _pendingSendJobs := rest, _bufferFull := false } ok, ?_, ?_⟩
      · unfold Pty.writeReady
        rw [hq]
      · unfold Pty.stepFull Pty.writeReady
        simp [hb, hq]
  · intro job ok
    exact ⟨_, rfl⟩

/-- C22, on a run: two jobs are sent, the first write is confirmed and the
second is submitted. -/
theorem bufferFull_queue_nonempty_witness :
    Pty.new.runFull [Event.sendData ⟨[104]⟩ true, Event.sendData ⟨[105]⟩ true,
        Event.writeReady true] =
      some { Pty.new with _pendingSendJobs := [⟨[105]⟩], _bufferFull := true } ∧
    (({ Pty.new with _pendingSendJobs := [⟨[105]⟩], _bufferFull := true } : Pty)._bufferFull
        = true →
      ({ Pty.new with _pendingSendJobs := [⟨[105]⟩], _bufferFull := true } : Pty)._pendingSendJobs
        ≠ []) :=
  ⟨by decide, (bufferFull_queue_nonempty
    [Event.sendData ⟨[104]⟩ true, Event.sendData ⟨[105]⟩ true, Event.writeReady true]
    { Pty.new with _pendingSendJobs := [⟨[105]⟩], _bufferFull := true } (by decide)).1⟩

/-! ## Comparison of titles -/

theorem compareChars_eq_zero (a : List Char) : ∀ b : List Char, compareChars a b = 0 ↔ a = b := by
  induction a with
  | nil =>
    intro b
    cases b with
    | nil => simp [compareChars]
    | cons y ys => simp [compareChars]
  | cons x xs ih =>
    intro b
    cases b with
    | nil => simp [compareChars]
    | cons y ys =>
      unfold compareChars
      by_cases h1 : x.toNat < y.toNat
      · have hne : x ≠ y := by
          intro e; subst e; exact absurd h1 (lt_irrefl _)
        simp [h1, hne]
      · by_cases h2 : y.toNat < x.toNat
        · have hne : x ≠ y := by
            intro e; subst e; exact absurd h2 (lt_irrefl _)
          simp [h1, h2, hne]
        · have he : x = y := by
            have hn : x.toNat = y.toNat := by omega
            rw [← Char.ofNat_toNat x, ← Char.ofNat_toNat y, hn]
          simp [h1, h2, he, ih ys]

theorem compareItems_eq_zero (a b : ColorSchema) :
    (compareItems a b == 0) = true ↔ a.title = b.title := by
  unfold compareItems QString.compare
  rw [beq_iff_eq]
  constructor
  · intro h
    have h0 : compareChars a.title.data b.title.data = 0 := by omega
    exact String.ext ((compareChars_eq_zero _ _).1 h0)
  · intro h
    have h0 : compareChars a.title.data b.title.data = 0 :=
      (compareChars_eq_zero _ _).2 (by rw [h])
    omega

/-! ## `deleteOldSchemas`: the loop ends within the fuel -/

theorem findItem_lt (items : List ColorSchema) (p : ColorSchema) (i : Nat)
    (h : findItem items p = some i) : i < items.length := by
  unfold findItem at h
  rw [List.findIdx?_eq_some_iff_getElem] at h
  exact h.1

theorem deleteLoop_fuel_enough (now : Nat) : ∀ (fuel k : Nat) (items : List ColorSchema)
    (pos : Nat) (r : Bool), items.length ≤ pos + fuel →
    deleteLoop now (fuel + k) items pos r = deleteLoop now fuel items pos r := by
  intro fuel
  induction fuel with
  | zero =>
    intro k items pos r hlen
    cases k with
    | zero => rfl
    | succ k =>
      have hnone : items.get? pos = none := List.get?_eq_none.2 (by omega)
      rw [Nat.zero_add]
      simp only [deleteLoop, hnone]
  | succ fuel ih =>
    intro k items pos r hlen
    have e : fuel + 1 + k = (fuel + k) + 1 := by omega
    rw [e]
    unfold deleteLoop
    cases hp : items.get? pos with
    | none => rfl
    | some p =>
      simp only []
      by_cases hold : p.isOld now = true
      · simp only [hold, if_true]
        cases hf : findItem items p with
        | none =>
          simp only []
          exact ih k items (pos + 1) true (by omega)
        | some i =>
          simp only []
          have hi := findItem_lt items p i hf
          apply ih
          rw [List.length_eraseIdx]
          simp only [hi, if_true]
          split <;> omega
      · simp only [hold, if_false]
        exact ih k items (pos + 1) r (by omega)

/-! ## `deleteOldSchemas` on a list with pairwise distinct titles -/

theorem findItem_distinct (items : List ColorSchema) (pos : Nat) (p : ColorSchema)
    (hd : items.Pairwise fun a b => a.title ≠ b.title)
    (hp : items.get? pos = some p) : findItem items p = some pos := by
  obtain ⟨hlt, hget⟩ := List.get?_eq_some.1 hp
  unfold findItem
  rw [List.findIdx?_eq_some_iff_getElem]
  refine ⟨hlt, ?_, ?_⟩
  · rw [compareItems_eq_zero]
    have : items[pos] = p := hget
    rw [this]
  · intro j hj
    rw [compareItems_eq_zero]
    have hjl : j < items.length := lt_trans hj hlt
    have hrel := List.pairwise_iff_getElem.1 hd j pos hjl hlt hj
    have : items[pos] = p := hget
    rw [← this]
    exact hrel

theorem deleteLoop_distinct (now : Nat) : ∀ (fuel : Nat) (items : List ColorSchema) (pos : Nat)
    (r : Bool), (items.Pairwise fun a b => a.title ≠ b.title) → items.length ≤ pos + fuel →
    deleteLoop now fuel items pos r =
      (items.take pos ++ (items.drop pos).filter (fun s => !s.isOld now),
        r || (items.drop pos).any fun s => s.isOld now) := by
  intro fuel
  induction fuel with
  | zero =>
    intro items pos r _ hlen
    have h1 : items.drop pos = [] := List.drop_eq_nil_of_le (by omega)
    have h2 : items.take pos = items := List.take_of_length_le (by omega)
    simp [deleteLoop, h1, h2]
  | succ fuel ih =>
    intro items pos r hd hlen
    unfold deleteLoop
    cases hp : items.get? pos with
    | none =>
      have hge : items.length ≤ pos := by
        by_contra hc
        have : pos < items.length := by omega
        rw [List.get?_eq_get this] at hp
        cases hp
      have h1 : items.drop pos = [] := List.drop_eq_nil_of_le hge
      have h2 : items.take pos = items := List.take_of_length_le hge
      simp [h1, h2]
    | some p =>
      obtain ⟨hlt, hget⟩ := List.get?_eq_some.1 hp
      have hget2 : items[pos] = p := hget
      have hdrop : items.drop pos = p :: items.drop (pos + 1) := by
        rw [List.drop_eq_getElem_cons hlt, hget2]
      by_cases hold : p.isOld now = true
      · simp only [hold, if_true]
        rw [findItem_distinct items pos p hd hp]
        simp only [le_refl, if_true]
        have hsub : (items.eraseIdx pos).Pairwise fun a b => a.title ≠ b.title :=
          List.Pairwise.sublist (List.eraseIdx_sublist items pos) hd
        have hl2 : (items.eraseIdx pos).length ≤ pos + fuel := by
          rw [List.length_eraseIdx]
          simp only [hlt, if_true]
          omega
        rw [ih (items.eraseIdx pos) pos true hsub hl2, hdrop]
        have e1 : (items.eraseIdx pos).take pos = items.take pos := by
          rw [List.eraseIdx_eq_take_drop_succ, List.take_append_of_le_length (by
            rw [List.length_take]; omega)]
          rw [List.take_take]; simp
        have e2 : (items.eraseIdx pos).drop pos = items.drop (pos + 1) := by
          rw [List.eraseIdx_eq_take_drop_succ]
          have hl : (items.take pos).length = pos := by
            rw [List.length_take]; omega
          rw [List.drop_append_eq_append_drop, hl]
          simp [List.drop_eq_nil_of_le (le_of_eq hl)]
        rw [e1, e2]
        simp [hold]
      · have hold2 : p.isOld now = false := by simpa using hold
        simp only [hold2, Bool.false_eq_true, if_false]
        rw [ih items (pos + 1) r hd (by omega), hdrop]
        have e1 : items.take (pos + 1) = items.take pos ++ [p] := by
          rw [List.take_succ, List.getElem?_eq_getElem hlt, hget2]; rfl
        rw [e1]
        simp [hold2]

theorem deleteOldSchemas_distinct (st : SchemaState) (now : Nat)
    (hd : st.items.Pairwise fun a b => a.title ≠ b.title) :
    (st.deleteOldSchemas now).1.items = st.items.filter (fun s => !s.isOld now) ∧
    (st.deleteOldSchemas now).2 = st.items.any fun s => s.isOld now := by
  unfold SchemaState.deleteOldSchemas
  rw [deleteLoop_distinct now st.items.length st.items 0 false hd (by omega)]
  simp

/-- C23: `remove(p)` looks `p` up with `compareItems`, which compares
titles.  The list after `find("/x")` for a file that does not exist holds the
default schema and a schema that the constructor has set to the default
contents, both with the title "Konsole Default"; the second has a time of
reading, 200.  At the time 201 `deleteOldSchemas` finds the second one old,
removes the first schema with its title, which is the default schema, and
returns true: the schema removed has no time of reading, and the schema with
the time 200 before 201 stays in the list. -/
theorem deleteOldSchemas_removes_by_title :
    staleList.items.map (fun s => (s.m_numb, s.title, s.lastRead, s.isOld 201)) =
      [(0, "Konsole Default", none, false), (1, "Konsole Default", some 200, true)] ∧
    (staleList.deleteOldSchemas 201).1.items.map (fun s => (s.m_numb, s.lastRead, s.isOld 201)) =
      [(1, some 200, true)] ∧
    (staleList.deleteOldSchemas 201).2 = true ∧
    (staleList.items.filter fun s => !s.isOld 201).map (fun s => (s.m_numb, s.lastRead)) =
      [(0, none)] ∧
    (staleList.deleteOldSchemas 201).1.items ≠ staleList.items.filter (fun s => !s.isOld 201) := by
  refine ⟨by decide, by decide, by decide, by decide, ?_⟩
  intro h
  have h2 := congrArg (fun l => l.map fun s => s.m_numb) h
  revert h2
  decide

/-! ## `checkSchemas` -/

theorem startsWithSlash_nonempty (path : String) (h : startsWithSlash path = true) :
    path.isEmpty = false := by
  unfold startsWithSlash at h
  cases hd : path.data with
  | nil => rw [hd] at h; cases h
  | cons c cs =>
    have hne : path ≠ "" := by
      intro e; rw [e] at hd; cases hd
    cases hE : path.isEmpty with
    | false => rfl
    | true => exact absurd ((String.isEmpty_iff path).1 hE) hne

/-- C25: for a path that is not empty and does not start with a slash.  If
the schema at position `i` has `relPath() == path` and no schema before it
has, `find(path)` returns that schema and the list is as before.  If no
schema of the list has this path and the list has exactly one element,
`find(path)` appends the schema `new ColorSchema(path)` to the end and
returns it.  If no schema has this path and the length of the list is not
one, `find(path)` returns the null pointer and the list is as before. -/
theorem find_relative_path (st : SchemaState) (env : Env) (path : String)
    (hne : path.isEmpty = false) (hs : startsWithSlash path = false) :
    (∀ (i : Nat) (hi : i < st.items.length), (st.items.get ⟨i, hi⟩).fRelPath = path →
      (∀ (j : Nat) (hj : j < i), (st.items.get ⟨j, lt_trans hj hi⟩).fRelPath ≠ path) →
      st.findPath env path = (st, some i)) ∧
    ((∀ s ∈ st.items, s.fRelPath ≠ path) → st.items.length = 1 →
      st.findPath env path = (st.appendNew env path, some st.items.length) ∧
      (st.appendNew env path).items = st.items ++ [(ColorSchema.fromPath env st.serial path).1] ∧
      (st.appendNew env path).items.get? st.items.length =
        some (ColorSchema.fromPath env st.serial path).1) ∧
    ((∀ s ∈ st.items, s.fRelPath ≠ path) → st.items.length ≠ 1 →
      st.findPath env path = (st, none)) := by
  have hunf : st.findPath env path =
      match st.items.findIdx? fun s => s.fRelPath == path with
      | some i => (st, some i)
      | none =>
        if st.items.length == 1 then (st.appendNew env path, some st.items.length)
        else (st, none) := by
    unfold SchemaState.findPath
    simp only [hne, hs, Bool.false_eq_true, if_false]
  have hnone : (∀ s ∈ st.items, s.fRelPath ≠ path) →
      (st.items.findIdx? fun s => s.fRelPath == path) = none := by
    intro h
    rw [List.findIdx?_eq_none_iff]
    intro x hx
    simpa using h x hx
  refine ⟨?_, ?_, ?_⟩
  · intro i hi heq hbefore
    have hsome : (st.items.findIdx? fun s => s.fRelPath == path) = some i := by
      rw [List.findIdx?_eq_some_iff_getElem]
      refine ⟨hi, ?_, ?_⟩
      · simpa using heq
      · intro j hj
        simpa using hbefore j hj
    rw [hunf, hsome]
  · intro h hlen
    refine ⟨?_, rfl, ?_⟩
    · rw [hunf, hnone h]
      simp [hlen]
    · show (st.items ++ [(ColorSchema.fromPath env st.serial path).1]).get? st.items.length = _
      simp
  · intro h hlen
    rw [hunf, hnone h]
    simp [hlen]

/-- C25, on lists of `demoEnv`: a fresh list gets `demo.schema` appended; a
second `find("demo.schema")` returns the schema at position 1; in a list of
two, `find("other.schema")` returns the null pointer. -/
theorem find_relative_path_witness :
    (ColorSchemaList.new demoEnv (-1)).findPath demoEnv "demo.schema" =
      ((ColorSchemaList.new demoEnv (-1)).appendNew demoEnv "demo.schema", some 1) ∧
    ((ColorSchemaList.new demoEnv (-1)).appendNew demoEnv "demo.schema").findPath demoEnv
        "demo.schema" =
      ((ColorSchemaList.new demoEnv (-1)).appendNew demoEnv "demo.schema", some 1) ∧
    ((ColorSchemaList.new demoEnv (-1)).appendNew demoEnv "demo.schema").findPath demoEnv
        "other.schema" =
      ((ColorSchemaList.new demoEnv (-1)).appendNew demoEnv "demo.schema", none) :=
  ⟨((find_relative_path (ColorSchemaList.new demoEnv (-1)) demoEnv "demo.schema"
      (by decide) (by decide)).2.1 (by decide) (by decide)).1,
    (find_relative_path ((ColorSchemaList.new demoEnv (-1)).appendNew demoEnv "demo.schema")
      demoEnv "demo.schema" (by decide) (by decide)).1 1 (by decide) (by decide) (by decide),
    (find_relative_path ((ColorSchemaList.new demoEnv (-1)).appendNew demoEnv "demo.schema")
      demoEnv "other.schema" (by decide) (by decide)).2.2 (by decide) (by decide)⟩

/-- C26: for a path that starts with a slash, `find(path)` appends the
schema `new ColorSchema(path)` to the end of the list and returns it,
whatever the list holds: the length grows by one, the entries before are
those of the list as it was, and a second call with the same path appends
once more. -/
theorem find_absolute_path (st : SchemaState) (env : Env) (path : String)
    (hs : startsWithSlash path = true) :
    st.findPath env path = (st.appendNew env path, some st.items.length) ∧
    (st.findPath env path).1.items =
      st.items ++ [(ColorSchema.fromPath env st.serial path).1] ∧
    (st.findPath env path).1.items.length = st.items.length + 1 ∧
    (st.findPath env path).1.items.get? st.items.length =
      some (ColorSchema.fromPath env st.serial path).1 ∧
    (∀ i, i < st.items.length → (st.findPath env path).1.items.get? i = st.items.get? i) ∧
    ((st.findPath env path).1.findPath env path).2 = some (st.items.length + 1) ∧
    ((st.findPath env path).1.findPath env path).1.items.length = st.items.length + 2 := by
  have hunf : ∀ s : SchemaState, s.findPath env path = (s.appendNew env path, some s.items.length) := by
    intro s
    unfold SchemaState.findPath
    simp only [startsWithSlash_nonempty path hs, hs, Bool.false_eq_true, if_false, if_true]
  have hitems : ∀ s : SchemaState, (s.appendNew env path).items =
      s.items ++ [(ColorSchema.fromPath env s.serial path).1] := fun _ => rfl
  refine ⟨hunf st, ?_, ?_, ?_, ?_, ?_, ?_⟩
  · rw [hunf st]
    exact hitems st
  · rw [hunf st]; simp [hitems]
  · rw [hunf st]; simp [hitems]
  · intro i hi
    rw [hunf st]
    simp only [hitems, List.get?_eq_getElem?]
    rw [List.getElem?_append_left hi]
  · rw [hunf st, hunf]; simp [hitems]
  · rw [hunf st, hunf]; simp [hitems]

/-- C26, on a fresh list of `demoEnv`: two calls `find("/x")` leave three
schemas, numbered 0, 1 and 2. -/
theorem find_absolute_path_witness :
    startsWithSlash "/x" = true ∧
    ((ColorSchemaList.new demoEnv (-1)).findPath demoEnv "/x").2 = some 1 ∧
    ((((ColorSchemaList.new demoEnv (-1)).findPath demoEnv "/x").1.findPath demoEnv "/x").1.items.map
      fun s => s.m_numb) = [0, 1, 2] ∧
    (((ColorSchemaList.new demoEnv (-1)).findPath demoEnv "/x").1.findPath demoEnv "/x").1.items.length
      = (ColorSchemaList.new demoEnv (-1)).items.length + 2 :=
  ⟨by decide, by decide, by decide,
    (find_absolute_path (ColorSchemaList.new demoEnv (-1)) demoEnv "/x" (by decide)).2.2.2.2.2.2⟩

/-! ## The comparison operator of src/src/old/schema.cpp -/

/-- C28: `operator<` of src/src/old/schema.cpp is true exactly when the two
titles differ, false exactly when they are equal, and has the same value
with its arguments exchanged. -/
theorem operatorLt_spec (a b : ColorSchema) :
    (operatorLt a b = true ↔ a.title ≠ b.title) ∧
    (operatorLt a b = false ↔ a.title = b.title) ∧
    operatorLt a b = operatorLt b a := by
  have key : ∀ x y : ColorSchema, operatorLt x y = true ↔ x.title ≠ y.title := by
    intro x y
    unfold operatorLt
    rw [bne_iff_ne]
    have h := compareItems_eq_zero x y
    unfold compareItems at h
    rw [beq_iff_eq] at h
    exact not_congr h
  refine ⟨key a b, ?_, ?_⟩
  · rw [← Bool.not_eq_true, key a b, not_not]
  · cases h1 : operatorLt a b <;> cases h2 : operatorLt b a <;> try rfl
    · have e : a.title = b.title := by
        by_contra hne
        rw [(key a b).2 hne] at h1
        cases h1
      exact absurd e.symm ((key b a).1 h2)
    · have e : b.title = a.title := by
        by_contra hne
        rw [(key b a).2 hne] at h2
        cases h2
      exact absurd e.symm ((key a b).1 h1)

/-! ## The parser of src/src/old/schema.cpp against the one of src/konsole/schema.cpp -/

theorem processLineOld_false (env : Env) (st : ParserState) (line : List Char) :
    processLineOld env false st line = (processLine env st line, false) := by
  unfold processLineOld processLine
  by_cases hlen : line.length > 5
  · simp only [hlen, if_true, Bool.false_eq_true, and_false, if_false]
  · simp only [hlen, if_false]

theorem readLoopOld_false (env : Env) : ∀ (fuel : Nat) (input : List Char) (st : ParserState),
    readLoopOld env false fuel input st = readLoop env fuel input st := by
  intro fuel
  induction fuel with
  | zero => intro input st; rfl
  | succ fuel ih =>
    intro input st
    unfold readLoopOld readLoop
    cases fscanfLine input with
    | none => rfl
    | some cr =>
      obtain ⟨chunk, rest⟩ := cr
      simp only [processLineOld_false, Bool.false_eq_true, if_false]
      exact ih _ _

/-- C27: with `readTitleOnly = false` the method of src/src/old/schema.cpp
handles every line as the method of src/konsole/schema.cpp does and never
leaves the loop early, the loops agree on every input, and the call returns
the same value and leaves the same object (title, image path, alignment,
transparency settings, colour table, `m_fileRead`, time of reading) and the
same `random_hue`; on top of that it sets `m_titleRead` when it returns true
and leaves it alone when it returns false. -/
theorem rereadSchemaFile_old_agrees (env : Env) (o : OldParserState) :
    (∀ st line, processLineOld env false st line = (processLine env st line, false)) ∧
    (∀ fuel input st, readLoopOld env false fuel input st = readLoop env fuel input st) ∧
    (rereadSchemaFileOld env false o).2 = (ColorSchema.rereadSchemaFile env o.st).2 ∧
    (rereadSchemaFileOld env false o).1.st = (ColorSchema.rereadSchemaFile env o.st).1 ∧
    (rereadSchemaFileOld env false o).1.m_titleRead =
      ((ColorSchema.rereadSchemaFile env o.st).2 || o.m_titleRead) := by
  refine ⟨processLineOld_false env, readLoopOld_false env, ?_⟩
  unfold rereadSchemaFileOld ColorSchema.rereadSchemaFile
  simp only []
  generalize ((o.st.schema.schemaPath env).isEmpty ||
    !env.fileExists (o.st.schema.schemaPath env)) = c
  cases c
  · simp only [Bool.false_eq_true, if_false]
    cases env.fopen (o.st.schema.schemaPath env) with
    | none => exact ⟨rfl, rfl, rfl⟩
    | some content =>
      simp [readLoopOld_false]
  · exact ⟨rfl, rfl, rfl⟩

/-- The method of src/src/old/schema.cpp with `readTitleOnly = true`, on the
file of `demoEnv`: the loop is left behind the title, the colour table is the
cleared one and `m_fileRead` stays false. -/
theorem rereadSchemaFileOld_title_only :
    (rereadSchemaFileOld demoEnv true ⟨demoStart, false⟩).2 = true ∧
    (rereadSchemaFileOld demoEnv true ⟨demoStart, false⟩).1.m_titleRead = true ∧
    (rereadSchemaFileOld demoEnv true ⟨demoStart, false⟩).1.st.schema.m_title = "Demo" ∧
    (rereadSchemaFileOld demoEnv true ⟨demoStart, false⟩).1.st.schema.m_fileRead = false ∧
    (rereadSchemaFileOld demoEnv true ⟨demoStart, false⟩).1.st.schema.m_table =
      demoStart.schema.m_table ∧
    (rereadSchemaFileOld demoEnv false ⟨demoStart, false⟩).1.st.schema.m_table ≠
      demoStart.schema.m_table := by
  decide

/-! ## The title directive -/

/-- C29, as stated, fails where `i18n` has a translation: on the
line `title Demo` with `Demo` translated to `Beispiel` the title stored is
`Beispiel`, not the rest of the line from index 6. -/
theorem title_suffix_counterexample :
    5 < "title Demo".data.length ∧ beginsWith "title Demo".data kwTitle ∧
    (processLine translatingEnv demoStart "title Demo".data).schema.m_title = "Beispiel" ∧
    (processLine translatingEnv demoStart "title Demo".data).schema.m_title ≠
      String.mk ("title Demo".data.drop 6) := by
  decide

/-- C29: on a line longer than 5 characters that begins with `title`, the
offset 6 is at most the length of the line (so `line+6` points into the
string or at its terminating NUL), the text handed to `i18n` is the rest of
the line from index 6, of length `length - 6` and empty when the line has
exactly 6 characters, the title stored is what `i18n` returns for it, and
nothing else of the state changes. -/
theorem title_directive (env : Env) (st : ParserState) (line : List Char)
    (hlen : 5 < line.length) (h : beginsWith line kwTitle) :
    6 ≤ line.length ∧
    (line.drop 6).length = line.length - 6 ∧
    (line.length = 6 → String.mk (line.drop 6) = "") ∧
    (processLine env st line).schema.m_title = env.i18n (String.mk (line.drop 6)) ∧
    processLine env st line =
      { st with schema := { st.schema with m_title := env.i18n (String.mk (line.drop 6)) } } := by
  have hp : processLine env st line = (titleBlock env st line).state :=
    (processLine_single env st line kwTitle (by decide) h hlen).1 rfl
  have ht : line.take 5 = kwTitle := h
  have hb : (titleBlock env st line).state =
      { st with schema := { st.schema with m_title := env.i18n (String.mk (line.drop 6)) } } := by
    simp only [titleBlock, ht, if_true, Flow.state]
  refine ⟨hlen, List.length_drop 6 line, ?_, ?_, ?_⟩
  · intro h6
    have : line.drop 6 = [] := List.drop_eq_nil_of_le (le_of_eq h6)
    rw [this]
  · rw [hp, hb]
  · rw [hp, hb]

/-- C29, on the lines `title Demo` and `title ` (6 characters), without and
with a translation. -/
theorem title_directive_witness :
    (processLine demoEnv demoStart "title Demo".data).schema.m_title = "Demo" ∧
    (processLine translatingEnv demoStart "title Demo".data).schema.m_title = "Beispiel" ∧
    ("title ".data.length = 6 → String.mk ("title ".data.drop 6) = "") ∧
    (processLine demoEnv demoStart "title ".data).schema.m_title = "" :=
  ⟨(title_directive demoEnv demoStart "title Demo".data (by decide) (by decide)).2.2.2.1,
    (title_directive translatingEnv demoStart "title Demo".data (by decide) (by decide)).2.2.2.1,
    (title_directive demoEnv demoStart "title ".data (by decide) (by decide)).2.2.1,
    (title_directive demoEnv demoStart "title ".data (by decide) (by decide)).2.2.2.1⟩

/-! ## `Pty::start`: the executable and the arguments -/

theorem or_add_facts :
    (∀ a, a < 64 → a ||| 128 = 128 + a) ∧ (∀ a, a < 32 → a ||| 192 = 192 + a) ∧
    (∀ a, a < 16 → a ||| 224 = 224 + a) ∧ (∀ a, a < 8 → a ||| 240 = 240 + a) := by
  refine ⟨?_, ?_, ?_, ?_⟩ <;> decide

theorem le_lit_iff (v : UInt32) (k : Nat) (hk : k < 4294967296) :
    v ≤ UInt32.ofNat k ↔ v.toNat ≤ k := by
  rw [UInt32.le_def, BitVec.le_def]
  show v.toBitVec.toNat ≤ (BitVec.ofNat 32 k).toNat ↔ _
  rw [BitVec.toNat_ofNat, Nat.mod_eq_of_lt (by simpa using hk)]
  rfl

theorem shift_toUInt8 (v : UInt32) :
    ((v >>> 6).toUInt8).toNat = v.toNat / 64 % 256 ∧
    ((v >>> 12).toUInt8).toNat = v.toNat / 4096 % 256 ∧
    ((v >>> 18).toUInt8).toNat = v.toNat / 262144 % 256 ∧
    (v.toUInt8).toNat = v.toNat % 256 := by
  refine ⟨?_, ?_, ?_, ?_⟩
  · show (BitVec.ofNat 8 (v.toBitVec >>> 6).toNat).toNat = _
    rw [BitVec.toNat_ofNat, BitVec.toNat_ushiftRight, Nat.shiftRight_eq_div_pow]
    rfl
  · show (BitVec.ofNat 8 (v.toBitVec >>> 12).toNat).toNat = _
    rw [BitVec.toNat_ofNat, BitVec.toNat_ushiftRight, Nat.shiftRight_eq_div_pow]
    rfl
  · show (BitVec.ofNat 8 (v.toBitVec >>> 18).toNat).toNat = _
    rw [BitVec.toNat_ofNat, BitVec.toNat_ushiftRight, Nat.shiftRight_eq_div_pow]
    rfl
  · show (BitVec.ofNat 8 v.toBitVec.toNat).toNat = _
    rw [BitVec.toNat_ofNat]
    rfl

theorem tail_byte (b : UInt8) : (b &&& 0x3f ||| 0x80).toNat = 128 + b.toNat % 64 := by
  show ((b.toBitVec &&& 0x3f#8) ||| 0x80#8).toNat = _
  rw [BitVec.toNat_or, BitVec.toNat_and]
  show (b.toBitVec.toNat &&& (2 ^ 6 - 1)) ||| 128 = _
  rw [Nat.and_pow_two_sub_one_eq_mod]
  exact or_add_facts.1 _ (Nat.mod_lt _ (by decide))

theorem lead_bytes (b : UInt8) :
    (b &&& 0x1f ||| 0xc0).toNat = 192 + b.toNat % 32 ∧
    (b &&& 0x0f ||| 0xe0).toNat = 224 + b.toNat % 16 ∧
    (b &&& 0x07 ||| 0xf0).toNat = 240 + b.toNat % 8 := by
  refine ⟨?_, ?_, ?_⟩
  · show ((b.toBitVec &&& 0x1f#8) ||| 0xc0#8).toNat = _
    rw [BitVec.toNat_or, BitVec.toNat_and]
    show (b.toBitVec.toNat &&& (2 ^ 5 - 1)) ||| 192 = _
    rw [Nat.and_pow_two_sub_one_eq_mod]
    exact or_add_facts.2.1 _ (Nat.mod_lt _ (by decide))
  · show ((b.toBitVec &&& 0x0f#8) ||| 0xe0#8).toNat = _
    rw [BitVec.toNat_or, BitVec.toNat_and]
    show (b.toBitVec.toNat &&& (2 ^ 4 - 1)) ||| 224 = _
    rw [Nat.and_pow_two_sub_one_eq_mod]
    exact or_add_facts.2.2.1 _ (Nat.mod_lt _ (by decide))
  · show ((b.toBitVec &&& 0x07#8) ||| 0xf0#8).toNat = _
    rw [BitVec.toNat_or, BitVec.toNat_and]
    show (b.toBitVec.toNat &&& (2 ^ 3 - 1)) ||| 240 = _
    rw [Nat.and_pow_two_sub_one_eq_mod]
    exact or_add_facts.2.2.2 _ (Nat.mod_lt _ (by decide))

theorem char_toNat_lt (c : Char) : c.toNat < 1114112 := by
  have h := c.valid
  unfold UInt32.isValidChar Nat.isValidChar at h
  show c.val.toNat < 1114112
  omega

theorem utf8EncodeChar_bytes (c : Char) :
    (String.utf8EncodeChar c).map UInt8.toNat = utf8Bytes c.toNat := by
  have hlt := char_toNat_lt c
  have hn : c.toNat = c.val.toNat := rfl
  obtain ⟨s6, s12, s18, s0⟩ := shift_toUInt8 c.val
  unfold String.utf8EncodeChar utf8Bytes
  simp only []
  have c1 : c.val ≤ 0x7f ↔ c.val.toNat ≤ 127 := le_lit_iff c.val 127 (by decide)
  have c2 : c.val ≤ 0x7ff ↔ c.val.toNat ≤ 2047 := le_lit_iff c.val 2047 (by decide)
  have c3 : c.val ≤ 0xffff ↔ c.val.toNat ≤ 65535 := le_lit_iff c.val 65535 (by decide)
  rw [hn] at hlt ⊢
  by_cases h1 : c.val.toNat ≤ 127
  · rw [if_pos (c1.2 h1), if_pos (show c.val.toNat < 128 by omega)]
    simp only [List.map_cons, List.map_nil, s0]
    congr 1
    omega
  rw [if_neg (fun h => h1 (c1.1 h)), if_neg (show ¬ c.val.toNat < 128 by omega)]
  by_cases h2 : c.val.toNat ≤ 2047
  · rw [if_pos (c2.2 h2), if_pos (show c.val.toNat < 2048 by omega)]
    simp only [List.map_cons, List.map_nil, tail_byte, (lead_bytes _).1, s0, s6]
    congr 1
    · omega
    · congr 1; omega
  rw [if_neg (fun h => h2 (c2.1 h)), if_neg (show ¬ c.val.toNat < 2048 by omega)]
  by_cases h3 : c.val.toNat ≤ 65535
  · rw [if_pos (c3.2 h3), if_pos (show c.val.toNat < 65536 by omega)]
    simp only [List.map_cons, List.map_nil, tail_byte, (lead_bytes _).2.1, s0, s6, s12]
    congr 1
    · omega
    · congr 1
      · omega
      · congr 1; omega
  rw [if_neg (fun h => h3 (c3.1 h)), if_neg (show ¬ c.val.toNat < 65536 by omega)]
  simp only [List.map_cons, List.map_nil, tail_byte, (lead_bytes _).2.2, s0, s6, s12, s18]
  congr 1
  · omega
  · congr 1
    · omega
    · congr 1
      · omega
      · congr 1; omega

theorem toUtf8_bytes (s : String) : toUtf8 s = s.data.flatMap fun c => utf8Bytes c.toNat := by
  unfold toUtf8
  congr 1
  funext c
  exact utf8EncodeChar_bytes c

/-- C19, as stated, fails for a program name with a character above U+00FF:
the executable of `/opt/ш/sh` is stored as the bytes of `/opt/?/sh`, which
are neither the characters of the program name nor its UTF-8 form. -/
theorem start_executable_counterexample :
    (Pty.new.start "/opt/ш/sh" [] "" 0 false "" "" true).1.executable =
      "/opt/?/sh".data.map Char.toNat ∧
    (Pty.new.start "/opt/ш/sh" [] "" 0 false "" "" true).1.executable ≠
      "/opt/ш/sh".data.map Char.toNat ∧
    (Pty.new.start "/opt/ш/sh" [] "" 0 false "" "" true).1.executable ≠
      "/opt/ш/sh".data.flatMap (fun c => utf8Bytes c.toNat) := by
  decide

/-- C19: after `Pty::start(program, programArguments, ...)` the executable
is the Latin-1 form of `program`: one byte for every character up to U+00FF,
its code, and a question mark for every UTF-16 code unit above that; so it is
`program` character by character when no character is above U+00FF.  The
argument list is the list of the UTF-8 forms (as RFC 3629 defines them) of
`programArguments`, in their order, whatever the argument list held before;
so a second `start` with the same inputs yields the same argument list, not
a longer one. -/
theorem start_arguments (p : Pty) (program : String) (programArguments : List String)
    (term : String) (winid : Nat) (addToUtmp : Bool) (dbusService dbusSession : String)
    (startOk startOk2 : Bool) :
    (p.start program programArguments term winid addToUtmp dbusService dbusSession
      startOk).1.arguments =
        programArguments.map (fun s => s.data.flatMap fun c => utf8Bytes c.toNat) ∧
    (p.start program programArguments term winid addToUtmp dbusService dbusSession
      startOk).1.executable =
        program.data.flatMap (fun c =>
          if c.toNat < 256 then [c.toNat] else if c.toNat < 65536 then [63] else [63, 63]) ∧
    ((∀ c ∈ program.data, c.toNat < 256) →
      (p.start program programArguments term winid addToUtmp dbusService dbusSession
        startOk).1.executable = program.data.map Char.toNat) ∧
    ((p.start program programArguments term winid addToUtmp dbusService dbusSession
        startOk).1.start program programArguments term winid addToUtmp dbusService dbusSession
        startOk2).1.arguments =
        programArguments.map (fun s => s.data.flatMap fun c => utf8Bytes c.toNat) := by
  have hmap : programArguments.map toUtf8 =
      programArguments.map (fun s => s.data.flatMap fun c => utf8Bytes c.toNat) :=
    List.map_congr_left fun s _ => toUtf8_bytes s
  have harg : ∀ (q : Pty) (b : Bool),
      (q.start program programArguments term winid addToUtmp dbusService dbusSession
        b).1.arguments = programArguments.map toUtf8 := by
    intro q b
    simp only [Pty.start]
    cases b <;> cases term.isEmpty <;> cases dbusService.isEmpty <;>
      cases dbusSession.isEmpty <;> simp
  have hexe : (p.start program programArguments term winid addToUtmp dbusService dbusSession
      startOk).1.executable = toLatin1 program := by
    simp only [Pty.start]
    cases startOk <;> cases term.isEmpty <;> cases dbusService.isEmpty <;>
      cases dbusSession.isEmpty <;> simp
  refine ⟨(harg p startOk).trans hmap, hexe, ?_, (harg _ startOk2).trans hmap⟩
  intro hl
  rw [hexe]
  exact toLatin1_of_latin1 program.data hl

/-- C19, on a start of `/bin/sh` with the arguments `é€` and `-l`, from a
state whose argument list is not empty. -/
theorem start_arguments_witness :
    (∀ c ∈ "/bin/sh".data, c.toNat < 256) ∧
    ({ Pty.new with arguments := [[120]] }.start "/bin/sh" ["é€", "-l"] "xterm" 7 false "" ""
      true).1.executable = "/bin/sh".data.map Char.toNat ∧
    ({ Pty.new with arguments := [[120]] }.start "/bin/sh" ["é€", "-l"] "xterm" 7 false "" ""
      true).1.arguments = [[195, 169, 226, 130, 172], [45, 108]] ∧
    (Pty.new.start "/bin/sh" ["😀"] "xterm" 7 false "" "" true).1.arguments =
      [[240, 159, 152, 128]] :=
  ⟨by decide,
    (start_arguments { Pty.new with arguments := [[120]] } "/bin/sh" ["é€", "-l"] "xterm" 7
      false "" "" true true).2.2.1 (by decide),
    by decide, by decide⟩

/-! ## Colour schemas: the loop on a file of whole lines -/

theorem wholeLine_facts (l : List Char) (h : wholeLine l = true) :
    l ≠ [] ∧ l.length ≤ 80 ∧ (∀ d ∈ l, d.toNat ≠ 10 ∧ d.toNat ≠ 0) ∧
    (∀ c ∈ l.head?, isspace c = false) := by
  cases l with
  | nil => simp [wholeLine] at h
  | cons c cs =>
    simp only [wholeLine, Bool.and_eq_true, Bool.not_eq_true', decide_eq_true_eq,
      List.all_eq_true, bne_iff_ne, ne_eq] at h
    obtain ⟨⟨h1, h2⟩, h3⟩ := h
    refine ⟨by simp, h2, ?_, ?_⟩
    · intro d hd
      exact h3 d hd
    · intro x hx
      simp only [List.head?_cons, Option.mem_def, Option.some.injEq] at hx
      rw [← hx]
      exact h1

theorem fileOf_cons (l : List Char) (ls : List (List Char)) :
    fileOf (l :: ls) = l ++ '\n' :: fileOf ls := by
  simp [fileOf]

theorem skipSpace_fileOf (ls : List (List Char)) (h : ∀ l ∈ ls, wholeLine l = true) :
    skipSpace (fileOf ls) = fileOf ls := by
  cases ls with
  | nil => rfl
  | cons l rest =>
    have hl := wholeLine_facts l (h l (List.mem_cons_self l rest))
    rw [fileOf_cons]
    cases l with
    | nil => exact absurd rfl hl.1
    | cons c cs =>
      have hc : isspace c = false := hl.2.2.2 c rfl
      simp [skipSpace, List.dropWhile, hc]

theorem fscanfLine_fileOf (l : List Char) (ls : List (List Char))
    (h : ∀ x ∈ l :: ls, wholeLine x = true) :
    fscanfLine (fileOf (l :: ls)) = some (l, fileOf ls) ∧ cstr l = l := by
  obtain ⟨hne, hlen, hall, _⟩ := wholeLine_facts l (h l (List.mem_cons_self l ls))
  have htw : (l ++ '\n' :: fileOf ls).takeWhile (fun c => c.toNat != 10) = l := by
    rw [List.takeWhile_append_of_pos]
    · simp [List.takeWhile]
    · intro d hd
      simpa using (hall d hd).1
  have hcs : cstr l = l := by
    unfold cstr
    rw [List.takeWhile_eq_self_iff]
    intro d hd
    simpa using (hall d hd).2
  refine ⟨?_, hcs⟩
  unfold fscanfLine
  rw [fileOf_cons, htw]
  have htake : l.take 80 = l := List.take_of_length_le hlen
  simp only [htake]
  have hemp : l.isEmpty = false := by
    cases l with
    | nil => exact absurd rfl hne
    | cons c cs => rfl
  simp only [hemp, Bool.false_eq_true, if_false, Option.some.injEq, Prod.mk.injEq, true_and]
  rw [List.drop_left]
  have hsk : skipSpace ('\n' :: fileOf ls) = skipSpace (fileOf ls) := by
    simp [skipSpace, List.dropWhile, isspace]
  rw [hsk]
  exact skipSpace_fileOf ls fun x hx => h x (List.mem_cons_of_mem l hx)

theorem readLoop_fileOf (env : Env) : ∀ (ls : List (List Char)) (fuel : Nat) (st : ParserState),
    (∀ l ∈ ls, wholeLine l = true) → ls.length ≤ fuel →
    readLoop env fuel (fileOf ls) st = ls.foldl (processLine env) st := by
  intro ls
  induction ls with
  | nil =>
    intro fuel st _ _
    cases fuel with
    | zero => rfl
    | succ n => simp [readLoop, fscanfLine, fileOf]
  | cons l rest ih =>
    intro fuel st h hf
    cases fuel with
    | zero => simp at hf
    | succ n =>
      obtain ⟨h1, h2⟩ := fscanfLine_fileOf l rest h
      unfold readLoop
      rw [h1]
      simp only [h2, List.foldl_cons]
      exact ih n _ (fun x hx => h x (List.mem_cons_of_mem l hx)) (by simpa using hf)

theorem length_le_fileOf (ls : List (List Char)) : ls.length ≤ (fileOf ls).length := by
  induction ls with
  | nil => simp [fileOf]
  | cons l rest ih =>
    rw [fileOf_cons]
    simp only [List.length_cons, List.length_append]
    omega

theorem glibcConv_of_int (v : Int) (h1 : -(2 ^ 31) ≤ v) (h2 : v < 2 ^ 31) : glibcConv v = v := by
  unfold glibcConv
  have e1 : min v (2 ^ 63 - 1) = v := min_eq_left (by omega)
  have e2 : max (-(2 ^ 63)) v = v := max_eq_right (by omega)
  rw [e1, e2]
  omega

/-! ## Colour schemas: the colour line -/

/-- C12, as stated, fails.  An in-range line is not applied when the file
starts with an empty line (the first `fscanf` stores nothing and the loop
ends: the call returns true with the table as it was), nor when it is longer
than 80 characters (it is read in two pieces, the first with five numbers).
And with `%d` as the GNU C library has it, the line with the index
4294967299, which is out of range, sets entry 3. -/
theorem color_line_counterexample :
    ((ColorSchema.rereadSchemaFile blankLineEnv demoStart).2 = true ∧
      (ColorSchema.rereadSchemaFile blankLineEnv demoStart).1.schema.m_table =
        demoStart.schema.m_table ∧
      demoStart.schema.m_table.get? 3 ≠ some ⟨QColor.rgb 178 24 24, 0, 0⟩ ∧
      (readLoop demoEnv 23 "color 3 178 24 24 0 0\n".data demoStart).schema.m_table.get? 3 =
        some ⟨QColor.rgb 178 24 24, 0, 0⟩) ∧
    (sscanfInts demoEnv.conv kwColor 6 (longColorLine.take 80) = [3, 178, 24, 24, 0] ∧
      (readLoop demoEnv 86 (longColorLine ++ ['\n']) demoStart).schema.m_table =
        demoStart.schema.m_table) ∧
    (¬ ((0 : Int) ≤ 4294967299 ∧ (4294967299 : Int) < TABLE_COLORS) ∧
      sscanfInts wrapEnv.conv kwColor 6 "color 4294967299 178 24 24 0 0".data =
        [3, 178, 24, 24, 0, 0] ∧
      (processLine wrapEnv demoStart "color 4294967299 178 24 24 0 0".data).schema.m_table.get? 3
        = some ⟨QColor.rgb 178 24 24, 0, 0⟩ ∧
      (processLine wrapEnv demoStart "color 4294967299 178 24 24 0 0".data).schema.m_table ≠
        demoStart.schema.m_table) := by
  refine ⟨⟨by decide, by decide, by decide, by decide⟩, ⟨by decide, by decide⟩,
    ⟨by decide, by decide, by decide, by decide⟩⟩

/-- C12: a file made of whole lines (not empty, at most 80 characters, no
white space at the start) is read line by line: the loop of
`rereadSchemaFile` is the loop body applied to the lines in order, and the
call returns true with that result and `m_fileRead` set.  On a line on which
`sscanf(line, "color %d %d %d %d %d %d", ...)` stores six `int`s
`fi cr cg cb tr bo`, the loop body assigns `m_table[fi]` the entry with
colour `(cr,cg,cb)`, transparent `tr` and bold `bo` if `0 <= fi <
TABLE_COLORS`, each of `cr cg cb` is in 0..255 and each of `tr bo` is in
0..1, and nothing else of the schema changes; if any of the six is out of
range the state is left as it was, and so it is on a line that starts with
`color` on which fewer than six are stored.  On the line made of `color` and
six numbers in decimal, `sscanf` stores the six `int`s that `%d` yields for
the six numbers; where `%d` stores every number an `int` can hold as it is,
that line, for six numbers an `int` can hold, has exactly the effect
described. -/
theorem color_directive (env : Env) (st : ParserState) (line : List Char) :
    (∀ (lines : List (List Char)) (fuel : Nat), (∀ l ∈ lines, wholeLine l = true) →
      lines.length ≤ fuel →
      readLoop env fuel (fileOf lines) st = lines.foldl (processLine env) st) ∧
    (∀ lines : List (List Char), (∀ l ∈ lines, wholeLine l = true) →
      (st.schema.schemaPath env).isEmpty = false →
      env.fileExists (st.schema.schemaPath env) = true →
      env.fopen (st.schema.schemaPath env) = some (fileOf lines) →
      (ColorSchema.rereadSchemaFile env st).2 = true ∧
      (ColorSchema.rereadSchemaFile env st).1.random_hue =
        (lines.foldl (processLine env)
          { st with schema := { st.schema with lastRead := some env.currentDateTime } }).random_hue ∧
      (ColorSchema.rereadSchemaFile env st).1.schema =
        { (lines.foldl (processLine env)
            { st with schema := { st.schema with lastRead := some env.currentDateTime } }).schema
          with m_fileRead := true }) ∧
    (∀ fi cr cg cb tr bo : Int,
      sscanfInts env.conv kwColor 6 line = [fi, cr, cg, cb, tr, bo] →
      processLine env st line =
        (if 0 ≤ fi ∧ fi < TABLE_COLORS ∧ 0 ≤ cr ∧ cr ≤ 255 ∧ 0 ≤ cg ∧ cg ≤ 255 ∧
            0 ≤ cb ∧ cb ≤ 255 ∧ 0 ≤ tr ∧ tr ≤ 1 ∧ 0 ≤ bo ∧ bo ≤ 1 then
          { st with
            schema := { st.schema with
              m_table := st.schema.m_table.set fi.toNat ⟨QColor.rgb cr cg cb, tr, bo⟩ }
            written := st.written ++ [fi] }
        else st)) ∧
    (line.take 5 = kwColor → (sscanfInts env.conv kwColor 6 line).length ≠ 6 →
      processLine env st line = st) ∧
    (∀ fi cr cg cb tr bo : Int,
      sscanfInts env.conv kwColor 6 (colorLine fi cr cg cb tr bo) =
        [env.conv fi, env.conv cr, env.conv cg, env.conv cb, env.conv tr, env.conv bo]) ∧
    ((∀ v : Int, -(2 ^ 31) ≤ v → v < 2 ^ 31 → env.conv v = v) →
      ∀ fi cr cg cb tr bo : Int,
      (∀ v ∈ [fi, cr, cg, cb, tr, bo], -(2 ^ 31) ≤ v ∧ v < 2 ^ 31) →
      processLine env st (colorLine fi cr cg cb tr bo) =
        (if 0 ≤ fi ∧ fi < TABLE_COLORS ∧ 0 ≤ cr ∧ cr ≤ 255 ∧ 0 ≤ cg ∧ cg ≤ 255 ∧
            0 ≤ cb ∧ cb ≤ 255 ∧ 0 ≤ tr ∧ tr ≤ 1 ∧ 0 ≤ bo ∧ bo ≤ 1 then
          { st with
            schema := { st.schema with
              m_table := st.schema.m_table.set fi.toNat ⟨QColor.rgb cr cg cb, tr, bo⟩ }
            written := st.written ++ [fi] }
        else st)) := by
  refine ⟨fun lines fuel h hf => readLoop_fileOf env lines fuel st h hf, ?_,
    fun fi cr cg cb tr bo h => color_line_effect env st line fi cr cg cb tr bo h, ?_,
    fun fi cr cg cb tr bo => sscanf_colorLine env.conv fi cr cg cb tr bo, ?_⟩
  · intro lines h hne hex hopen
    have hloop := readLoop_fileOf env lines (fileOf lines).length
      { st with schema := { st.schema with lastRead := some env.currentDateTime } } h
      (length_le_fileOf lines)
    have hu : ColorSchema.rereadSchemaFile env st =
        ({ (readLoop env (fileOf lines).length (fileOf lines)
              { st with schema := { st.schema with lastRead := some env.currentDateTime } }) with
            schema := { (readLoop env (fileOf lines).length (fileOf lines)
              { st with schema := { st.schema with lastRead := some env.currentDateTime } }).schema
              with m_fileRead := true } }, true) := by
      unfold ColorSchema.rereadSchemaFile
      simp only [hne, hex, Bool.not_true, Bool.or_false, Bool.false_eq_true, if_false, hopen]
    rw [hu, hloop]
    exact ⟨rfl, rfl, rfl⟩
  · intro h5 hn
    by_cases hlen : 5 < line.length
    · rw [processLine_color_line env st line h5 hlen]
      simp only [colorBlock, h5, if_true]
      split
      · rename_i heq
        rw [heq] at hn
        exact absurd rfl hn
      · rfl
    · simp [processLine, hlen]
  · intro hconv fi cr cg cb tr bo hr
    have hs := sscanf_colorLine env.conv fi cr cg cb tr bo
    have e : ∀ v ∈ [fi, cr, cg, cb, tr, bo], env.conv v = v :=
      fun v hv => hconv v (hr v hv).1 (hr v hv).2
    rw [e fi (by simp), e cr (by simp), e cg (by simp), e cb (by simp), e tr (by simp),
      e bo (by simp)] at hs
    exact color_line_effect env st _ fi cr cg cb tr bo hs

/-- C12, on the file of `demoEnv`, which is three whole lines, with the line
`color 3 178 24 24 0 0` among them, on that line by itself, on the line with
the red component 300, and on a line with five numbers. -/
theorem color_directive_witness :
    demoEnv.fopen (demoStart.schema.schemaPath demoEnv) =
      some (fileOf ["title Demo".data, "color 3 178 24 24 0 0".data,
        "transparency 0.5 300 0 0".data]) ∧
    (ColorSchema.rereadSchemaFile demoEnv demoStart).1.schema =
      { (["title Demo".data, "color 3 178 24 24 0 0".data,
            "transparency 0.5 300 0 0".data].foldl (processLine demoEnv)
          { demoStart with
            schema := { demoStart.schema with lastRead := some demoEnv.currentDateTime } }).schema
        with m_fileRead := true } ∧
    (ColorSchema.rereadSchemaFile demoEnv demoStart).1.schema.m_table.get? 3 =
      some ⟨QColor.rgb 178 24 24, 0, 0⟩ ∧
    sscanfInts demoEnv.conv kwColor 6 "color 3 178 24 24 0 0".data = [3, 178, 24, 24, 0, 0] ∧
    processLine demoEnv demoStart "color 3 178 24 24 0 0".data =
      (if (0:Int) ≤ 3 ∧ (3:Int) < TABLE_COLORS ∧ (0:Int) ≤ 178 ∧ (178:Int) ≤ 255 ∧
          (0:Int) ≤ 24 ∧ (24:Int) ≤ 255 ∧ (0:Int) ≤ 24 ∧ (24:Int) ≤ 255 ∧
          (0:Int) ≤ 0 ∧ (0:Int) ≤ 1 ∧ (0:Int) ≤ 0 ∧ (0:Int) ≤ 1 then
        { demoStart with
          schema := { demoStart.schema with
            m_table := demoStart.schema.m_table.set (3:Int).toNat ⟨QColor.rgb 178 24 24, 0, 0⟩ }
          written := demoStart.written ++ [3] }
      else demoStart) ∧
    processLine wrapEnv demoStart (colorLine 3 300 24 24 0 0) =
      (if (0:Int) ≤ 3 ∧ (3:Int) < TABLE_COLORS ∧ (0:Int) ≤ 300 ∧ (300:Int) ≤ 255 ∧
          (0:Int) ≤ 24 ∧ (24:Int) ≤ 255 ∧ (0:Int) ≤ 24 ∧ (24:Int) ≤ 255 ∧
          (0:Int) ≤ 0 ∧ (0:Int) ≤ 1 ∧ (0:Int) ≤ 0 ∧ (0:Int) ≤ 1 then
        { demoStart with
          schema := { demoStart.schema with
            m_table := demoStart.schema.m_table.set (3:Int).toNat ⟨QColor.rgb 300 24 24, 0, 0⟩ }
          written := demoStart.written ++ [3] }
      else demoStart) ∧
    readLoop demoEnv 3 (fileOf ["title Demo".data, "color 3 178 24 24 0 0".data,
        "transparency 0.5 300 0 0".data]) demoStart =
      ["title Demo".data, "color 3 178 24 24 0 0".data,
        "transparency 0.5 300 0 0".data].foldl (processLine demoEnv) demoStart ∧
    processLine demoEnv demoStart "color 3 178 24 24 0".data = demoStart :=
  ⟨by decide,
    ((color_directive demoEnv demoStart []).2.1
      ["title Demo".data, "color 3 178 24 24 0 0".data, "transparency 0.5 300 0 0".data]
      (by decide) (by decide) (by decide) (by decide)).2.2,
    by decide, by decide,
    (color_directive demoEnv demoStart "color 3 178 24 24 0 0".data).2.2.1 3 178 24 24 0 0
      (by decide),
    (color_directive wrapEnv demoStart []).2.2.2.2.2
      (fun v h1 h2 => glibcConv_of_int v h1 h2) 3 300 24 24 0 0 (by decide),
    (color_directive demoEnv demoStart []).1
      ["title Demo".data, "color 3 178 24 24 0 0".data, "transparency 0.5 300 0 0".data] 3
      (by decide) (by decide),
    (color_directive demoEnv demoStart "color 3 178 24 24 0".data).2.2.2.1
      (by decide) (by decide)⟩

end Konsole
